import Mathlib

/-!
# DBSCAN (`clustering/dbscan.go`)

A shallow embedding of the density-based clustering routine and the properties
its specification states about it.

* `*big.Int` values used as bit sets are natural numbers (`Big.Bit`,
  `Big.SetBit`, `Big.Or`, `Big.Bytes`).
* `*mat.Dense` is a record of its dimensions and its cell function.
* The distance type `α` is arbitrary: the routine only ever evaluates
  `dist.At(p, i) <= eps`, so any decidable relation `≤` is admitted.
* `map[int][]int` is an association list with distinct keys, in order of
  key creation.
* The closure `expandCluster` mutates `clusterMap`, `visited` and `clustered`;
  these three variables form the record `State` that is threaded explicitly.
-/

namespace Clustering

/-! ## `math/big` integers as bit sets -/

namespace Big

/-- The method `n.Bit(i)`: the value of bit `i` of a non-negative integer. -/
def Bit (n i : Nat) : Nat := if n.testBit i then 1 else 0

/-- The call `z.SetBit(n, i, 1)`: `n` with bit `i` set. -/
def SetBit (n i : Nat) : Nat := n ||| (1 <<< i)

/-- The call `z.Or(x, y)`: bitwise or. -/
def Or (x y : Nat) : Nat := x ||| y

/-- Worker of `Bytes`: pushes base-256 digits, least significant first, onto
the front of the accumulator. -/
def bytesAux : Nat → Nat → List Nat → List Nat
  | 0, _, acc => acc
  | fuel + 1, n, acc =>
    if n = 0 then acc else bytesAux fuel (n / 256) ((n % 256) :: acc)

/-- The method `n.Bytes()`: the big-endian bytes of `n`, without leading
zero bytes. -/
def Bytes (n : Nat) : List Nat := bytesAux n n []

end Big

/-! ## `mat.Dense` -/

/-- A dense matrix: dimensions and cell contents. -/
structure Dense (α : Type) where
  /-- Number of rows. -/
  rows : Nat
  /-- Number of columns. -/
  cols : Nat
  /-- Cell access, `m.At(r, c)`. -/
  At : Nat → Nat → α

/-- The call `mat.NewDense(r, c, nil)`: the zero matrix. -/
def NewDense {α : Type} [Zero α] (r c : Nat) : Dense α :=
  { rows := r, cols := c, At := fun _ _ => 0 }

/-- The call `m.Set(i, j, v)`. -/
def Dense.Set {α : Type} (m : Dense α) (i j : Nat) (v : α) : Dense α :=
  { m with At := fun r c => if r = i ∧ c = j then v else m.At r c }

/-! ## The bit-count table -/

/-- The bit counts for each byte value (0 - 255). -/
def bitCounts : List Int := [
  0, 1, 1, 2, 1, 2, 2, 3,
  1, 2, 2, 3, 2, 3, 3, 4,
  1, 2, 2, 3, 2, 3, 3, 4,
  2, 3, 3, 4, 3, 4, 4, 5,
  1, 2, 2, 3, 2, 3, 3, 4,
  2, 3, 3, 4, 3, 4, 4, 5,
  2, 3, 3, 4, 3, 4, 4, 5,
  3, 4, 4, 5, 4, 5, 5, 6,
  1, 2, 2, 3, 2, 3, 3, 4,
  2, 3, 3, 4, 3, 4, 4, 5,
  2, 3, 3, 4, 3, 4, 4, 5,
  3, 4, 4, 5, 4, 5, 5, 6,
  2, 3, 3, 4, 3, 4, 4, 5,
  3, 4, 4, 5, 4, 5, 5, 6,
  3, 4, 4, 5, 4, 5, 5, 6,
  4, 5, 5, 6, 5, 6, 6, 7,
  1, 2, 2, 3, 2, 3, 3, 4,
  2, 3, 3, 4, 3, 4, 4, 5,
  2, 3, 3, 4, 3, 4, 4, 5,
  3, 4, 4, 5, 4, 5, 5, 6,
  2, 3, 3, 4, 3, 4, 4, 5,
  3, 4, 4, 5, 4, 5, 5, 6,
  3, 4, 4, 5, 4, 5, 5, 6,
  4, 5, 5, 6, 5, 6, 6, 7,
  2, 3, 3, 4, 3, 4, 4, 5,
  3, 4, 4, 5, 4, 5, 5, 6,
  3, 4, 4, 5, 4, 5, 5, 6,
  4, 5, 5, 6, 5, 6, 6, 7,
  3, 4, 4, 5, 4, 5, 5, 6,
  4, 5, 5, 6, 5, 6, 6, 7,
  4, 5, 5, 6, 5, 6, 6, 7,
  5, 6, 6, 7, 6, 7, 7, 8]

/-- How many bits? Sums the table entry of every byte of `n`. -/
def BitCount (n : Nat) : Int :=
  (Big.Bytes n).foldl (fun count b => count + bitCounts.getD b 0) 0

/-! ## Region query and the distance matrix -/

section Core

variable {α : Type} [LE α] [DecidableRel (α := α) (· ≤ ·)]

/-- Marks in `ret` every point within the Eps neighbourhood of `p`. -/
def regionQuery (p : Nat) (ret : Nat) (dist : Dense α) (eps : α) : Nat :=
  (List.range dist.rows).foldl
    (fun ret i => if dist.At p i ≤ eps then Big.SetBit ret i else ret) ret

end Core

/-- Pairwise distances of the row vectors. `conv` is the result of
`base.ConvertAllRowsToMat64` (the vector of row `i` is `mats i`), `rows` the
row count reported by `inst.Size()`. Only the cells above the diagonal are
computed; each is mirrored below it. -/
def computePairwiseDistances {α V ε : Type} [Zero α]
    (conv : Except ε (Nat → V)) (rows : Nat) (metric : V → V → α) :
    Except ε (Dense α) :=
  match conv with
  | .error err => .error err
  | .ok mats =>
    .ok ((List.range rows).foldl
      (fun dist i =>
        (List.range' (i + 1) (rows - (i + 1))).foldl
          (fun dist j =>
            let d := metric (mats i) (mats j)
            (dist.Set i j d).Set j i d)
          dist)
      (NewDense rows rows))

/-! ## The cluster map -/

/-- The type `map[int][]int`: cluster identifier to row indices. -/
abbrev ClusterMap := List (Nat × List Nat)

/-- The read `m[c]`; a missing key reads as the nil slice. -/
def mapGet (m : ClusterMap) (c : Nat) : List Nat := (m.lookup c).getD []

/-- The test `_, ok := m[c]`. -/
def mapHas (m : ClusterMap) (c : Nat) : Bool := (m.lookup c).isSome

/-- The assignment `m[c] = l`. -/
def mapSet : ClusterMap → Nat → List Nat → ClusterMap
  | [], c, l => [(c, l)]
  | (k, v) :: m, c, l => if k = c then (c, l) :: m else (k, v) :: mapSet m c l

/-- The call `delete(m, c)`. -/
def mapDelete (m : ClusterMap) (c : Nat) : ClusterMap := m.filter (fun e => e.1 ≠ c)

/-! ## The traversal -/

/-- The variables captured and mutated by the closure `expandCluster`. -/
structure State where
  /-- The map under construction. -/
  clusterMap : ClusterMap
  /-- The bit set `visited`. -/
  visited : Nat
  /-- The bit set `clustered`. -/
  clustered : Nat
deriving DecidableEq, Repr

/-- Number of rows below `rows` whose `visited` bit is clear. -/
def unvisitedCount (rows visited : Nat) : Nat :=
  ((List.range rows).filter (fun j => !visited.testBit j)).length

section Core

variable {α : Type} [LE α] [DecidableRel (α := α) (· ≤ ·)]

/-- The `for i := 0; i < rows; i++` loop of `expandCluster`, entered at index
`i` with the current `neighbours`. After a promotion the body sets `i = 0` and
the loop's post statement `i++` then runs, so the scan resumes at index 1. -/
def expandLoop (dist : Dense α) (eps : α) (minCount : Int) (rows c : Nat)
    (i : Nat) (neighbours : Nat) (s : State) : State :=
  if h : i < rows then
    if Big.Bit neighbours i = 0 then
      -- Not a neighbour, so skip
      expandLoop dist eps minCount rows c (i + 1) neighbours s
    else if hv : Big.Bit s.visited i = 0 then
      -- not yet visited
      let visited := Big.SetBit s.visited i
      let newNeighbours := regionQuery i 0 dist eps
      let reset : Bool := decide (BitCount newNeighbours ≥ minCount)
      let neighbours := if reset then Big.Or neighbours newNeighbours else neighbours
      let s1 : State :=
        if Big.Bit s.clustered i = 0 then
          { clusterMap := mapSet s.clusterMap c (mapGet s.clusterMap c ++ [i])
            visited := visited
            clustered := Big.SetBit s.clustered i }
        else
          { s with visited := visited }
      expandLoop dist eps minCount rows c ((if reset then 0 else i) + 1) neighbours s1
    else
      expandLoop dist eps minCount rows c (i + 1) neighbours s
  else s
termination_by (unvisitedCount rows s.visited, rows - i)
decreasing_by
  · exact Prod.Lex.right _ (by omega)
  · apply Prod.Lex.left
    have hv0 : s.visited.testBit i = false := by
      unfold Big.Bit at hv
      by_cases hb : s.visited.testBit i = true
      · simp [hb] at hv
      · simpa using hb
    have hsub : (List.range rows).filter (fun j => !(Big.SetBit s.visited i).testBit j)
        = ((List.range rows).filter (fun j => !s.visited.testBit j)).filter (fun j => j ≠ i) := by
      rw [List.filter_filter]
      apply List.filter_congr
      intro j _
      unfold Big.SetBit
      rw [Nat.testBit_lor, Nat.one_shiftLeft, Nat.testBit_two_pow]
      by_cases hji : i = j
      · subst hji; simp
      · have hji2 : ¬ j = i := fun e => hji e.symm
        simp [hji, hji2]
    have hmem : i ∈ (List.range rows).filter (fun j => !s.visited.testBit j) := by
      simp [h, hv0]
    have hlt : unvisitedCount rows (Big.SetBit s.visited i) < unvisitedCount rows s.visited := by
      unfold unvisitedCount
      rw [hsub]
      exact List.length_filter_lt_length_iff_exists.mpr ⟨i, hmem, by simp⟩
    split <;> exact hlt
  · exact Prod.Lex.right _ (by omega)

/-- The closure `expandCluster`: adds `p` to cluster `c`, visiting any
neighbours. -/
def expandCluster (dist : Dense α) (eps : α) (minCount : Int) (rows : Nat)
    (s : State) (p : Nat) (neighbours : Nat) (c : Nat) : State :=
  if Big.Bit s.clustered p = 1 then s
  else
    -- Add this point to cluster C
    let cm := if mapHas s.clusterMap c then s.clusterMap else mapSet s.clusterMap c []
    let cm := mapSet cm c (mapGet cm c ++ [p])
    expandLoop dist eps minCount rows c 0 neighbours
      { clusterMap := cm
        visited := Big.SetBit s.visited p
        clustered := Big.SetBit s.clustered p }

/-- One iteration of the outer loop of `DBSCAN` at row `i`; the pair holds the
closure variables and the cluster counter `c`. -/
def outerStep (dist : Dense α) (eps : α) (minCount : Int) (rows : Nat)
    (st : State × Nat) (i : Nat) : State × Nat :=
  if Big.Bit st.1.visited i = 1 then st -- Already visited here
  else
    let s : State := { st.1 with visited := Big.SetBit st.1.visited i }
    let neighbours := regionQuery i 0 dist eps
    if BitCount neighbours < minCount then
      -- Noise, cluster 0
      ({ s with clustered := Big.Or s.clustered neighbours }, st.2)
    else
      (expandCluster dist eps minCount rows s i neighbours (st.2 + 1), st.2 + 1)

/-- The state before the outer loop. -/
def initState : State × Nat := ({ clusterMap := [], visited := 0, clustered := 0 }, 0)

/-- The outer loop of `DBSCAN` run over the rows `0 .. k-1`. -/
def outerLoopUpTo (dist : Dense α) (eps : α) (minCount : Int) (rows k : Nat) : State × Nat :=
  (List.range k).foldl (outerStep dist eps minCount rows) initState

/-- The whole outer loop `for i := 0; i < rows; i++`. -/
def outerLoop (dist : Dense α) (eps : α) (minCount : Int) (rows : Nat) : State × Nat :=
  outerLoopUpTo dist eps minCount rows rows

end Core

/-- The keys collected in `rmKeys`: those whose index list is shorter than
`minCount`. -/
def rmKeys (m : ClusterMap) (minCount : Int) : List Nat :=
  m.foldl (fun rm e => if ((mapGet m e.1).length : Int) < minCount then rm ++ [e.1] else rm) []

/-- Remove anything from the map which doesn't make minimum points. -/
def prune (m : ClusterMap) (minCount : Int) : ClusterMap :=
  (rmKeys m minCount).foldl mapDelete m

section Core

variable {α : Type} [LE α] [DecidableRel (α := α) (· ≤ ·)]

/-- The body of `DBSCAN` once the distance matrix is available: outer loop,
then pruning. -/
def DBSCANOnMatrix (dist : Dense α) (eps : α) (minCount : Int) (rows : Nat) : ClusterMap :=
  prune (outerLoop dist eps minCount rows).1.clusterMap minCount

/-- DBSCAN clusters the rows and produces a ClusterId->[RowId] map, or the
error of the conversion to numeric vectors. -/
def DBSCAN {V ε : Type} [Zero α] (conv : Except ε (Nat → V)) (rows : Nat)
    (metric : V → V → α) (eps : α) (minCount : Int) : Except ε ClusterMap :=
  match computePairwiseDistances conv rows metric with
  | .error err => .error err
  | .ok dist => .ok (DBSCANOnMatrix dist eps minCount rows)

end Core

/-- The six points of the specification's scenario: 1-D positions. -/
def linePos : Nat → ℚ
  | 0 => 0
  | 1 => 1
  | 2 => 2
  | 3 => 10
  | 4 => 11
  | _ => 12

/-- The distance matrix of `n` points at positions `pos`, distance `|a - b|`. -/
def lineDist (pos : Nat → ℚ) (n : Nat) : Dense ℚ :=
  { rows := n, cols := n, At := fun i j => |pos i - pos j| }

/-- Points at the 1-D positions 0, 1, 2, 3, ...: row `i` sits at position `i`. -/
def unitPos (i : Nat) : ℚ := (i : ℚ)

/-- Four points on the line listed out of order: rows 0, 1, 2, 3 sit at the
positions 0, 2, 1, 3. -/
def zigzagPos : Nat → ℚ
  | 0 => 0
  | 1 => 2
  | 2 => 1
  | _ => 3

/-- Number of positions below `k` at which `n` has a 1 bit. -/
def bitsBelow (k n : Nat) : Nat :=
  ((List.range k).filter (fun j => n.testBit j)).length

section Core

variable {α : Type} [LE α] [DecidableRel (α := α) (· ≤ ·)]

/-- Size of the Eps-neighbourhood of `p`: the rows `j` with
`dist.At p j ≤ eps` (`p` itself included when its self-distance passes). -/
def neighbourCount (dist : Dense α) (eps : α) (p : Nat) : Nat :=
  ((List.range dist.rows).filter (fun j => decide (dist.At p j ≤ eps))).length

/-- Core point: the Eps-neighbourhood has at least `minCount` members. -/
def IsCore (dist : Dense α) (eps : α) (minCount : Int) (p : Nat) : Prop :=
  minCount ≤ (neighbourCount dist eps p : Int)

instance (dist : Dense α) (eps : α) (minCount : Int) (p : Nat) :
    Decidable (IsCore dist eps minCount p) := by
  unfold IsCore; infer_instance

end Core

/-- All row indices listed in a cluster map, entry after entry. -/
def members (m : ClusterMap) : List Nat := (m.map Prod.snd).flatten

/-- The keys of a cluster map. -/
def keys (m : ClusterMap) : List Nat := m.map Prod.fst

section Core

variable {α : Type} [LE α] [DecidableRel (α := α) (· ≤ ·)]

/-- The value of `reset` when row `i` is first visited: whether `i` is
promoted to a core point. -/
def promoted (dist : Dense α) (eps : α) (minCount : Int) (i : Nat) : Bool :=
  decide (BitCount (regionQuery i 0 dist eps) ≥ minCount)

/-- The set `neighbours` after the first visit of row `i`. -/
def visitNeighbours (dist : Dense α) (eps : α) (minCount : Int) (i nb : Nat) : Nat :=
  if promoted dist eps minCount i then Big.Or nb (regionQuery i 0 dist eps) else nb

/-- The loop index after the first visit of row `i`. -/
def visitNext (dist : Dense α) (eps : α) (minCount : Int) (i : Nat) : Nat :=
  (if promoted dist eps minCount i then 0 else i) + 1

end Core

/-- The closure variables after the first visit of row `i` during the
expansion of cluster `c`. -/
def visitState (c i : Nat) (s : State) : State :=
  if Big.Bit s.clustered i = 0 then
    { clusterMap := mapSet s.clusterMap c (mapGet s.clusterMap c ++ [i])
      visited := Big.SetBit s.visited i
      clustered := Big.SetBit s.clustered i }
  else
    { s with visited := Big.SetBit s.visited i }

/-- The closure variables once `expandCluster` has added the seed `p` to
cluster `c`, before its loop starts. -/
def seedState (c p : Nat) (s : State) : State :=
  let cm := if mapHas s.clusterMap c then s.clusterMap else mapSet s.clusterMap c []
  { clusterMap := mapSet cm c (mapGet cm c ++ [p])
    visited := Big.SetBit s.visited p
    clustered := Big.SetBit s.clustered p }

/-- Well-formedness of the outer-loop variables before row `k` is examined. -/
structure WellFormed (rows k : Nat) (st : State × Nat) : Prop where
  /-- At most one identifier is handed out per row. -/
  counter_le : st.2 ≤ k
  /-- No key occurs twice. -/
  keys_nodup : (keys st.1.clusterMap).Nodup
  /-- Keys are positive and were handed out by the counter. -/
  keys_range : ∀ key ∈ keys st.1.clusterMap, 1 ≤ key ∧ key ≤ st.2
  /-- No row is listed twice, within an entry or across entries. -/
  members_nodup : (members st.1.clusterMap).Nodup
  /-- Listed rows are rows of the data. -/
  members_lt : ∀ x ∈ members st.1.clusterMap, x < rows
  /-- Listed rows are marked in `clustered`. -/
  members_clustered : ∀ x ∈ members st.1.clusterMap, st.1.clustered.testBit x = true
  /-- Every row below `k` has been visited. -/
  visited_below : ∀ j, j < k → st.1.visited.testBit j = true
  /-- Only rows of the data are marked visited. -/
  visited_lt : ∀ j, st.1.visited.testBit j = true → j < rows

section Core

variable {α : Type} [LE α] [DecidableRel (α := α) (· ≤ ·)]

/-- Row `x` is a core point or lies in the Eps-neighbourhood of a core point
`k` (`dist.At k x ≤ eps`, the test `regionQuery k` applies to `x`). -/
def PulledIn (dist : Dense α) (eps : α) (minCount : Int) (rows x : Nat) : Prop :=
  IsCore dist eps minCount x ∨
    ∃ k, k < rows ∧ IsCore dist eps minCount k ∧ dist.At k x ≤ eps

end Core

section Core

variable {α : Type} [LE α] [DecidableRel (α := α) (· ≤ ·)]

/-- Chains of core points from `p`: `ReachVia dist eps minCount ok p q` holds
when there are rows `p = k0, k1, ..., km`, each `k(t+1)` in the
Eps-neighbourhood of `k(t)`, every one of `k1, ..., km` a core point that
satisfies `ok`, and `q` lies in the Eps-neighbourhood of `km`. -/
inductive ReachVia (dist : Dense α) (eps : α) (minCount : Int) (ok : Nat → Prop) (p : Nat) :
    Nat → Prop
  | base (q : Nat) : q < dist.rows → dist.At p q ≤ eps → ReachVia dist eps minCount ok p q
  | step (k q : Nat) : ReachVia dist eps minCount ok p k → ok k →
      IsCore dist eps minCount k → q < dist.rows → dist.At k q ≤ eps →
      ReachVia dist eps minCount ok p q

/-- Row `q` is density-reachable from the core row `p`: a chain of core points
starts at `p`, consecutive ones within Eps, and `q` is within Eps of the last. -/
def DensityReachable (dist : Dense α) (eps : α) (minCount : Int) (p q : Nat) : Prop :=
  IsCore dist eps minCount p ∧ ReachVia dist eps minCount (fun _ => True) p q

end Core

/-! ## The traversal as the specification words it -/

section Core

variable {α : Type} [LE α] [DecidableRel (α := α) (· ≤ ·)]

/-- The expansion scan of the specification (its section 4.3, step 3):
candidates are taken in ascending order; a candidate outside the neighbour set
or already visited is skipped; an unvisited one is marked visited and appended
to the cluster unless it is in ClusteredSet; when its neighbourhood has at
least `minCount` members the neighbourhood is united into the neighbour set
and the iteration index restarts at 0. -/
def specExpandLoop (dist : Dense α) (eps : α) (minCount : Int) (rows c : Nat)
    (i : Nat) (neighbours : Nat) (s : State) : State :=
  if h : i < rows then
    if neighbours.testBit i = false then
      specExpandLoop dist eps minCount rows c (i + 1) neighbours s
    else if hv : s.visited.testBit i = false then
      if IsCore dist eps minCount i then
        specExpandLoop dist eps minCount rows c 0
          (Big.Or neighbours (regionQuery i 0 dist eps)) (visitState c i s)
      else
        specExpandLoop dist eps minCount rows c (i + 1) neighbours (visitState c i s)
    else
      specExpandLoop dist eps minCount rows c (i + 1) neighbours s
  else s
termination_by (unvisitedCount rows s.visited, rows - i)
decreasing_by
  all_goals
    first
    | exact Prod.Lex.right _ (by omega)
    | (apply Prod.Lex.left
       have hvis : (visitState c i s).visited = Big.SetBit s.visited i := by
         unfold visitState; split <;> rfl
       have hsub : (List.range rows).filter (fun j => !(Big.SetBit s.visited i).testBit j)
           = ((List.range rows).filter (fun j => !s.visited.testBit j)).filter
               (fun j => j ≠ i) := by
         rw [List.filter_filter]
         apply List.filter_congr
         intro j _
         unfold Big.SetBit
         rw [Nat.testBit_lor, Nat.one_shiftLeft, Nat.testBit_two_pow]
         by_cases hji : i = j
         · subst hji; simp
         · have hji2 : ¬ j = i := fun e => hji e.symm
           simp [hji, hji2]
       have hmem : i ∈ (List.range rows).filter (fun j => !s.visited.testBit j) := by
         simp [h, hv]
       show unvisitedCount rows (visitState c i s).visited < unvisitedCount rows s.visited
       rw [hvis]
       unfold unvisitedCount
       rw [hsub]
       exact List.length_filter_lt_length_iff_exists.mpr ⟨i, hmem, by simp⟩)

/-- The expansion of the specification (section 4.3, steps 1 and 2, then the
scan): nothing happens when the seed is in ClusteredSet; otherwise the seed is
added to the cluster and marked, and the scan starts at index 0. -/
def specExpandCluster (dist : Dense α) (eps : α) (minCount : Int) (rows : Nat)
    (s : State) (p : Nat) (neighbours : Nat) (c : Nat) : State :=
  if s.clustered.testBit p = true then s
  else specExpandLoop dist eps minCount rows c 0 neighbours (seedState c p s)

/-- One row of the assembler of the specification (section 4.4, step 1); the
size of a neighbourhood is its number of rows. -/
def specOuterStep (dist : Dense α) (eps : α) (minCount : Int) (rows : Nat)
    (st : State × Nat) (i : Nat) : State × Nat :=
  if st.1.visited.testBit i = true then st
  else
    let s : State := { st.1 with visited := Big.SetBit st.1.visited i }
    let neighbours := regionQuery i 0 dist eps
    if (neighbourCount dist eps i : Int) < minCount then
      ({ s with clustered := Big.Or s.clustered neighbours }, st.2)
    else
      (specExpandCluster dist eps minCount rows s i neighbours (st.2 + 1), st.2 + 1)

/-- The assembler of the specification over the rows `0 .. k-1`. -/
def specOuterLoopUpTo (dist : Dense α) (eps : α) (minCount : Int) (rows k : Nat) :
    State × Nat :=
  (List.range k).foldl (specOuterStep dist eps minCount rows) initState

/-- The clustering of the specification: the assembler over all rows, then
(section 4.4, step 2) every entry with fewer than `minCount` rows removed. -/
def specDBSCANOnMatrix (dist : Dense α) (eps : α) (minCount : Int) (rows : Nat) : ClusterMap :=
  (specOuterLoopUpTo dist eps minCount rows rows).1.clusterMap.filter
    (fun e => decide (minCount ≤ (e.2.length : Int)))

end Core

/-! ## The expansion loop with a step budget -/

section Core

variable {α : Type} [LE α] [DecidableRel (α := α) (· ≤ ·)]

/-- The loop of `expandCluster` run for at most `fuel` executions of its
body: `none` when the loop has not ended by then, otherwise the closure
variables at the end together with the number of restarts (executions of
`i = 0`) performed. -/
def expandLoopFuel (dist : Dense α) (eps : α) (minCount : Int) (rows c : Nat) :
    Nat → Nat → Nat → State → Option (State × Nat)
  | 0, i, _, s => if i < rows then none else some (s, 0)
  | fuel + 1, i, neighbours, s =>
    if i < rows then
      if Big.Bit neighbours i = 0 then
        expandLoopFuel dist eps minCount rows c fuel (i + 1) neighbours s
      else if Big.Bit s.visited i = 0 then
        let visited := Big.SetBit s.visited i
        let newNeighbours := regionQuery i 0 dist eps
        let reset : Bool := decide (BitCount newNeighbours ≥ minCount)
        let neighbours := if reset then Big.Or neighbours newNeighbours else neighbours
        let s1 : State :=
          if Big.Bit s.clustered i = 0 then
            { clusterMap := mapSet s.clusterMap c (mapGet s.clusterMap c ++ [i])
              visited := visited
              clustered := Big.SetBit s.clustered i }
          else
            { s with visited := visited }
        (expandLoopFuel dist eps minCount rows c fuel ((if reset then 0 else i) + 1)
          neighbours s1).map (fun r => (r.1, if reset then r.2 + 1 else r.2))
      else
        expandLoopFuel dist eps minCount rows c fuel (i + 1) neighbours s
    else some (s, 0)

end Core

/-! ## Bit sets -/

theorem Big.bit_eq_zero (n i : Nat) : Big.Bit n i = 0 ↔ n.testBit i = false := by
  unfold Big.Bit; by_cases h : n.testBit i = true <;> simp [h]

theorem Big.bit_eq_one (n i : Nat) : Big.Bit n i = 1 ↔ n.testBit i = true := by
  unfold Big.Bit; by_cases h : n.testBit i = true <;> simp [h]

theorem Big.testBit_setBit (n i j : Nat) :
    (Big.SetBit n i).testBit j = (n.testBit j || decide (i = j)) := by
  unfold Big.SetBit
  rw [Nat.testBit_lor, Nat.one_shiftLeft, Nat.testBit_two_pow]

theorem Big.testBit_or (x y j : Nat) :
    (Big.Or x y).testBit j = (x.testBit j || y.testBit j) := by
  unfold Big.Or; exact Nat.testBit_lor x y j

theorem Big.testBit_setBit_self (n i : Nat) : (Big.SetBit n i).testBit i = true := by
  simp [Big.testBit_setBit]

theorem Big.testBit_setBit_of_true (n i j : Nat) (h : n.testBit j = true) :
    (Big.SetBit n i).testBit j = true := by
  simp [Big.testBit_setBit, h]

/-! ## `BitCount` is the population count -/

theorem Big.bytesAux_eq (fuel : Nat) : ∀ (n : Nat) (acc : List Nat), n ≤ fuel →
    Big.bytesAux fuel n acc = Big.Bytes n ++ acc := by
  induction fuel using Nat.strong_induction_on with
  | _ fuel ih =>
    intro n acc hn
    cases fuel with
    | zero =>
      have : n = 0 := by omega
      subst this
      simp [Big.Bytes, Big.bytesAux]
    | succ f =>
      by_cases h0 : n = 0
      · subst h0; simp [Big.Bytes, Big.bytesAux]
      · obtain ⟨m, rfl⟩ := Nat.exists_eq_succ_of_ne_zero h0
        have hdiv : (m + 1) / 256 ≤ m := by omega
        have e1 : Big.bytesAux (f + 1) (m + 1) acc
            = Big.bytesAux f ((m + 1) / 256) (((m + 1) % 256) :: acc) := by
          simp [Big.bytesAux]
        have e2 : Big.Bytes (m + 1)
            = Big.bytesAux m ((m + 1) / 256) [(m + 1) % 256] := by
          simp [Big.Bytes, Big.bytesAux]
        rw [e1, e2, ih f (Nat.lt_succ_self f) _ _ (by omega)]
        by_cases hm : m = f
        · subst hm
          rw [ih m (Nat.lt_succ_self m) _ _ hdiv]
          simp
        · rw [ih m (by omega) _ _ hdiv]
          simp

theorem Big.bytes_zero : Big.Bytes 0 = [] := by
  simp [Big.Bytes, Big.bytesAux]

theorem Big.bytes_pos (n : Nat) (h : n ≠ 0) :
    Big.Bytes n = Big.Bytes (n / 256) ++ [n % 256] := by
  obtain ⟨m, rfl⟩ := Nat.exists_eq_succ_of_ne_zero h
  have e2 : Big.Bytes (m + 1) = Big.bytesAux m ((m + 1) / 256) [(m + 1) % 256] := by
    simp [Big.Bytes, Big.bytesAux]
  rw [e2, Big.bytesAux_eq m _ _ (by omega)]

theorem bitCount_zero : BitCount 0 = 0 := by
  simp [BitCount, Big.bytes_zero]

theorem bitCount_pos (n : Nat) (h : n ≠ 0) :
    BitCount n = BitCount (n / 256) + bitCounts.getD (n % 256) 0 := by
  unfold BitCount
  rw [Big.bytes_pos n h, List.foldl_append]
  simp

theorem bitCounts_entry : ∀ b : Fin 256, bitCounts.getD b.val 0 = (bitsBelow 8 b.val : Int) := by
  decide!

theorem bitsBelow_split (m n : Nat) :
    bitsBelow (8 + m) n = bitsBelow 8 (n % 256) + bitsBelow m (n / 256) := by
  unfold bitsBelow
  rw [List.range_add, List.filter_append, List.length_append, List.filter_map, List.length_map]
  congr 2
  · apply List.filter_congr
    intro j hj
    have hj8 : j < 8 := List.mem_range.mp hj
    have := Nat.testBit_mod_two_pow n 8 j
    simp only [hj8, decide_True, Bool.true_and] at this
    exact this.symm
  · apply List.filter_congr
    intro j _
    have := Nat.testBit_shiftRight (i := 8) (j := j) n
    rw [Nat.shiftRight_eq_div_pow] at this
    simpa using this.symm

theorem bitsBelow_mono (k m n : Nat) (hn : n < 2 ^ k) (hkm : k ≤ m) :
    bitsBelow m n = bitsBelow k n := by
  obtain ⟨d, rfl⟩ := Nat.exists_eq_add_of_le hkm
  unfold bitsBelow
  rw [List.range_add, List.filter_append, List.length_append, List.filter_map, List.length_map]
  have : (List.range d).filter ((fun j => n.testBit j) ∘ fun x => k + x) = [] := by
    rw [List.filter_eq_nil_iff]
    intro j _
    have hlt : n < 2 ^ (k + j) :=
      lt_of_lt_of_le hn (Nat.pow_le_pow_right (by decide) (Nat.le_add_right k j))
    simp [Nat.testBit_lt_two_pow hlt]
  rw [this]; simp

/-- `BitCount` counts the 1 bits: for `n` below `2 ^ k` it is the number of
positions below `k` at which `n` has a 1 bit. -/
theorem bitCount_eq_bitsBelow (n : Nat) : ∀ k, n < 2 ^ k → BitCount n = (bitsBelow k n : Int) := by
  induction n using Nat.strong_induction_on with
  | _ n ih =>
    intro k hk
    by_cases h0 : n = 0
    · subst h0
      rw [bitCount_zero]
      simp [bitsBelow]
    · have hdiv : n / 256 < n := Nat.div_lt_self (Nat.pos_of_ne_zero h0) (by decide)
      have hk8 : n < 2 ^ (8 + k) :=
        lt_of_lt_of_le hk (Nat.pow_le_pow_right (by decide) (Nat.le_add_left k 8))
      have hq : n / 256 < 2 ^ k := by
        rw [Nat.div_lt_iff_lt_mul (by decide)]
        have : 2 ^ (8 + k) = 2 ^ k * 256 := by rw [Nat.pow_add, Nat.mul_comm]
        omega
      rw [bitCount_pos n h0, ih _ hdiv k hq, ← bitsBelow_mono k (8 + k) n hk (by omega),
        bitsBelow_split]
      have hb := bitCounts_entry ⟨n % 256, Nat.mod_lt _ (by decide)⟩
      simp only at hb
      rw [hb]
      push_cast
      ring

/-! ## Region queries -/

section Core

variable {α : Type} [LE α] [DecidableRel (α := α) (· ≤ ·)]

theorem testBit_regionQuery_aux (p : Nat) (dist : Dense α) (eps : α) (j : Nat) :
    ∀ (l : List Nat) (ret : Nat),
      (l.foldl (fun ret i => if dist.At p i ≤ eps then Big.SetBit ret i else ret) ret).testBit j
        = (ret.testBit j || (decide (j ∈ l) && decide (dist.At p j ≤ eps))) := by
  intro l
  induction l with
  | nil => intro ret; simp
  | cons a l ih =>
    intro ret
    rw [List.foldl_cons, ih]
    by_cases ha : dist.At p a ≤ eps
    · simp only [ha, if_true, Big.testBit_setBit]
      by_cases haj : a = j
      · subst haj; simp [ha]
      · have : ¬ j = a := fun e => haj e.symm
        simp [haj, this]
    · simp only [ha, if_false]
      by_cases haj : a = j
      · subst haj; simp [ha]
      · have : ¬ j = a := fun e => haj e.symm
        simp [this]

/-- Bit `j` of a region query result: already set in the accumulator, or a
row within Eps of `p`. -/
theorem testBit_regionQuery (p ret : Nat) (dist : Dense α) (eps : α) (j : Nat) :
    (regionQuery p ret dist eps).testBit j
      = (ret.testBit j || (decide (j < dist.rows) && decide (dist.At p j ≤ eps))) := by
  unfold regionQuery
  rw [testBit_regionQuery_aux]
  simp

theorem testBit_regionQuery_zero (p : Nat) (dist : Dense α) (eps : α) (j : Nat) :
    (regionQuery p 0 dist eps).testBit j = true ↔ j < dist.rows ∧ dist.At p j ≤ eps := by
  rw [testBit_regionQuery]; simp

/-- The bit count of a fresh region query is the size of the neighbourhood. -/
theorem bitCount_regionQuery (p : Nat) (dist : Dense α) (eps : α) :
    BitCount (regionQuery p 0 dist eps) = (neighbourCount dist eps p : Int) := by
  have hlt : regionQuery p 0 dist eps < 2 ^ dist.rows := by
    apply Nat.lt_pow_two_of_testBit
    intro i hi
    rw [testBit_regionQuery]
    have : ¬ i < dist.rows := by omega
    simp [this]
  rw [bitCount_eq_bitsBelow _ _ hlt]
  unfold bitsBelow neighbourCount
  congr 2
  apply List.filter_congr
  intro j hj
  have hj2 : j < dist.rows := List.mem_range.mp hj
  rw [testBit_regionQuery]
  simp [hj2]

theorem promoted_iff (dist : Dense α) (eps : α) (minCount : Int) (i : Nat) :
    promoted dist eps minCount i = true ↔ IsCore dist eps minCount i := by
  unfold promoted IsCore
  rw [bitCount_regionQuery]
  simp

/-! ## The expansion loop, step by step -/

theorem expandLoop_done (dist : Dense α) (eps : α) (minCount : Int) (rows c i nb : Nat)
    (s : State) (h : ¬ i < rows) : expandLoop dist eps minCount rows c i nb s = s := by
  rw [expandLoop]; simp [h]

theorem expandLoop_skip (dist : Dense α) (eps : α) (minCount : Int) (rows c i nb : Nat)
    (s : State) (h : i < rows) (hs : nb.testBit i = false ∨ s.visited.testBit i = true) :
    expandLoop dist eps minCount rows c i nb s
      = expandLoop dist eps minCount rows c (i + 1) nb s := by
  rw [expandLoop]
  rcases hs with hs | hs
  · simp [h, (Big.bit_eq_zero nb i).mpr hs]
  · have h1 : Big.Bit s.visited i = 1 := (Big.bit_eq_one _ _).mpr hs
    simp [h, h1]

theorem expandLoop_visit (dist : Dense α) (eps : α) (minCount : Int) (rows c i nb : Nat)
    (s : State) (h : i < rows) (hn : nb.testBit i = true) (hv : s.visited.testBit i = false) :
    expandLoop dist eps minCount rows c i nb s
      = expandLoop dist eps minCount rows c (visitNext dist eps minCount i)
          (visitNeighbours dist eps minCount i nb) (visitState c i s) := by
  rw [expandLoop]
  have h1 : Big.Bit nb i = 1 := (Big.bit_eq_one _ _).mpr hn
  have h0 : Big.Bit s.visited i = 0 := (Big.bit_eq_zero _ _).mpr hv
  simp only [h, h1, h0, dite_true, one_ne_zero, if_false, dite_eq_ite]
  rfl

/-- Invariant rule for the expansion loop: a predicate on (index, neighbours,
closure variables) kept by the skipping step and by the visiting step holds,
at some index past the last row, when the loop ends. -/
theorem expandLoop_rule (dist : Dense α) (eps : α) (minCount : Int) (rows c : Nat)
    (Inv : Nat → Nat → State → Prop)
    (hskip : ∀ i nb s, i < rows → Inv i nb s →
      (nb.testBit i = false ∨ s.visited.testBit i = true) → Inv (i + 1) nb s)
    (hvisit : ∀ i nb s, i < rows → Inv i nb s → nb.testBit i = true →
      s.visited.testBit i = false →
      Inv (visitNext dist eps minCount i) (visitNeighbours dist eps minCount i nb)
        (visitState c i s)) :
    ∀ i nb s, Inv i nb s →
      ∃ i1 nb1, rows ≤ i1 ∧ Inv i1 nb1 (expandLoop dist eps minCount rows c i nb s) := by
  intro i nb s
  induction i, nb, s using expandLoop.induct dist eps minCount rows c with
  | case1 i nb s h hb ih =>
    intro hinv
    have hb2 := (Big.bit_eq_zero _ _).mp hb
    rw [expandLoop_skip dist eps minCount rows c i nb s h (Or.inl hb2)]
    exact ih (hskip i nb s h hinv (Or.inl hb2))
  | case2 i nb s h hb hv visited newNeighbours reset nb1 s1 ih =>
    intro hinv
    have hn : nb.testBit i = true := by
      by_cases hx : nb.testBit i = true
      · exact hx
      · exact absurd ((Big.bit_eq_zero _ _).mpr (by simpa using hx)) hb
    have hv2 := (Big.bit_eq_zero _ _).mp hv
    rw [expandLoop_visit dist eps minCount rows c i nb s h hn hv2]
    have key := hvisit i nb s h hinv hn hv2
    have e1 : (if h : reset = true then 0 else i) + 1 = visitNext dist eps minCount i := by
      simp only [dite_eq_ite]; rfl
    have e2 : nb1 = visitNeighbours dist eps minCount i nb := by
      simp only [nb1, dite_eq_ite]; rfl
    have e3 : s1 = visitState c i s := by
      simp only [s1, dite_eq_ite]; rfl
    rw [e1, e2, e3] at ih
    exact ih key
  | case3 i nb s h hb hv ih =>
    intro hinv
    have hv2 : s.visited.testBit i = true := by
      by_cases hx : s.visited.testBit i = true
      · exact hx
      · exact absurd ((Big.bit_eq_zero _ _).mpr (by simpa using hx)) hv
    rw [expandLoop_skip dist eps minCount rows c i nb s h (Or.inr hv2)]
    exact ih (hskip i nb s h hinv (Or.inr hv2))
  | case4 i nb s h =>
    intro hinv
    rw [expandLoop_done dist eps minCount rows c i nb s h]
    exact ⟨i, nb, by omega, hinv⟩

end Core

/-! ## The cluster map -/

theorem mapHas_iff (m : ClusterMap) (c : Nat) : mapHas m c = true ↔ c ∈ keys m := by
  unfold mapHas keys
  induction m with
  | nil => simp
  | cons e m ih =>
    obtain ⟨k, v⟩ := e
    by_cases hk : c = k
    · subst hk; simp [List.lookup_cons]
    · have hk2 : (c == k) = false := by simpa using hk
      simp only [List.lookup_cons, hk2, List.map_cons, List.mem_cons, hk, false_or]
      exact ih

theorem mapSet_new (m : ClusterMap) (c : Nat) (l : List Nat) (h : c ∉ keys m) :
    mapSet m c l = m ++ [(c, l)] := by
  induction m with
  | nil => simp [mapSet]
  | cons e m ih =>
    obtain ⟨k, v⟩ := e
    have hk : ¬ k = c := by
      intro e; apply h; simp [keys, e]
    have hm : c ∉ keys m := by
      intro hc; apply h; simp only [keys, List.map_cons, List.mem_cons]; right; exact hc
    simp [mapSet, hk, ih hm]

theorem mapGet_last (m0 : ClusterMap) (c : Nat) (v : List Nat) (h : c ∉ keys m0) :
    mapGet (m0 ++ [(c, v)]) c = v := by
  unfold mapGet
  induction m0 with
  | nil => simp [List.lookup_cons]
  | cons e m ih =>
    obtain ⟨k, w⟩ := e
    have hk : ¬ c = k := by
      intro e; apply h; simp [keys, e]
    have hk2 : (c == k) = false := by simpa using hk
    have hm : c ∉ keys m := by
      intro hc; apply h; simp only [keys, List.map_cons, List.mem_cons]; right; exact hc
    simp only [List.cons_append, List.lookup_cons, hk2]
    exact ih hm

theorem mapSet_last (m0 : ClusterMap) (c : Nat) (v w : List Nat) (h : c ∉ keys m0) :
    mapSet (m0 ++ [(c, v)]) c w = m0 ++ [(c, w)] := by
  induction m0 with
  | nil => simp [mapSet]
  | cons e m ih =>
    obtain ⟨k, u⟩ := e
    have hk : ¬ k = c := by
      intro e; apply h; simp [keys, e]
    have hm : c ∉ keys m := by
      intro hc; apply h; simp only [keys, List.map_cons, List.mem_cons]; right; exact hc
    simp [mapSet, hk, ih hm]

theorem members_append_last (m0 : ClusterMap) (c : Nat) (v : List Nat) :
    members (m0 ++ [(c, v)]) = members m0 ++ v := by
  simp [members]

theorem keys_append_last (m0 : ClusterMap) (c : Nat) (v : List Nat) :
    keys (m0 ++ [(c, v)]) = keys m0 ++ [c] := by
  simp [keys]

/-- Adding the seed `p` under a fresh key `c` appends the entry `(c, [p])`. -/
theorem seedState_fresh (c p : Nat) (s : State) (h : c ∉ keys s.clusterMap) :
    seedState c p s =
      { clusterMap := s.clusterMap ++ [(c, [p])]
        visited := Big.SetBit s.visited p
        clustered := Big.SetBit s.clustered p } := by
  have hh : mapHas s.clusterMap c = false := by
    by_cases hx : mapHas s.clusterMap c = true
    · exact absurd ((mapHas_iff _ _).mp hx) h
    · simpa using hx
  unfold seedState
  simp only [hh, Bool.false_eq_true, if_false]
  rw [mapSet_new _ _ _ h, mapGet_last _ _ _ h, mapSet_last _ _ _ _ h]
  simp

/-- The first visit of row `i` when cluster `c` is the last entry of the map. -/
theorem visitState_last (c i : Nat) (s : State) (m0 : ClusterMap) (v : List Nat)
    (hm : s.clusterMap = m0 ++ [(c, v)]) (h : c ∉ keys m0) :
    visitState c i s =
      if s.clustered.testBit i = false then
        { clusterMap := m0 ++ [(c, v ++ [i])]
          visited := Big.SetBit s.visited i
          clustered := Big.SetBit s.clustered i }
      else
        { clusterMap := m0 ++ [(c, v)]
          visited := Big.SetBit s.visited i
          clustered := s.clustered } := by
  unfold visitState
  by_cases hc : s.clustered.testBit i = false
  · rw [if_pos ((Big.bit_eq_zero _ _).mpr hc), if_pos hc, hm, mapGet_last _ _ _ h,
      mapSet_last _ _ _ _ h]
  · have hc1 : s.clustered.testBit i = true := by simpa using hc
    have hb : ¬ Big.Bit s.clustered i = 0 := by
      rw [(Big.bit_eq_one _ _).mpr hc1]; decide
    rw [if_neg hb, if_neg hc, hm]

/-! ## `expandCluster` and the outer loop, case by case -/

section Core

variable {α : Type} [LE α] [DecidableRel (α := α) (· ≤ ·)]

theorem expandCluster_clustered (dist : Dense α) (eps : α) (minCount : Int) (rows : Nat)
    (s : State) (p nb c : Nat) (h : s.clustered.testBit p = true) :
    expandCluster dist eps minCount rows s p nb c = s := by
  unfold expandCluster
  rw [if_pos ((Big.bit_eq_one _ _).mpr h)]

theorem expandCluster_fresh (dist : Dense α) (eps : α) (minCount : Int) (rows : Nat)
    (s : State) (p nb c : Nat) (h : s.clustered.testBit p = false) :
    expandCluster dist eps minCount rows s p nb c
      = expandLoop dist eps minCount rows c 0 nb (seedState c p s) := by
  unfold expandCluster
  have hb : ¬ Big.Bit s.clustered p = 1 := by
    rw [(Big.bit_eq_zero _ _).mpr h]; decide
  rw [if_neg hb]
  rfl

theorem outerStep_visited (dist : Dense α) (eps : α) (minCount : Int) (rows : Nat)
    (st : State × Nat) (i : Nat) (h : st.1.visited.testBit i = true) :
    outerStep dist eps minCount rows st i = st := by
  unfold outerStep
  rw [if_pos ((Big.bit_eq_one _ _).mpr h)]

theorem outerStep_noise (dist : Dense α) (eps : α) (minCount : Int) (rows : Nat)
    (st : State × Nat) (i : Nat) (h : st.1.visited.testBit i = false)
    (hc : ¬ IsCore dist eps minCount i) :
    outerStep dist eps minCount rows st i =
      ({ clusterMap := st.1.clusterMap
         visited := Big.SetBit st.1.visited i
         clustered := Big.Or st.1.clustered (regionQuery i 0 dist eps) }, st.2) := by
  unfold outerStep
  have hb : ¬ Big.Bit st.1.visited i = 1 := by
    rw [(Big.bit_eq_zero _ _).mpr h]; decide
  have hlt : BitCount (regionQuery i 0 dist eps) < minCount := by
    rw [bitCount_regionQuery]; unfold IsCore at hc; omega
  rw [if_neg hb]
  simp only [hlt, if_true]

theorem outerStep_seed (dist : Dense α) (eps : α) (minCount : Int) (rows : Nat)
    (st : State × Nat) (i : Nat) (h : st.1.visited.testBit i = false)
    (hc : IsCore dist eps minCount i) :
    outerStep dist eps minCount rows st i =
      (expandCluster dist eps minCount rows
        { clusterMap := st.1.clusterMap
          visited := Big.SetBit st.1.visited i
          clustered := st.1.clustered } i (regionQuery i 0 dist eps) (st.2 + 1), st.2 + 1) := by
  unfold outerStep
  have hb : ¬ Big.Bit st.1.visited i = 1 := by
    rw [(Big.bit_eq_zero _ _).mpr h]; decide
  have hlt : ¬ BitCount (regionQuery i 0 dist eps) < minCount := by
    rw [bitCount_regionQuery]; unfold IsCore at hc; omega
  rw [if_neg hb]
  simp only [hlt, if_false]

/-- The seed step at a row already marked in `clustered`: the counter
advances and nothing is added to the map. -/
theorem outerStep_seed_clustered (dist : Dense α) (eps : α) (minCount : Int) (rows : Nat)
    (st : State × Nat) (i : Nat) (h : st.1.visited.testBit i = false)
    (hc : IsCore dist eps minCount i) (hcl : st.1.clustered.testBit i = true) :
    outerStep dist eps minCount rows st i =
      ({ clusterMap := st.1.clusterMap
         visited := Big.SetBit st.1.visited i
         clustered := st.1.clustered }, st.2 + 1) := by
  rw [outerStep_seed dist eps minCount rows st i h hc,
    expandCluster_clustered dist eps minCount rows
      { clusterMap := st.1.clusterMap
        visited := Big.SetBit st.1.visited i
        clustered := st.1.clustered } i _ _ hcl]

/-- The seed step at a row not marked in `clustered`, under a fresh key: the
expansion loop runs from the map extended by the entry of the seed. -/
theorem outerStep_seed_fresh (dist : Dense α) (eps : α) (minCount : Int) (rows : Nat)
    (st : State × Nat) (i : Nat) (h : st.1.visited.testBit i = false)
    (hc : IsCore dist eps minCount i) (hcl : st.1.clustered.testBit i = false)
    (hfresh : st.2 + 1 ∉ keys st.1.clusterMap) :
    outerStep dist eps minCount rows st i =
      (expandLoop dist eps minCount rows (st.2 + 1) 0 (regionQuery i 0 dist eps)
        { clusterMap := st.1.clusterMap ++ [(st.2 + 1, [i])]
          visited := Big.SetBit (Big.SetBit st.1.visited i) i
          clustered := Big.SetBit st.1.clustered i }, st.2 + 1) := by
  rw [outerStep_seed dist eps minCount rows st i h hc,
    expandCluster_fresh dist eps minCount rows
      { clusterMap := st.1.clusterMap
        visited := Big.SetBit st.1.visited i
        clustered := st.1.clustered } i _ _ hcl,
    seedState_fresh (st.2 + 1) i
      { clusterMap := st.1.clusterMap
        visited := Big.SetBit st.1.visited i
        clustered := st.1.clustered } hfresh]

theorem outerLoopUpTo_zero (dist : Dense α) (eps : α) (minCount : Int) (rows : Nat) :
    outerLoopUpTo dist eps minCount rows 0 = initState := by
  simp [outerLoopUpTo]

theorem outerLoopUpTo_succ (dist : Dense α) (eps : α) (minCount : Int) (rows k : Nat) :
    outerLoopUpTo dist eps minCount rows (k + 1)
      = outerStep dist eps minCount rows (outerLoopUpTo dist eps minCount rows k) k := by
  simp [outerLoopUpTo, List.range_succ, List.foldl_append]

end Core

/-! ## Well-formedness of the traversal -/

section Core

variable {α : Type} [LE α] [DecidableRel (α := α) (· ≤ ·)]

/-- What one run of the expansion loop does to the closure variables when the
cluster being built is the last entry of the map: only that entry grows, no
row is listed twice, and the two bit sets only grow. -/
theorem expandLoop_wf (dist : Dense α) (eps : α) (minCount : Int) (rows c : Nat)
    (m0 : ClusterMap) (v0 : List Nat) (s0 : State) (hc : c ∉ keys m0)
    (hm : s0.clusterMap = m0 ++ [(c, v0)])
    (hnd : (members s0.clusterMap).Nodup)
    (hmem : ∀ x ∈ members s0.clusterMap, x < rows ∧ s0.clustered.testBit x = true)
    (i nb : Nat) :
    (∃ l, (expandLoop dist eps minCount rows c i nb s0).clusterMap = m0 ++ [(c, v0 ++ l)]) ∧
    (members (expandLoop dist eps minCount rows c i nb s0).clusterMap).Nodup ∧
    (∀ x ∈ members (expandLoop dist eps minCount rows c i nb s0).clusterMap,
      x < rows ∧ (expandLoop dist eps minCount rows c i nb s0).clustered.testBit x = true) ∧
    (∀ j, s0.visited.testBit j = true →
      (expandLoop dist eps minCount rows c i nb s0).visited.testBit j = true) ∧
    (∀ j, s0.clustered.testBit j = true →
      (expandLoop dist eps minCount rows c i nb s0).clustered.testBit j = true) ∧
    (∀ j, (expandLoop dist eps minCount rows c i nb s0).visited.testBit j = true →
      s0.visited.testBit j = true ∨ j < rows) := by
  have key := expandLoop_rule dist eps minCount rows c
    (fun _ _ s =>
      (∃ l, s.clusterMap = m0 ++ [(c, v0 ++ l)]) ∧
      (members s.clusterMap).Nodup ∧
      (∀ x ∈ members s.clusterMap, x < rows ∧ s.clustered.testBit x = true) ∧
      (∀ j, s0.visited.testBit j = true → s.visited.testBit j = true) ∧
      (∀ j, s0.clustered.testBit j = true → s.clustered.testBit j = true) ∧
      (∀ j, s.visited.testBit j = true → s0.visited.testBit j = true ∨ j < rows))
    (fun i nb s _ h _ => h)
    (by
      intro i nb s hi h _ _
      obtain ⟨⟨l, hl⟩, h2, h3, h4, h5, h6⟩ := h
      rw [visitState_last c i s m0 (v0 ++ l) hl hc]
      by_cases hcl : s.clustered.testBit i = false
      · rw [if_pos hcl]
        have hnot : i ∉ members s.clusterMap := by
          intro hin
          have := (h3 i hin).2
          rw [hcl] at this
          exact Bool.false_ne_true this
        have hmem2 : members (m0 ++ [(c, v0 ++ l ++ [i])]) = members s.clusterMap ++ [i] := by
          rw [hl, members_append_last, members_append_last]; simp
        refine ⟨⟨l ++ [i], by simp⟩, ?_, ?_, ?_, ?_, ?_⟩
        · show (members (m0 ++ [(c, v0 ++ l ++ [i])])).Nodup
          rw [hmem2]
          exact List.Nodup.append h2 (List.nodup_singleton i) (by simpa using hnot)
        · intro x hx
          have hx2 : x ∈ members s.clusterMap ++ [i] := by rw [← hmem2]; exact hx
          rcases List.mem_append.mp hx2 with hx3 | hx3
          · exact ⟨(h3 x hx3).1, Big.testBit_setBit_of_true _ _ _ (h3 x hx3).2⟩
          · have : x = i := by simpa using hx3
            subst this
            exact ⟨hi, Big.testBit_setBit_self _ _⟩
        · intro j hj
          exact Big.testBit_setBit_of_true _ _ _ (h4 j hj)
        · intro j hj
          exact Big.testBit_setBit_of_true _ _ _ (h5 j hj)
        · intro j hj
          have hj2 : (Big.SetBit s.visited i).testBit j = true := hj
          rw [Big.testBit_setBit] at hj2
          rcases Bool.or_eq_true_iff.mp hj2 with hj3 | hj3
          · exact h6 j hj3
          · right
            have : i = j := by simpa using hj3
            omega
      · rw [if_neg hcl]
        refine ⟨⟨l, rfl⟩, ?_, ?_, ?_, h5, ?_⟩
        · show (members (m0 ++ [(c, v0 ++ l)])).Nodup
          rw [← hl]; exact h2
        · intro x hx
          have hx2 : x ∈ members s.clusterMap := by rw [hl]; exact hx
          exact h3 x hx2
        · intro j hj
          exact Big.testBit_setBit_of_true _ _ _ (h4 j hj)
        · intro j hj
          have hj2 : (Big.SetBit s.visited i).testBit j = true := hj
          rw [Big.testBit_setBit] at hj2
          rcases Bool.or_eq_true_iff.mp hj2 with hj3 | hj3
          · exact h6 j hj3
          · right
            have : i = j := by simpa using hj3
            omega)
    i nb s0
    ⟨⟨[], by simpa using hm⟩, hnd, hmem, fun _ h => h, fun _ h => h, fun _ h => Or.inl h⟩
  obtain ⟨_, _, _, h⟩ := key
  exact h

theorem fresh_key (rows k : Nat) (st : State × Nat) (hwf : WellFormed rows k st) :
    st.2 + 1 ∉ keys st.1.clusterMap := by
  intro h
  have := (hwf.keys_range _ h).2
  omega

/-- The seed step of the outer loop at an unvisited, unclustered core row `k`:
the counter advances, the map gains one entry that starts with `k`, no row is
listed twice and the bit sets only grow. -/
theorem outerStep_seed_spec (dist : Dense α) (eps : α) (minCount : Int) (rows k : Nat)
    (st : State × Nat) (hk : k < rows) (hwf : WellFormed rows k st)
    (hv : st.1.visited.testBit k = false) (hcore : IsCore dist eps minCount k)
    (hcl : st.1.clustered.testBit k = false) :
    (outerStep dist eps minCount rows st k).2 = st.2 + 1 ∧
    (∃ l, (outerStep dist eps minCount rows st k).1.clusterMap
      = st.1.clusterMap ++ [(st.2 + 1, k :: l)]) ∧
    (members (outerStep dist eps minCount rows st k).1.clusterMap).Nodup ∧
    (∀ x ∈ members (outerStep dist eps minCount rows st k).1.clusterMap,
      x < rows ∧ (outerStep dist eps minCount rows st k).1.clustered.testBit x = true) ∧
    (∀ j, (st.1.visited.testBit j = true ∨ j = k) →
      (outerStep dist eps minCount rows st k).1.visited.testBit j = true) ∧
    (∀ j, st.1.clustered.testBit j = true →
      (outerStep dist eps minCount rows st k).1.clustered.testBit j = true) ∧
    (∀ j, (outerStep dist eps minCount rows st k).1.visited.testBit j = true →
      st.1.visited.testBit j = true ∨ j < rows) := by
  have hfresh := fresh_key rows k st hwf
  have hnot : k ∉ members st.1.clusterMap := by
    intro hin
    have := hwf.members_clustered k hin
    rw [hcl] at this
    exact Bool.false_ne_true this
  have hm : (members st.1.clusterMap ++ [k]).Nodup :=
    List.Nodup.append hwf.members_nodup (List.nodup_singleton k) (by simpa using hnot)
  have hw := expandLoop_wf dist eps minCount rows (st.2 + 1) st.1.clusterMap [k]
    { clusterMap := st.1.clusterMap ++ [(st.2 + 1, [k])]
      visited := Big.SetBit (Big.SetBit st.1.visited k) k
      clustered := Big.SetBit st.1.clustered k } hfresh rfl
    (by rw [members_append_last]; exact hm)
    (by
      intro x hx
      rw [members_append_last] at hx
      rcases List.mem_append.mp hx with hx3 | hx3
      · exact ⟨hwf.members_lt x hx3,
          Big.testBit_setBit_of_true _ _ _ (hwf.members_clustered x hx3)⟩
      · have : x = k := by simpa using hx3
        subst this
        exact ⟨hk, Big.testBit_setBit_self _ _⟩)
    0 (regionQuery k 0 dist eps)
  rw [outerStep_seed_fresh dist eps minCount rows st k hv hcore hcl hfresh]
  obtain ⟨⟨l, hl⟩, h2, h3, h4, h5, h6⟩ := hw
  refine ⟨rfl, ⟨l, by simpa using hl⟩, h2, h3, ?_, ?_, ?_⟩
  · intro j hj
    apply h4
    show (Big.SetBit (Big.SetBit st.1.visited k) k).testBit j = true
    rcases hj with hj | hj
    · exact Big.testBit_setBit_of_true _ _ _ (Big.testBit_setBit_of_true _ _ _ hj)
    · subst hj; exact Big.testBit_setBit_self _ _
  · intro j hj
    exact h5 j (Big.testBit_setBit_of_true _ _ _ hj)
  · intro j hj
    rcases h6 j hj with h | h
    · have h2 : (Big.SetBit (Big.SetBit st.1.visited k) k).testBit j = true := h
      rw [Big.testBit_setBit, Big.testBit_setBit] at h2
      by_cases hjk : k = j
      · right; omega
      · left; simpa [hjk] using h2
    · exact Or.inr h

/-- One iteration of the outer loop keeps the variables well-formed. -/
theorem outerStep_wf (dist : Dense α) (eps : α) (minCount : Int) (rows k : Nat)
    (st : State × Nat) (hk : k < rows) (hwf : WellFormed rows k st) :
    WellFormed rows (k + 1) (outerStep dist eps minCount rows st k) := by
  by_cases hv : st.1.visited.testBit k = true
  · rw [outerStep_visited _ _ _ _ _ _ hv]
    refine { hwf with counter_le := ?_, visited_below := ?_ }
    · have := hwf.counter_le; omega
    · intro j hj
      by_cases hjk : j = k
      · subst hjk; exact hv
      · exact hwf.visited_below j (by omega)
  · have hv0 : st.1.visited.testBit k = false := by simpa using hv
    by_cases hcore : IsCore dist eps minCount k
    · by_cases hcl : st.1.clustered.testBit k = true
      · rw [outerStep_seed_clustered _ _ _ _ _ _ hv0 hcore hcl]
        refine ⟨?_, hwf.keys_nodup, ?_, hwf.members_nodup, hwf.members_lt,
          hwf.members_clustered, ?_, ?_⟩
        · have := hwf.counter_le; show st.2 + 1 ≤ k + 1; omega
        · intro key hkey
          have := hwf.keys_range key hkey
          show 1 ≤ key ∧ key ≤ st.2 + 1
          omega
        · intro j hj
          show (Big.SetBit st.1.visited k).testBit j = true
          by_cases hjk : j = k
          · subst hjk; exact Big.testBit_setBit_self _ _
          · exact Big.testBit_setBit_of_true _ _ _ (hwf.visited_below j (by omega))
        · intro j hj
          have hj2 : (Big.SetBit st.1.visited k).testBit j = true := hj
          rw [Big.testBit_setBit] at hj2
          rcases Bool.or_eq_true_iff.mp hj2 with h | h
          · exact hwf.visited_lt j h
          · have : k = j := by simpa using h
            omega
      · have hcl0 : st.1.clustered.testBit k = false := by simpa using hcl
        obtain ⟨e1, ⟨l, hl⟩, h2, h3, h4, _, h6⟩ :=
          outerStep_seed_spec dist eps minCount rows k st hk hwf hv0 hcore hcl0
        have hfresh := fresh_key rows k st hwf
        refine ⟨?_, ?_, ?_, h2, fun x hx => (h3 x hx).1, fun x hx => (h3 x hx).2, ?_, ?_⟩
        · rw [e1]; have := hwf.counter_le; omega
        · rw [hl, keys_append_last]
          exact List.Nodup.append hwf.keys_nodup (List.nodup_singleton _) (by simpa using hfresh)
        · intro key hkey
          rw [hl, keys_append_last] at hkey
          rw [e1]
          rcases List.mem_append.mp hkey with h | h
          · have := hwf.keys_range key h; omega
          · have : key = st.2 + 1 := by simpa using h
            omega
        · intro j hj
          by_cases hjk : j = k
          · exact h4 j (Or.inr hjk)
          · exact h4 j (Or.inl (hwf.visited_below j (by omega)))
        · intro j hj
          rcases h6 j hj with h | h
          · exact hwf.visited_lt j h
          · exact h
    · rw [outerStep_noise _ _ _ _ _ _ hv0 hcore]
      refine ⟨?_, hwf.keys_nodup, hwf.keys_range, hwf.members_nodup, hwf.members_lt, ?_, ?_, ?_⟩
      · have := hwf.counter_le; show st.2 ≤ k + 1; omega
      · intro x hx
        show (Big.Or st.1.clustered (regionQuery k 0 dist eps)).testBit x = true
        rw [Big.testBit_or, hwf.members_clustered x hx]; rfl
      · intro j hj
        show (Big.SetBit st.1.visited k).testBit j = true
        by_cases hjk : j = k
        · subst hjk; exact Big.testBit_setBit_self _ _
        · exact Big.testBit_setBit_of_true _ _ _ (hwf.visited_below j (by omega))
      · intro j hj
        have hj2 : (Big.SetBit st.1.visited k).testBit j = true := hj
        rw [Big.testBit_setBit] at hj2
        rcases Bool.or_eq_true_iff.mp hj2 with h | h
        · exact hwf.visited_lt j h
        · have : k = j := by simpa using h
          omega

/-- The outer loop keeps its variables well-formed. -/
theorem outerLoopUpTo_wf (dist : Dense α) (eps : α) (minCount : Int) (rows : Nat) :
    ∀ k, k ≤ rows → WellFormed rows k (outerLoopUpTo dist eps minCount rows k) := by
  intro k
  induction k with
  | zero =>
    intro _
    rw [outerLoopUpTo_zero]
    refine ⟨Nat.le_refl 0, ?_, ?_, ?_, ?_, ?_, ?_, ?_⟩ <;> simp [initState, keys, members]
  | succ k ih =>
    intro hk
    rw [outerLoopUpTo_succ]
    exact outerStep_wf dist eps minCount rows k _ (by omega) (ih (by omega))

end Core

/-! ## Pruning -/

theorem mapGet_of_mem (m : ClusterMap) (hnd : (keys m).Nodup) (k : Nat) (v : List Nat)
    (h : (k, v) ∈ m) : mapGet m k = v := by
  unfold mapGet
  induction m with
  | nil => simp at h
  | cons e m ih =>
    obtain ⟨k1, v1⟩ := e
    have hnd2 : k1 ∉ keys m ∧ (keys m).Nodup := by
      simpa [keys] using hnd
    rcases List.mem_cons.mp h with h1 | h1
    · have hk : k = k1 := by injection h1
      have hv : v = v1 := by injection h1
      subst hk; subst hv
      simp [List.lookup_cons]
    · have hk : ¬ k = k1 := by
        intro e
        apply hnd2.1
        rw [← e]
        exact List.mem_map.mpr ⟨(k, v), h1, rfl⟩
      have hk2 : (k == k1) = false := by simpa using hk
      simp only [List.lookup_cons, hk2]
      exact ih hnd2.2 h1

theorem rmKeys_aux (M : ClusterMap) (minCount : Int) :
    ∀ (l : ClusterMap) (acc : List Nat),
      l.foldl (fun rm e => if ((mapGet M e.1).length : Int) < minCount then rm ++ [e.1] else rm) acc
        = acc ++ (l.filter (fun e => decide (((mapGet M e.1).length : Int) < minCount))).map Prod.fst := by
  intro l
  induction l with
  | nil => intro acc; simp
  | cons e l ih =>
    intro acc
    rw [List.foldl_cons, ih]
    by_cases h : ((mapGet M e.1).length : Int) < minCount
    · simp [h, List.filter_cons]
    · simp [h, List.filter_cons]

theorem rmKeys_eq (m : ClusterMap) (minCount : Int) :
    rmKeys m minCount
      = (m.filter (fun e => decide (((mapGet m e.1).length : Int) < minCount))).map Prod.fst := by
  unfold rmKeys
  rw [rmKeys_aux]
  simp

theorem foldl_mapDelete (rm : List Nat) :
    ∀ m : ClusterMap, rm.foldl mapDelete m = m.filter (fun e => decide (e.1 ∉ rm)) := by
  induction rm with
  | nil => intro m; simp
  | cons r rm ih =>
    intro m
    rw [List.foldl_cons, ih]
    unfold mapDelete
    rw [List.filter_filter]
    apply List.filter_congr
    intro e _
    by_cases h1 : e.1 = r <;> by_cases h2 : e.1 ∈ rm <;> simp [h1, h2]

/-- Pruning a map with distinct keys keeps exactly the entries whose index
list has at least `minCount` elements, unchanged and in their order. -/
theorem prune_eq_filter (m : ClusterMap) (minCount : Int) (hnd : (keys m).Nodup) :
    prune m minCount = m.filter (fun e => decide (minCount ≤ (e.2.length : Int))) := by
  unfold prune
  rw [foldl_mapDelete, rmKeys_eq]
  apply List.filter_congr
  intro e he
  have hget : ∀ e1 ∈ m, mapGet m e1.1 = e1.2 := fun e1 h1 => mapGet_of_mem m hnd e1.1 e1.2 h1
  by_cases hlen : minCount ≤ (e.2.length : Int)
  · have : e.1 ∉ (m.filter (fun e => decide (((mapGet m e.1).length : Int) < minCount))).map
        Prod.fst := by
      intro hin
      obtain ⟨e1, h1, h2⟩ := List.mem_map.mp hin
      obtain ⟨h3, h4⟩ := List.mem_filter.mp h1
      have h5 : mapGet m e1.1 = e.2 := by rw [h2]; exact hget e he
      rw [h5] at h4
      have : ((e.2.length : Int) < minCount) := by simpa using h4
      omega
    simp [this, hlen]
  · have : e.1 ∈ (m.filter (fun e => decide (((mapGet m e.1).length : Int) < minCount))).map
        Prod.fst := by
      refine List.mem_map.mpr ⟨e, List.mem_filter.mpr ⟨he, ?_⟩, rfl⟩
      rw [hget e he]
      simpa using hlen
    simp [this, hlen]

/-! ## The returned map -/

section Core

variable {α : Type} [LE α] [DecidableRel (α := α) (· ≤ ·)]

/-- The returned map is the map of the outer loop filtered by entry length. -/
theorem DBSCANOnMatrix_eq_filter (dist : Dense α) (eps : α) (minCount : Int) (rows : Nat) :
    DBSCANOnMatrix dist eps minCount rows
      = (outerLoop dist eps minCount rows).1.clusterMap.filter
          (fun e => decide (minCount ≤ (e.2.length : Int))) := by
  unfold DBSCANOnMatrix
  exact prune_eq_filter _ _ (outerLoopUpTo_wf dist eps minCount rows rows (Nat.le_refl _)).keys_nodup

theorem mem_DBSCANOnMatrix (dist : Dense α) (eps : α) (minCount : Int) (rows : Nat)
    (e : Nat × List Nat) :
    e ∈ DBSCANOnMatrix dist eps minCount rows ↔
      e ∈ (outerLoop dist eps minCount rows).1.clusterMap ∧ minCount ≤ (e.2.length : Int) := by
  rw [DBSCANOnMatrix_eq_filter, List.mem_filter]
  simp

theorem mem_members_iff (m : ClusterMap) (x : Nat) :
    x ∈ members m ↔ ∃ e ∈ m, x ∈ e.2 := by
  unfold members
  rw [List.mem_flatten]
  constructor
  · rintro ⟨l, hl, hx⟩
    obtain ⟨e, he, rfl⟩ := List.mem_map.mp hl
    exact ⟨e, he, hx⟩
  · rintro ⟨e, he, hx⟩
    exact ⟨e.2, List.mem_map.mpr ⟨e, he, rfl⟩, hx⟩

/-- C5: for every input the returned map is exactly the map built by the outer
loop restricted to the entries whose index list has at least `minCount`
elements (kept unchanged, all others removed); in particular every entry of
the returned map has length at least `minCount`. -/
theorem C5_returned_map_is_pruned_outer_map (dist : Dense α) (eps : α) (minCount : Int)
    (rows : Nat) :
    DBSCANOnMatrix dist eps minCount rows
        = (outerLoop dist eps minCount rows).1.clusterMap.filter
            (fun e => decide (minCount ≤ (e.2.length : Int))) ∧
    ∀ e ∈ DBSCANOnMatrix dist eps minCount rows, minCount ≤ (e.2.length : Int) :=
  ⟨DBSCANOnMatrix_eq_filter dist eps minCount rows,
    fun e he => ((mem_DBSCANOnMatrix dist eps minCount rows e).mp he).2⟩

/-- C1: for every distance matrix, `eps` and `minCount`, each row index listed
in the returned map is below the row count, its entry lists it once, and no
other entry lists it: entries are duplicate-free and pairwise disjoint (and
keys are distinct). -/
theorem C1_entries_disjoint_and_in_range (dist : Dense α) (eps : α) (minCount : Int)
    (rows : Nat) :
    (∀ e ∈ DBSCANOnMatrix dist eps minCount rows, ∀ x ∈ e.2, x < rows) ∧
    (∀ e ∈ DBSCANOnMatrix dist eps minCount rows, e.2.Nodup) ∧
    (∀ e1 ∈ DBSCANOnMatrix dist eps minCount rows,
      ∀ e2 ∈ DBSCANOnMatrix dist eps minCount rows,
        ∀ x, x ∈ e1.2 → x ∈ e2.2 → e1 = e2) ∧
    (keys (DBSCANOnMatrix dist eps minCount rows)).Nodup := by
  have hwf := outerLoopUpTo_wf dist eps minCount rows rows (Nat.le_refl _)
  have hnd := hwf.members_nodup
  unfold members at hnd
  rw [List.nodup_flatten] at hnd
  obtain ⟨hnd1, hnd2⟩ := hnd
  rw [List.pairwise_map] at hnd2
  refine ⟨?_, ?_, ?_, ?_⟩
  · intro e he x hx
    have he2 := ((mem_DBSCANOnMatrix dist eps minCount rows e).mp he).1
    exact hwf.members_lt x ((mem_members_iff _ _).mpr ⟨e, he2, hx⟩)
  · intro e he
    have he2 := ((mem_DBSCANOnMatrix dist eps minCount rows e).mp he).1
    exact hnd1 e.2 (List.mem_map.mpr ⟨e, he2, rfl⟩)
  · intro e1 he1 e2 he2 x hx1 hx2
    have h1 := ((mem_DBSCANOnMatrix dist eps minCount rows e1).mp he1).1
    have h2 := ((mem_DBSCANOnMatrix dist eps minCount rows e2).mp he2).1
    by_contra hne
    have hsym : Symmetric (fun a b : Nat × List Nat => List.Disjoint a.2 b.2) :=
      fun a b h => h.symm
    have hdis := List.Pairwise.forall hsym hnd2 h1 h2 hne
    exact hdis hx1 hx2
  · rw [DBSCANOnMatrix_eq_filter]
    unfold keys
    exact List.Nodup.sublist (List.Sublist.map _ (List.filter_sublist _)) hwf.keys_nodup

end Core

/-! ## Cluster identifiers -/

section Core

variable {α : Type} [LE α] [DecidableRel (α := α) (· ≤ ·)]

/-- One iteration of the outer loop leaves the map alone or appends one entry
under the next identifier, headed by the row examined. -/
theorem outerStep_map_cases (dist : Dense α) (eps : α) (minCount : Int) (rows k : Nat)
    (st : State × Nat) (hk : k < rows) (hwf : WellFormed rows k st) :
    (outerStep dist eps minCount rows st k).1.clusterMap = st.1.clusterMap ∨
    (st.1.visited.testBit k = false ∧ IsCore dist eps minCount k ∧
      st.1.clustered.testBit k = false ∧
      ∃ l, (outerStep dist eps minCount rows st k).1.clusterMap
        = st.1.clusterMap ++ [(st.2 + 1, k :: l)]) := by
  by_cases hv : st.1.visited.testBit k = true
  · left; rw [outerStep_visited _ _ _ _ _ _ hv]
  · have hv0 : st.1.visited.testBit k = false := by simpa using hv
    by_cases hcore : IsCore dist eps minCount k
    · by_cases hcl : st.1.clustered.testBit k = true
      · left; rw [outerStep_seed_clustered _ _ _ _ _ _ hv0 hcore hcl]
      · have hcl0 : st.1.clustered.testBit k = false := by simpa using hcl
        right
        exact ⟨hv0, hcore, hcl0,
          (outerStep_seed_spec dist eps minCount rows k st hk hwf hv0 hcore hcl0).2.1⟩
    · left; rw [outerStep_noise _ _ _ _ _ _ hv0 hcore]

/-- The counter after one iteration: unchanged unless `expandCluster` is
invoked, which happens exactly at an unvisited core row and advances it by one. -/
theorem outerStep_counter (dist : Dense α) (eps : α) (minCount : Int) (rows k : Nat)
    (st : State × Nat) :
    (outerStep dist eps minCount rows st k).2 =
      if st.1.visited.testBit k = false ∧ IsCore dist eps minCount k then st.2 + 1 else st.2 := by
  by_cases hv : st.1.visited.testBit k = true
  · rw [outerStep_visited _ _ _ _ _ _ hv]; simp [hv]
  · have hv0 : st.1.visited.testBit k = false := by simpa using hv
    by_cases hcore : IsCore dist eps minCount k
    · rw [outerStep_seed _ _ _ _ _ _ hv0 hcore]; simp [hv0, hcore]
    · rw [outerStep_noise _ _ _ _ _ _ hv0 hcore]; simp [hcore]

theorem outerLoopUpTo_counter_mono (dist : Dense α) (eps : α) (minCount : Int) (rows : Nat)
    (p : Nat) : ∀ q, p ≤ q →
      (outerLoopUpTo dist eps minCount rows p).2 ≤ (outerLoopUpTo dist eps minCount rows q).2 := by
  intro q hpq
  induction q with
  | zero =>
    have : p = 0 := by omega
    subst this; exact Nat.le_refl _
  | succ q ih =>
    by_cases hp : p = q + 1
    · subst hp; exact Nat.le_refl _
    · have h1 := ih (by omega)
      rw [outerLoopUpTo_succ, outerStep_counter]
      split <;> omega

/-- Every entry of the map built by the rows below `k` starts with its seed,
and its key is the identifier handed out at that seed. -/
theorem outerLoopUpTo_heads (dist : Dense α) (eps : α) (minCount : Int) (rows : Nat) :
    ∀ k, k ≤ rows → ∀ e ∈ (outerLoopUpTo dist eps minCount rows k).1.clusterMap,
      ∃ p, p < k ∧ e.2.head? = some p ∧
        e.1 = (outerLoopUpTo dist eps minCount rows p).2 + 1 := by
  intro k
  induction k with
  | zero =>
    intro _ e he
    rw [outerLoopUpTo_zero] at he
    simp [initState] at he
  | succ k ih =>
    intro hk e he
    have hwf := outerLoopUpTo_wf dist eps minCount rows k (by omega)
    rw [outerLoopUpTo_succ] at he
    rcases outerStep_map_cases dist eps minCount rows k _ (by omega) hwf with h | ⟨_, _, _, l, hl⟩
    · rw [h] at he
      obtain ⟨p, hp, h1, h2⟩ := ih (by omega) e he
      exact ⟨p, by omega, h1, h2⟩
    · rw [hl] at he
      rcases List.mem_append.mp he with he1 | he1
      · obtain ⟨p, hp, h1, h2⟩ := ih (by omega) e he1
        exact ⟨p, by omega, h1, h2⟩
      · have : e = ((outerLoopUpTo dist eps minCount rows k).2 + 1, k :: l) := by
          simpa using he1
        subst this
        exact ⟨k, by omega, rfl, rfl⟩

/-- C9: every key of the returned map lies in `[1, rows]` (0 is never a key);
each entry starts with its seed `p`, and its key is one more than the number
of `expandCluster` invocations made for the rows before `p`; that counter
never decreases and advances at every invocation (at each unvisited core row),
whether or not the invocation leaves an entry in the returned map; so the
identifier handed out at any earlier invocation is strictly smaller than the
key of an entry seeded later (no identifier is reused), and for keys `c1 < c2`
the seed of entry `c1` is a strictly smaller row index than the seed of entry
`c2`. -/
theorem C9_identifiers_follow_discovery_order (dist : Dense α) (eps : α) (minCount : Int)
    (rows : Nat) :
    (∀ e ∈ DBSCANOnMatrix dist eps minCount rows, 1 ≤ e.1 ∧ e.1 ≤ rows) ∧
    (∀ e ∈ DBSCANOnMatrix dist eps minCount rows, ∃ p, p < rows ∧ e.2.head? = some p ∧
      e.1 = (outerLoopUpTo dist eps minCount rows p).2 + 1) ∧
    (∀ p q, p ≤ q →
      (outerLoopUpTo dist eps minCount rows p).2 ≤ (outerLoopUpTo dist eps minCount rows q).2) ∧
    (∀ p, (outerLoopUpTo dist eps minCount rows (p + 1)).2 =
      if (outerLoopUpTo dist eps minCount rows p).1.visited.testBit p = false ∧
          IsCore dist eps minCount p
      then (outerLoopUpTo dist eps minCount rows p).2 + 1
      else (outerLoopUpTo dist eps minCount rows p).2) ∧
    (∀ e ∈ DBSCANOnMatrix dist eps minCount rows, ∀ p p1, e.2.head? = some p → p1 < p →
      (outerLoopUpTo dist eps minCount rows p1).1.visited.testBit p1 = false →
      IsCore dist eps minCount p1 →
      (outerLoopUpTo dist eps minCount rows p1).2 + 1 < e.1) ∧
    (∀ e1 ∈ DBSCANOnMatrix dist eps minCount rows,
      ∀ e2 ∈ DBSCANOnMatrix dist eps minCount rows, e1.1 < e2.1 →
        ∃ p1 p2, e1.2.head? = some p1 ∧ e2.2.head? = some p2 ∧ p1 < p2) ∧
    (keys (DBSCANOnMatrix dist eps minCount rows)).Nodup := by
  have hwf := outerLoopUpTo_wf dist eps minCount rows rows (Nat.le_refl _)
  have hheads : ∀ e ∈ DBSCANOnMatrix dist eps minCount rows, ∃ p, p < rows ∧
      e.2.head? = some p ∧ e.1 = (outerLoopUpTo dist eps minCount rows p).2 + 1 := by
    intro e he
    have he2 := ((mem_DBSCANOnMatrix dist eps minCount rows e).mp he).1
    exact outerLoopUpTo_heads dist eps minCount rows rows (Nat.le_refl _) e he2
  refine ⟨?_, hheads, ?_, ?_, ?_, ?_, ?_⟩
  · intro e he
    obtain ⟨p, hp, _, hkey⟩ := hheads e he
    have := (outerLoopUpTo_wf dist eps minCount rows p (by omega)).counter_le
    omega
  · exact fun p q hpq => outerLoopUpTo_counter_mono dist eps minCount rows p q hpq
  · intro p
    rw [outerLoopUpTo_succ, outerStep_counter]
  · intro e he p p1 hhead hlt hv hcore
    obtain ⟨p0, _, hh0, hkey⟩ := hheads e he
    have hpp : p0 = p := by
      rw [hhead] at hh0
      exact (Option.some.inj hh0).symm
    subst hpp
    have hstep : (outerLoopUpTo dist eps minCount rows (p1 + 1)).2
        = (outerLoopUpTo dist eps minCount rows p1).2 + 1 := by
      rw [outerLoopUpTo_succ, outerStep_counter, if_pos ⟨hv, hcore⟩]
    have hmono := outerLoopUpTo_counter_mono dist eps minCount rows (p1 + 1) p0 (by omega)
    omega
  · intro e1 he1 e2 he2 hlt
    obtain ⟨p1, _, hh1, hk1⟩ := hheads e1 he1
    obtain ⟨p2, _, hh2, hk2⟩ := hheads e2 he2
    refine ⟨p1, p2, hh1, hh2, ?_⟩
    by_contra hge
    have := outerLoopUpTo_counter_mono dist eps minCount rows p2 p1 (by omega)
    omega
  · rw [DBSCANOnMatrix_eq_filter]
    unfold keys
    exact List.Nodup.sublist (List.Sublist.map _ (List.filter_sublist _)) hwf.keys_nodup

end Core

/-! ## Who gets listed -/

theorem mem_members_cons (k : Nat) (v : List Nat) (m : ClusterMap) (x : Nat) :
    x ∈ members ((k, v) :: m) ↔ x ∈ v ∨ x ∈ members m := by
  unfold members
  rw [List.map_cons, List.flatten_cons, List.mem_append]

theorem mem_members_mapSet_append (m : ClusterMap) (c i x : Nat) :
    x ∈ members (mapSet m c (mapGet m c ++ [i])) ↔ x ∈ members m ∨ x = i := by
  induction m with
  | nil => simp [mapSet, mapGet, members]
  | cons e m ih =>
    obtain ⟨k, v⟩ := e
    by_cases hk : k = c
    · subst hk
      have hget : mapGet ((k, v) :: m) k = v := by
        simp [mapGet, List.lookup_cons]
      have hset : mapSet ((k, v) :: m) k (v ++ [i]) = (k, v ++ [i]) :: m := by
        simp [mapSet]
      rw [hget, hset, mem_members_cons, mem_members_cons, List.mem_append, List.mem_singleton]
      tauto
    · have hk2 : (c == k) = false := by
        have : ¬ c = k := fun e => hk e.symm
        simpa using this
      have hget : mapGet ((k, v) :: m) c = mapGet m c := by
        simp [mapGet, List.lookup_cons, hk2]
      rw [hget]
      have hset : mapSet ((k, v) :: m) c (mapGet m c ++ [i])
          = (k, v) :: mapSet m c (mapGet m c ++ [i]) := by
        simp [mapSet, hk]
      rw [hset, mem_members_cons, mem_members_cons, ih]
      tauto

theorem mem_members_visitState (c i : Nat) (s : State) (x : Nat) :
    x ∈ members (visitState c i s).clusterMap ↔
      x ∈ members s.clusterMap ∨ (x = i ∧ s.clustered.testBit i = false) := by
  unfold visitState
  by_cases hc : s.clustered.testBit i = false
  · rw [if_pos ((Big.bit_eq_zero _ _).mpr hc)]
    show x ∈ members (mapSet s.clusterMap c (mapGet s.clusterMap c ++ [i])) ↔ _
    rw [mem_members_mapSet_append]
    simp [hc]
  · have hc1 : s.clustered.testBit i = true := by simpa using hc
    have hb : ¬ Big.Bit s.clustered i = 0 := by
      rw [(Big.bit_eq_one _ _).mpr hc1]; decide
    rw [if_neg hb]
    simp [hc1]

theorem mem_members_seedState (c p : Nat) (s : State) (x : Nat) :
    x ∈ members (seedState c p s).clusterMap ↔ x ∈ members s.clusterMap ∨ x = p := by
  unfold seedState
  show x ∈ members (mapSet _ c (mapGet _ c ++ [p])) ↔ _
  rw [mem_members_mapSet_append]
  by_cases hh : mapHas s.clusterMap c = true
  · simp [hh]
  · have hh0 : mapHas s.clusterMap c = false := by simpa using hh
    have hnot : c ∉ keys s.clusterMap := fun h => hh ((mapHas_iff _ _).mpr h)
    simp only [hh0, Bool.false_eq_true, if_false]
    rw [mapSet_new _ _ _ hnot, members_append_last]
    simp

theorem visitState_visited (c i : Nat) (s : State) :
    (visitState c i s).visited = Big.SetBit s.visited i := by
  unfold visitState; split <;> rfl

theorem visitState_clustered (c i : Nat) (s : State) (j : Nat) :
    (visitState c i s).clustered.testBit j = true ↔
      s.clustered.testBit j = true ∨ j = i := by
  unfold visitState
  by_cases hc : s.clustered.testBit i = false
  · rw [if_pos ((Big.bit_eq_zero _ _).mpr hc)]
    show (Big.SetBit s.clustered i).testBit j = true ↔ _
    rw [Big.testBit_setBit, Bool.or_eq_true, decide_eq_true_eq]
    constructor
    · rintro (h | h)
      · exact Or.inl h
      · exact Or.inr h.symm
    · rintro (h | h)
      · exact Or.inl h
      · exact Or.inr h.symm
  · have hc1 : s.clustered.testBit i = true := by simpa using hc
    have hb : ¬ Big.Bit s.clustered i = 0 := by
      rw [(Big.bit_eq_one _ _).mpr hc1]; decide
    rw [if_neg hb]
    constructor
    · intro h; exact Or.inl h
    · rintro (h | h)
      · exact h
      · subst h; exact hc1

section Core

variable {α : Type} [LE α] [DecidableRel (α := α) (· ≤ ·)]

theorem testBit_visitNeighbours (dist : Dense α) (eps : α) (minCount : Int) (i nb j : Nat) :
    (visitNeighbours dist eps minCount i nb).testBit j = true ↔
      nb.testBit j = true ∨
        (IsCore dist eps minCount i ∧ j < dist.rows ∧ dist.At i j ≤ eps) := by
  unfold visitNeighbours
  by_cases hp : promoted dist eps minCount i = true
  · have hcore := (promoted_iff dist eps minCount i).mp hp
    rw [if_pos hp, Big.testBit_or, Bool.or_eq_true, testBit_regionQuery_zero]
    simp [hcore]
  · have hcore : ¬ IsCore dist eps minCount i := fun h => hp ((promoted_iff _ _ _ _).mpr h)
    rw [if_neg hp]
    simp [hcore]

/-- The expansion loop lists only rows of the current neighbour set, which
holds only rows pulled in by a core point. -/
theorem expandLoop_pulledIn (dist : Dense α) (eps : α) (minCount : Int) (rows c : Nat)
    (i nb : Nat) (s : State)
    (hm : ∀ x ∈ members s.clusterMap, PulledIn dist eps minCount rows x)
    (hnb : ∀ j, nb.testBit j = true → PulledIn dist eps minCount rows j) :
    ∀ x ∈ members (expandLoop dist eps minCount rows c i nb s).clusterMap,
      PulledIn dist eps minCount rows x := by
  have key := expandLoop_rule dist eps minCount rows c
    (fun _ nb s =>
      (∀ x ∈ members s.clusterMap, PulledIn dist eps minCount rows x) ∧
      (∀ j, nb.testBit j = true → PulledIn dist eps minCount rows j))
    (fun i nb s _ h _ => h)
    (by
      intro i nb s hi h hn _
      obtain ⟨h1, h2⟩ := h
      refine ⟨?_, ?_⟩
      · intro x hx
        rcases (mem_members_visitState c i s x).mp hx with hx1 | ⟨hx1, _⟩
        · exact h1 x hx1
        · subst hx1; exact h2 x hn
      · intro j hj
        rcases (testBit_visitNeighbours dist eps minCount i nb j).mp hj with hj1 | ⟨hc, _, hd⟩
        · exact h2 j hj1
        · exact Or.inr ⟨i, hi, hc, hd⟩)
    i nb s ⟨hm, hnb⟩
  obtain ⟨_, _, _, h, _⟩ := key
  exact h

theorem outerStep_pulledIn (dist : Dense α) (eps : α) (minCount : Int) (rows k : Nat)
    (st : State × Nat) (hk : k < rows)
    (hm : ∀ x ∈ members st.1.clusterMap, PulledIn dist eps minCount rows x) :
    ∀ x ∈ members (outerStep dist eps minCount rows st k).1.clusterMap,
      PulledIn dist eps minCount rows x := by
  by_cases hv : st.1.visited.testBit k = true
  · rw [outerStep_visited _ _ _ _ _ _ hv]; exact hm
  · have hv0 : st.1.visited.testBit k = false := by simpa using hv
    by_cases hcore : IsCore dist eps minCount k
    · rw [outerStep_seed _ _ _ _ _ _ hv0 hcore]
      by_cases hcl : st.1.clustered.testBit k = true
      · rw [expandCluster_clustered dist eps minCount rows
          { clusterMap := st.1.clusterMap
            visited := Big.SetBit st.1.visited k
            clustered := st.1.clustered } k _ _ hcl]
        exact hm
      · have hcl0 : st.1.clustered.testBit k = false := by simpa using hcl
        rw [expandCluster_fresh dist eps minCount rows
          { clusterMap := st.1.clusterMap
            visited := Big.SetBit st.1.visited k
            clustered := st.1.clustered } k _ _ hcl0]
        apply expandLoop_pulledIn
        · intro x hx
          rcases (mem_members_seedState _ _ _ x).mp hx with hx1 | hx1
          · exact hm x hx1
          · subst hx1; exact Or.inl hcore
        · intro j hj
          have := (testBit_regionQuery_zero k dist eps j).mp hj
          exact Or.inr ⟨k, hk, hcore, this.2⟩
    · rw [outerStep_noise _ _ _ _ _ _ hv0 hcore]; exact hm

theorem outerLoopUpTo_pulledIn (dist : Dense α) (eps : α) (minCount : Int) (rows : Nat) :
    ∀ k, k ≤ rows → ∀ x ∈ members (outerLoopUpTo dist eps minCount rows k).1.clusterMap,
      PulledIn dist eps minCount rows x := by
  intro k
  induction k with
  | zero =>
    intro _ x hx
    rw [outerLoopUpTo_zero] at hx
    simp [initState, members] at hx
  | succ k ih =>
    intro hk
    rw [outerLoopUpTo_succ]
    exact outerStep_pulledIn dist eps minCount rows k _ (by omega) (ih (by omega))

/-- C4: for every distance matrix, `eps` and `minCount`, a row `q` whose
Eps-neighbourhood has fewer than `minCount` members and which lies in the
Eps-neighbourhood of no core point (no core `k` has `dist.At k q ≤ eps`, so no
expansion pulls it in) is listed in no entry of the returned map. -/
theorem C4_unreached_sparse_point_is_noise (dist : Dense α) (eps : α) (minCount : Int)
    (rows q : Nat)
    (hsparse : (neighbourCount dist eps q : Int) < minCount)
    (hfar : ∀ k, k < rows → IsCore dist eps minCount k → ¬ dist.At k q ≤ eps) :
    ∀ e ∈ DBSCANOnMatrix dist eps minCount rows, q ∉ e.2 := by
  intro e he hq
  have he2 := ((mem_DBSCANOnMatrix dist eps minCount rows e).mp he).1
  have hmem : q ∈ members (outerLoop dist eps minCount rows).1.clusterMap :=
    (mem_members_iff _ _).mpr ⟨e, he2, hq⟩
  rcases outerLoopUpTo_pulledIn dist eps minCount rows rows (Nat.le_refl _) q hmem with
    h | ⟨k, hk, hc, hd⟩
  · unfold IsCore at h; omega
  · exact hfar k hk hc hd

end Core

/-! ## The distance matrix -/

theorem Dense.set_set_symm {α : Type} [Zero α] (D : Dense α) (i j : Nat) (d : α) (hij : i ≠ j)
    (hsym : ∀ r c, D.At r c = D.At c r) (hdiag : ∀ r, D.At r r = 0) :
    (∀ r c, ((D.Set i j d).Set j i d).At r c = ((D.Set i j d).Set j i d).At c r) ∧
    (∀ r, ((D.Set i j d).Set j i d).At r r = 0) := by
  constructor
  · intro r c
    simp only [Dense.Set]
    by_cases h1 : r = j ∧ c = i
    · have h2 : c = i ∧ r = j := ⟨h1.2, h1.1⟩
      simp [h1, h2]
    · by_cases h2 : r = i ∧ c = j
      · have h3 : c = j ∧ r = i := ⟨h2.2, h2.1⟩
        simp [h2, h3]
      · have h3 : ¬ (c = i ∧ r = j) := fun h => h1 ⟨h.2, h.1⟩
        have h4 : ¬ (c = j ∧ r = i) := fun h => h2 ⟨h.2, h.1⟩
        simp only [h1, h2, h3, h4, if_false]
        exact hsym r c
  · intro r
    simp only [Dense.Set]
    have h1 : ¬ (r = j ∧ r = i) := fun h => hij (h.2.symm.trans h.1)
    have h2 : ¬ (r = i ∧ r = j) := fun h => hij (h.1.symm.trans h.2)
    simp only [h1, h2, if_false]
    exact hdiag r

theorem pairwise_inner {α V : Type} [Zero α] (mats : Nat → V) (metric : V → V → α) (i : Nat) :
    ∀ (l : List Nat) (D : Dense α), (∀ j ∈ l, i ≠ j) →
      (∀ r c, D.At r c = D.At c r) → (∀ r, D.At r r = 0) →
      (l.foldl (fun dist j => (dist.Set i j (metric (mats i) (mats j))).Set j i
          (metric (mats i) (mats j))) D).rows = D.rows ∧
      (l.foldl (fun dist j => (dist.Set i j (metric (mats i) (mats j))).Set j i
          (metric (mats i) (mats j))) D).cols = D.cols ∧
      (∀ r c, (l.foldl (fun dist j => (dist.Set i j (metric (mats i) (mats j))).Set j i
          (metric (mats i) (mats j))) D).At r c
        = (l.foldl (fun dist j => (dist.Set i j (metric (mats i) (mats j))).Set j i
          (metric (mats i) (mats j))) D).At c r) ∧
      (∀ r, (l.foldl (fun dist j => (dist.Set i j (metric (mats i) (mats j))).Set j i
          (metric (mats i) (mats j))) D).At r r = 0) := by
  intro l
  induction l with
  | nil => intro D _ hs hd; exact ⟨rfl, rfl, hs, hd⟩
  | cons j l ih =>
    intro D hl hs hd
    rw [List.foldl_cons]
    obtain ⟨h1, h2⟩ := Dense.set_set_symm D i j (metric (mats i) (mats j))
      (hl j (List.mem_cons_self _ _)) hs hd
    obtain ⟨e1, e2, e3, e4⟩ := ih _ (fun j1 hj1 => hl j1 (List.mem_cons_of_mem _ hj1)) h1 h2
    exact ⟨e1, e2, e3, e4⟩

theorem pairwise_outer {α V : Type} [Zero α] (mats : Nat → V) (metric : V → V → α)
    (rows : Nat) :
    ∀ (l : List Nat) (D : Dense α),
      (∀ r c, D.At r c = D.At c r) → (∀ r, D.At r r = 0) →
      (l.foldl (fun dist i => (List.range' (i + 1) (rows - (i + 1))).foldl
          (fun dist j => (dist.Set i j (metric (mats i) (mats j))).Set j i
            (metric (mats i) (mats j))) dist) D).rows = D.rows ∧
      (l.foldl (fun dist i => (List.range' (i + 1) (rows - (i + 1))).foldl
          (fun dist j => (dist.Set i j (metric (mats i) (mats j))).Set j i
            (metric (mats i) (mats j))) dist) D).cols = D.cols ∧
      (∀ r c, (l.foldl (fun dist i => (List.range' (i + 1) (rows - (i + 1))).foldl
          (fun dist j => (dist.Set i j (metric (mats i) (mats j))).Set j i
            (metric (mats i) (mats j))) dist) D).At r c
        = (l.foldl (fun dist i => (List.range' (i + 1) (rows - (i + 1))).foldl
          (fun dist j => (dist.Set i j (metric (mats i) (mats j))).Set j i
            (metric (mats i) (mats j))) dist) D).At c r) ∧
      (∀ r, (l.foldl (fun dist i => (List.range' (i + 1) (rows - (i + 1))).foldl
          (fun dist j => (dist.Set i j (metric (mats i) (mats j))).Set j i
            (metric (mats i) (mats j))) dist) D).At r r = 0) := by
  intro l
  induction l with
  | nil => intro D hs hd; exact ⟨rfl, rfl, hs, hd⟩
  | cons i l ih =>
    intro D hs hd
    rw [List.foldl_cons]
    obtain ⟨h1, h2, h3, h4⟩ := pairwise_inner mats metric i
      (List.range' (i + 1) (rows - (i + 1))) D
      (by
        intro j hj
        obtain ⟨t, _, ht⟩ := List.mem_range'.mp hj
        omega) hs hd
    obtain ⟨e1, e2, e3, e4⟩ := ih _ h3 h4
    exact ⟨e1.trans h1, e2.trans h2, e3, e4⟩

/-- C10: for every family of row vectors, every row count and every distance
function (symmetric or not), `computePairwiseDistances` succeeds once the rows
are converted, and the matrix it builds is square of that size, equal to its
transpose (`At i j = At j i` for all `i`, `j`) and zero on the diagonal. -/
theorem C10_distance_matrix_symmetric_zero_diagonal {α V ε : Type} [Zero α]
    (mats : Nat → V) (rows : Nat) (metric : V → V → α) :
    ∃ D : Dense α, computePairwiseDistances (ε := ε) (Except.ok mats) rows metric = Except.ok D ∧
      D.rows = rows ∧ D.cols = rows ∧
      (∀ i j, D.At i j = D.At j i) ∧ (∀ i, D.At i i = 0) := by
  refine ⟨_, rfl, ?_⟩
  exact pairwise_outer mats metric rows (List.range rows) (NewDense rows rows)
    (fun _ _ => rfl) (fun _ => rfl)

/-! ## The scenarios on the line -/

/-- Witness of C4 on the points at 0, 1, 2, 10 with `eps = 3/2` and
`minCount = 2`: row 3 is alone in its neighbourhood and far from the core
rows 0, 1, 2, and no entry lists it. -/
theorem C4_unreached_sparse_point_is_noise_witness :
    ((neighbourCount (lineDist linePos 4) (3 / 2) 3 : Int) < 2) ∧
    (∀ k, k < 4 → IsCore (lineDist linePos 4) (3 / 2) 2 k →
      ¬ (lineDist linePos 4).At k 3 ≤ 3 / 2) ∧
    (∀ e ∈ DBSCANOnMatrix (lineDist linePos 4) (3 / 2) 2 4, 3 ∉ e.2) :=
  ⟨by decide!, by decide!,
    C4_unreached_sparse_point_is_noise (lineDist linePos 4) (3 / 2) 2 4 3
      (by decide!) (by decide!)⟩

/-- C7: on the six points at positions 0, 1, 2, 10, 11, 12 with distance
`|a - b|`, `eps = 3/2` and `minCount = 2`, DBSCAN returns exactly two
clusters, `1 ↦ [0, 1, 2]` and `2 ↦ [3, 4, 5]`; every row is listed, so no
point is noise. -/
theorem C7_two_clusters_on_the_line :
    DBSCAN (ε := String) (Except.ok linePos) 6 (fun a b : ℚ => |a - b|) (3 / 2) 2
      = Except.ok [(1, [0, 1, 2]), (2, [3, 4, 5])] ∧
    DBSCANOnMatrix (lineDist linePos 6) (3 / 2) 2 6 = [(1, [0, 1, 2]), (2, [3, 4, 5])] ∧
    (∀ x, x < 6 → x ∈ members (DBSCANOnMatrix (lineDist linePos 6) (3 / 2) 2 6)) :=
  ⟨congrArg Except.ok (by decide!), by decide!, by decide!⟩

/-- C8, as stated, fails: with `minCount = 4` the outer loop forms no cluster
of three members (it forms no cluster at all), so nothing is left to prune. -/
theorem C8_no_cluster_of_three_is_formed :
    ¬ ∃ e ∈ (outerLoop (lineDist linePos 6) (3 / 2) 4 6).1.clusterMap, e.2.length = 3 := by
  decide!

/-- C8, amended: on the six points at positions 0, 1, 2, 10, 11, 12 with
`eps = 3/2` and `minCount = 4` no row is a core point (no neighbourhood has 4
members), the outer loop never invokes `expandCluster` and builds the empty
map, and DBSCAN returns the empty map: all 6 points are noise. -/
theorem C8_no_core_point_empty_map :
    (∀ p, p < 6 → ¬ IsCore (lineDist linePos 6) (3 / 2) 4 p) ∧
    (outerLoop (lineDist linePos 6) (3 / 2) 4 6).1.clusterMap = [] ∧
    (outerLoop (lineDist linePos 6) (3 / 2) 4 6).2 = 0 ∧
    DBSCANOnMatrix (lineDist linePos 6) (3 / 2) 4 6 = [] ∧
    DBSCAN (ε := String) (Except.ok linePos) 6 (fun a b : ℚ => |a - b|) (3 / 2) 4
      = Except.ok [] :=
  ⟨by decide!, by decide!, by decide!, by decide!, congrArg Except.ok (by decide!)⟩

/-! ## All points mutually within Eps -/

section Core

variable {α : Type} [LE α] [DecidableRel (α := α) (· ≤ ·)]

theorem neighbourCount_all (N : Nat) (f : Nat → Nat → α) (eps : α)
    (hall : ∀ i j, i < N → j < N → f i j ≤ eps) (p : Nat) (hp : p < N) :
    neighbourCount { rows := N, cols := N, At := f } eps p = N := by
  unfold neighbourCount
  have : (List.range N).filter (fun j => decide (f p j ≤ eps)) = List.range N := by
    rw [List.filter_eq_self]
    intro j hj
    simpa using hall p j hp (List.mem_range.mp hj)
  show ((List.range N).filter (fun j => decide (f p j ≤ eps))).length = N
  rw [this, List.length_range]

/-- With all points mutually within Eps, the expansion from row 0 lists every
row in ascending order and visits every row. -/
theorem expandLoop_all (N : Nat) (f : Nat → Nat → α) (eps : α) (minCount : Int)
    (hall : ∀ i j, i < N → j < N → f i j ≤ eps) (hmc : minCount ≤ (N : Int))
    (s0 : State) (nb0 : Nat) (hN : 1 ≤ N)
    (hm : s0.clusterMap = [(1, List.range 1)])
    (hv : ∀ j, s0.visited.testBit j = true ↔ j < 1)
    (hc : ∀ j, s0.clustered.testBit j = true ↔ j < 1)
    (hnb : ∀ j, j < N → nb0.testBit j = true) :
    (expandLoop { rows := N, cols := N, At := f } eps minCount N 1 0 nb0 s0).clusterMap
        = [(1, List.range N)] ∧
    ∀ j, (expandLoop { rows := N, cols := N, At := f } eps minCount N 1 0 nb0
        s0).visited.testBit j = true ↔ j < N := by
  have key := expandLoop_rule { rows := N, cols := N, At := f } eps minCount N 1
    (fun i nb s => ∃ k, 1 ≤ k ∧ k ≤ N ∧ i ≤ k ∧ s.clusterMap = [(1, List.range k)] ∧
      (∀ j, s.visited.testBit j = true ↔ j < k) ∧
      (∀ j, s.clustered.testBit j = true ↔ j < k) ∧
      (∀ j, j < N → nb.testBit j = true))
    (by
      intro i nb s hi h hs
      obtain ⟨k, h1, h2, h3, h4, h5, h6, h7⟩ := h
      refine ⟨k, h1, h2, ?_, h4, h5, h6, h7⟩
      rcases hs with hs | hs
      · rw [h7 i hi] at hs; exact absurd hs (by decide)
      · have := (h5 i).mp hs; omega)
    (by
      intro i nb s hi h _ hvi
      obtain ⟨k, h1, h2, h3, h4, h5, h6, h7⟩ := h
      have hik : i = k := by
        by_contra hne
        have hlt : i < k := by omega
        rw [(h5 i).mpr hlt] at hvi
        exact absurd hvi (by decide)
      subst hik
      have hcl : s.clustered.testBit i = false := by
        by_cases hx : s.clustered.testBit i = true
        · have := (h6 i).mp hx; omega
        · simpa using hx
      have hcore : IsCore { rows := N, cols := N, At := f } eps minCount i := by
        unfold IsCore
        rw [neighbourCount_all N f eps hall i hi]
        exact hmc
      have hprom := (promoted_iff { rows := N, cols := N, At := f } eps minCount i).mpr hcore
      have hmap : s.clusterMap = ([] : ClusterMap) ++ [(1, List.range i)] := by simpa using h4
      refine ⟨i + 1, by omega, by omega, ?_, ?_, ?_, ?_, ?_⟩
      · unfold visitNext; rw [if_pos hprom]; omega
      · rw [visitState_last 1 i s [] (List.range i) hmap (by simp [keys]), if_pos hcl]
        simp [List.range_succ]
      · intro j
        rw [visitState_visited, Big.testBit_setBit, Bool.or_eq_true, decide_eq_true_eq, h5 j]
        omega
      · intro j
        rw [visitState_clustered, h6 j]
        omega
      · intro j hj
        exact (testBit_visitNeighbours _ eps minCount i nb j).mpr (Or.inl (h7 j hj)))
    0 nb0 s0 ⟨1, Nat.le_refl 1, hN, Nat.zero_le 1, hm, hv, hc, hnb⟩
  obtain ⟨i1, _, hi1, k, _, h2, h3, h4, h5, _, _⟩ := key
  have hk : k = N := by omega
  subst hk
  exact ⟨h4, h5⟩

/-- C6: for `N ≥ 1` rows that are all mutually within Eps (`f i j ≤ eps` for
all rows `i`, `j`, the zero diagonal included) and `minCount ≤ N`, DBSCAN
returns exactly one entry, under key 1, and it lists all `N` row indices (in
ascending order); for `N = 1` this is the single cluster holding row 0. -/
theorem C6_one_cluster_when_all_within_eps (N : Nat) (f : Nat → Nat → α) (eps : α)
    (minCount : Int) (hN : 1 ≤ N) (hall : ∀ i j, i < N → j < N → f i j ≤ eps)
    (hmc : minCount ≤ (N : Int)) :
    DBSCANOnMatrix { rows := N, cols := N, At := f } eps minCount N = [(1, List.range N)] := by
  have hcore0 : IsCore { rows := N, cols := N, At := f } eps minCount 0 := by
    unfold IsCore
    rw [neighbourCount_all N f eps hall 0 (by omega)]
    exact hmc
  have hstep0 := outerStep_seed_fresh { rows := N, cols := N, At := f } eps minCount N
    initState 0 (by simp [initState]) hcore0 (by simp [initState]) (by simp [initState, keys])
  have hloop := expandLoop_all N f eps minCount hall hmc
    { clusterMap := initState.1.clusterMap ++ [(initState.2 + 1, [0])]
      visited := Big.SetBit (Big.SetBit initState.1.visited 0) 0
      clustered := Big.SetBit initState.1.clustered 0 }
    (regionQuery 0 0 { rows := N, cols := N, At := f } eps) hN
    (by simp [initState, List.range_succ])
    (by
      intro j
      show (Big.SetBit (Big.SetBit 0 0) 0).testBit j = true ↔ j < 1
      rw [Big.testBit_setBit, Big.testBit_setBit]
      simp
      omega)
    (by
      intro j
      show (Big.SetBit 0 0).testBit j = true ↔ j < 1
      rw [Big.testBit_setBit]
      simp
      omega)
    (by
      intro j hj
      exact (testBit_regionQuery_zero 0 _ eps j).mpr ⟨hj, hall 0 j (by omega) hj⟩)
  have h1 : (outerLoopUpTo { rows := N, cols := N, At := f } eps minCount N 1).1.clusterMap
        = [(1, List.range N)] ∧
      ∀ j, (outerLoopUpTo { rows := N, cols := N, At := f } eps minCount N 1).1.visited.testBit j
        = true ↔ j < N := by
    rw [outerLoopUpTo_succ, outerLoopUpTo_zero, hstep0]
    exact hloop
  have hall_k : ∀ k, 1 ≤ k → k ≤ N →
      outerLoopUpTo { rows := N, cols := N, At := f } eps minCount N k
        = outerLoopUpTo { rows := N, cols := N, At := f } eps minCount N 1 := by
    intro k
    induction k with
    | zero => intro h; omega
    | succ k ih =>
      intro _ hk
      by_cases hk0 : k = 0
      · subst hk0; rfl
      · have ihk := ih (by omega) (by omega)
        rw [outerLoopUpTo_succ, ihk]
        exact outerStep_visited _ _ _ _ _ _ ((h1.2 k).mpr (by omega))
  rw [DBSCANOnMatrix_eq_filter]
  unfold outerLoop
  rw [hall_k N hN (Nat.le_refl N), h1.1]
  simp [hmc]

/-- Witness of C6 on the three rows at positions 0, 1, 2 (pairwise distance at
most 2) with `eps = 2` and `minCount = 3`. -/
theorem C6_one_cluster_when_all_within_eps_witness :
    (∀ i, i < 3 → ∀ j, j < 3 → |linePos i - linePos j| ≤ (2 : ℚ)) ∧
    DBSCANOnMatrix { rows := 3, cols := 3, At := fun i j => |linePos i - linePos j| }
      (2 : ℚ) 3 3 = [(1, List.range 3)] :=
  ⟨by decide!,
    C6_one_cluster_when_all_within_eps 3 (fun i j => |linePos i - linePos j|) (2 : ℚ) 3
      (by decide)
      (fun i j hi hj =>
        (by decide! : ∀ i, i < 3 → ∀ j, j < 3 → |linePos i - linePos j| ≤ (2 : ℚ)) i hi j hj)
      (by decide)⟩

end Core

/-! ## Core points and the noise branch -/

theorem seedState_visited (c p : Nat) (s : State) :
    (seedState c p s).visited = Big.SetBit s.visited p := rfl

theorem seedState_clustered (c p : Nat) (s : State) :
    (seedState c p s).clustered = Big.SetBit s.clustered p := rfl

section Core

variable {α : Type} [LE α] [DecidableRel (α := α) (· ≤ ·)]

/-- During an expansion started at outer row `k`: a row marked in `clustered`
is listed or was absorbed by the noise branch of a row below `k`, and a
visited core row is listed or was absorbed by a non-core row below it. -/
theorem expandLoop_absorbed (dist : Dense α) (eps : α) (minCount : Int) (rows c k : Nat)
    (i nb : Nat) (s : State)
    (h1 : ∀ x, s.clustered.testBit x = true → x ∈ members s.clusterMap ∨
      ∃ q, q < k ∧ ¬ IsCore dist eps minCount q ∧ dist.At q x ≤ eps)
    (h2 : ∀ p, s.visited.testBit p = true → IsCore dist eps minCount p →
      p ∈ members s.clusterMap ∨
        ∃ q, q < p ∧ ¬ IsCore dist eps minCount q ∧ dist.At q p ≤ eps)
    (h3 : ∀ j, j ≤ k → s.visited.testBit j = true) :
    (∀ x, (expandLoop dist eps minCount rows c i nb s).clustered.testBit x = true →
      x ∈ members (expandLoop dist eps minCount rows c i nb s).clusterMap ∨
        ∃ q, q < k ∧ ¬ IsCore dist eps minCount q ∧ dist.At q x ≤ eps) ∧
    (∀ p, (expandLoop dist eps minCount rows c i nb s).visited.testBit p = true →
      IsCore dist eps minCount p →
      p ∈ members (expandLoop dist eps minCount rows c i nb s).clusterMap ∨
        ∃ q, q < p ∧ ¬ IsCore dist eps minCount q ∧ dist.At q p ≤ eps) := by
  have key := expandLoop_rule dist eps minCount rows c
    (fun _ _ s =>
      (∀ x, s.clustered.testBit x = true → x ∈ members s.clusterMap ∨
        ∃ q, q < k ∧ ¬ IsCore dist eps minCount q ∧ dist.At q x ≤ eps) ∧
      (∀ p, s.visited.testBit p = true → IsCore dist eps minCount p →
        p ∈ members s.clusterMap ∨
          ∃ q, q < p ∧ ¬ IsCore dist eps minCount q ∧ dist.At q p ≤ eps) ∧
      (∀ j, j ≤ k → s.visited.testBit j = true))
    (fun i nb s _ h _ => h)
    (by
      intro i nb s _ h _ hvi
      obtain ⟨g1, g2, g3⟩ := h
      have hik : k < i := by
        by_contra hle
        rw [g3 i (by omega)] at hvi
        exact absurd hvi (by decide)
      have hi_new : s.clustered.testBit i = true →
          i ∈ members (visitState c i s).clusterMap ∨
            ∃ q, q < k ∧ ¬ IsCore dist eps minCount q ∧ dist.At q i ≤ eps := by
        intro hci
        rcases g1 i hci with h | h
        · exact Or.inl ((mem_members_visitState c i s i).mpr (Or.inl h))
        · exact Or.inr h
      have hi_any : i ∈ members (visitState c i s).clusterMap ∨
            ∃ q, q < k ∧ ¬ IsCore dist eps minCount q ∧ dist.At q i ≤ eps := by
        by_cases hci : s.clustered.testBit i = true
        · exact hi_new hci
        · exact Or.inl ((mem_members_visitState c i s i).mpr
            (Or.inr ⟨rfl, by simpa using hci⟩))
      refine ⟨?_, ?_, ?_⟩
      · intro x hx
        rcases (visitState_clustered c i s x).mp hx with hx1 | hx1
        · rcases g1 x hx1 with h | h
          · exact Or.inl ((mem_members_visitState c i s x).mpr (Or.inl h))
          · exact Or.inr h
        · subst hx1; exact hi_any
      · intro p hp hcore
        rw [visitState_visited, Big.testBit_setBit, Bool.or_eq_true, decide_eq_true_eq] at hp
        rcases hp with hp1 | hp1
        · rcases g2 p hp1 hcore with h | h
          · exact Or.inl ((mem_members_visitState c i s p).mpr (Or.inl h))
          · exact Or.inr h
        · subst hp1
          rcases hi_any with h | ⟨q, hq, hq2, hq3⟩
          · exact Or.inl h
          · exact Or.inr ⟨q, by omega, hq2, hq3⟩
      · intro j hj
        rw [visitState_visited]
        exact Big.testBit_setBit_of_true _ _ _ (g3 j hj))
    i nb s ⟨h1, h2, h3⟩
  obtain ⟨_, _, _, g1, g2, _⟩ := key
  exact ⟨g1, g2⟩

/-- The two absorption facts, as an invariant of the outer loop. -/
theorem outerLoopUpTo_absorbed (dist : Dense α) (eps : α) (minCount : Int) (rows : Nat) :
    ∀ k, k ≤ rows →
      (∀ x, (outerLoopUpTo dist eps minCount rows k).1.clustered.testBit x = true →
        x ∈ members (outerLoopUpTo dist eps minCount rows k).1.clusterMap ∨
          ∃ q, q < k ∧ ¬ IsCore dist eps minCount q ∧ dist.At q x ≤ eps) ∧
      (∀ p, (outerLoopUpTo dist eps minCount rows k).1.visited.testBit p = true →
        IsCore dist eps minCount p →
        p ∈ members (outerLoopUpTo dist eps minCount rows k).1.clusterMap ∨
          ∃ q, q < p ∧ ¬ IsCore dist eps minCount q ∧ dist.At q p ≤ eps) := by
  intro k
  induction k with
  | zero =>
    intro _
    rw [outerLoopUpTo_zero]
    constructor
    · intro x hx; simp [initState] at hx
    · intro p hp; simp [initState] at hp
  | succ k ih =>
    intro hk
    obtain ⟨g1, g2⟩ := ih (by omega)
    have hwf := outerLoopUpTo_wf dist eps minCount rows k (by omega)
    rw [outerLoopUpTo_succ]
    generalize outerLoopUpTo dist eps minCount rows k = st at g1 g2 hwf
    have weaken : ∀ x, (x ∈ members st.1.clusterMap ∨
        ∃ q, q < k ∧ ¬ IsCore dist eps minCount q ∧ dist.At q x ≤ eps) →
        (x ∈ members st.1.clusterMap ∨
          ∃ q, q < k + 1 ∧ ¬ IsCore dist eps minCount q ∧ dist.At q x ≤ eps) := by
      rintro x (h | ⟨q, hq, hq2, hq3⟩)
      · exact Or.inl h
      · exact Or.inr ⟨q, by omega, hq2, hq3⟩
    by_cases hv : st.1.visited.testBit k = true
    · rw [outerStep_visited _ _ _ _ _ _ hv]
      exact ⟨fun x hx => weaken x (g1 x hx), g2⟩
    · have hv0 : st.1.visited.testBit k = false := by simpa using hv
      by_cases hcore : IsCore dist eps minCount k
      · by_cases hcl : st.1.clustered.testBit k = true
        · rw [outerStep_seed_clustered _ _ _ _ _ _ hv0 hcore hcl]
          refine ⟨fun x hx => weaken x (g1 x hx), ?_⟩
          intro p hp hpc
          have hp2 : (Big.SetBit st.1.visited k).testBit p = true := hp
          rw [Big.testBit_setBit, Bool.or_eq_true, decide_eq_true_eq] at hp2
          rcases hp2 with hp3 | hp3
          · exact g2 p hp3 hpc
          · subst hp3; exact g1 k hcl
        · have hcl0 : st.1.clustered.testBit k = false := by simpa using hcl
          rw [outerStep_seed _ _ _ _ _ _ hv0 hcore,
            expandCluster_fresh dist eps minCount rows
              { clusterMap := st.1.clusterMap
                visited := Big.SetBit st.1.visited k
                clustered := st.1.clustered } k _ _ hcl0]
          have hloop := expandLoop_absorbed dist eps minCount rows (st.2 + 1) k 0
            (regionQuery k 0 dist eps)
            (seedState (st.2 + 1) k
              { clusterMap := st.1.clusterMap
                visited := Big.SetBit st.1.visited k
                clustered := st.1.clustered })
            (by
              intro x hx
              rw [seedState_clustered, Big.testBit_setBit, Bool.or_eq_true,
                decide_eq_true_eq] at hx
              rcases hx with hx1 | hx1
              · rcases g1 x hx1 with h | h
                · exact Or.inl ((mem_members_seedState _ _ _ x).mpr (Or.inl h))
                · exact Or.inr h
              · exact Or.inl ((mem_members_seedState _ _ _ x).mpr (Or.inr hx1.symm)))
            (by
              intro p hp hpc
              rw [seedState_visited, Big.testBit_setBit, Bool.or_eq_true,
                decide_eq_true_eq] at hp
              have hp' : st.1.visited.testBit p = true ∨ k = p := by
                rcases hp with hp1 | hp1
                · have hp2 : (Big.SetBit st.1.visited k).testBit p = true := hp1
                  rw [Big.testBit_setBit, Bool.or_eq_true, decide_eq_true_eq] at hp2
                  exact hp2
                · exact Or.inr hp1
              rcases hp' with hp1 | hp1
              · rcases g2 p hp1 hpc with h | h
                · exact Or.inl ((mem_members_seedState _ _ _ p).mpr (Or.inl h))
                · exact Or.inr h
              · exact Or.inl ((mem_members_seedState _ _ _ p).mpr (Or.inr hp1.symm)))
            (by
              intro j hj
              rw [seedState_visited]
              by_cases hjk : j = k
              · subst hjk; exact Big.testBit_setBit_self _ _
              · apply Big.testBit_setBit_of_true
                show (Big.SetBit st.1.visited k).testBit j = true
                exact Big.testBit_setBit_of_true _ _ _ (hwf.visited_below j (by omega)))
          refine ⟨?_, hloop.2⟩
          intro x hx
          rcases hloop.1 x hx with h | ⟨q, hq, hq2, hq3⟩
          · exact Or.inl h
          · exact Or.inr ⟨q, by omega, hq2, hq3⟩
      · rw [outerStep_noise _ _ _ _ _ _ hv0 hcore]
        constructor
        · intro x hx
          have hx2 : (Big.Or st.1.clustered (regionQuery k 0 dist eps)).testBit x = true := hx
          rw [Big.testBit_or, Bool.or_eq_true, testBit_regionQuery_zero] at hx2
          rcases hx2 with hx3 | hx3
          · exact weaken x (g1 x hx3)
          · exact Or.inr ⟨k, by omega, hcore, hx3.2⟩
        · intro p hp hpc
          have hp2 : (Big.SetBit st.1.visited k).testBit p = true := hp
          rw [Big.testBit_setBit, Bool.or_eq_true, decide_eq_true_eq] at hp2
          rcases hp2 with hp3 | hp3
          · exact g2 p hp3 hpc
          · subst hp3; exact absurd hpc hcore

/-- C3, as stated, fails: on the four points at positions 0, 1, 2, 3 with
`eps = 1` and `minCount = 3` (symmetric matrix, zero diagonal) rows 1 and 2
are core points, yet DBSCAN returns the empty map. Row 1 was marked in
`clustered` by the noise branch of row 0, so its expansion returns at once;
row 2 seeds the cluster `[2, 3]`, which is pruned. -/
theorem C3_core_points_left_out :
    (∀ i, i < 4 → ∀ j, j < 4 →
      (lineDist unitPos 4).At i j = (lineDist unitPos 4).At j i) ∧
    (∀ i, i < 4 → (lineDist unitPos 4).At i i = 0) ∧
    (0 : ℚ) ≤ 1 ∧ (1 : Int) ≤ 3 ∧
    IsCore (lineDist unitPos 4) 1 3 1 ∧ IsCore (lineDist unitPos 4) 1 3 2 ∧
    (outerLoop (lineDist unitPos 4) 1 3 4).1.clusterMap = [(2, [2, 3])] ∧
    DBSCANOnMatrix (lineDist unitPos 4) 1 3 4 = [] := by
  decide!

/-- C3, amended: every core row `p` is listed in an entry of the returned map,
unless its entry in the map built by the outer loop has fewer than `minCount`
rows (and was pruned), or some non-core row `q < p` has `dist.At q p ≤ eps`
(the noise branch of `q` may have marked `p` in `clustered`). -/
theorem C3_core_point_listed_unless_pruned_or_absorbed (dist : Dense α) (eps : α)
    (minCount : Int) (rows p : Nat) (hp : p < rows) (hcore : IsCore dist eps minCount p) :
    (∃ e ∈ DBSCANOnMatrix dist eps minCount rows, p ∈ e.2) ∨
    (∃ e ∈ (outerLoop dist eps minCount rows).1.clusterMap,
      p ∈ e.2 ∧ (e.2.length : Int) < minCount) ∨
    (∃ q, q < p ∧ ¬ IsCore dist eps minCount q ∧ dist.At q p ≤ eps) := by
  have hwf := outerLoopUpTo_wf dist eps minCount rows rows (Nat.le_refl _)
  have habs := (outerLoopUpTo_absorbed dist eps minCount rows rows (Nat.le_refl _)).2 p
    (hwf.visited_below p hp) hcore
  rcases habs with h | h
  · obtain ⟨e, he, hpe⟩ := (mem_members_iff _ _).mp h
    by_cases hlen : minCount ≤ (e.2.length : Int)
    · exact Or.inl ⟨e, (mem_DBSCANOnMatrix dist eps minCount rows e).mpr ⟨he, hlen⟩, hpe⟩
    · exact Or.inr (Or.inl ⟨e, he, hpe, by omega⟩)
  · exact Or.inr (Or.inr h)

/-- Witness of C3 (amended) on the six points at 0, 1, 2, 10, 11, 12 with
`eps = 3/2`, `minCount = 2`, at the core row 4. -/
theorem C3_core_point_listed_unless_pruned_or_absorbed_witness :
    (4 < 6 ∧ IsCore (lineDist linePos 6) (3 / 2) 2 4) ∧
    ((∃ e ∈ DBSCANOnMatrix (lineDist linePos 6) (3 / 2) 2 6, 4 ∈ e.2) ∨
      (∃ e ∈ (outerLoop (lineDist linePos 6) (3 / 2) 2 6).1.clusterMap,
        4 ∈ e.2 ∧ (e.2.length : Int) < 2) ∨
      (∃ q, q < 4 ∧ ¬ IsCore (lineDist linePos 6) (3 / 2) 2 q ∧
        (lineDist linePos 6).At q 4 ≤ 3 / 2)) :=
  ⟨⟨by decide, by decide!⟩,
    C3_core_point_listed_unless_pruned_or_absorbed (lineDist linePos 6) (3 / 2) 2 6 4
      (by decide) (by decide!)⟩

end Core

/-! ## What one expansion reaches -/

section Core

variable {α : Type} [LE α] [DecidableRel (α := α) (· ≤ ·)]

theorem ReachVia.lt_rows (dist : Dense α) (eps : α) (minCount : Int) (ok : Nat → Prop)
    (p q : Nat) (h : ReachVia dist eps minCount ok p q) : q < dist.rows := by
  cases h with
  | base _ h1 _ => exact h1
  | step _ _ _ _ _ h1 _ => exact h1

/-- The expansion loop run to its end from index 0. `V0` and `C0` are the bit
sets before the seed `p` was added. The final neighbour set contains the
initial one and the neighbourhood of every core row first visited by the loop;
every row of it is visited; and the list of cluster `c` holds every row
visited since `V0` that was not marked in `C0`. -/
theorem expandLoop_closure (dist : Dense α) (eps : α) (minCount : Int) (rows c : Nat)
    (m0 : ClusterMap) (hc : c ∉ keys m0) (p V0 C0 : Nat) (nb0 : Nat) (s0 : State)
    (hB : ∀ k, s0.visited.testBit k = true → V0.testBit k = false → k = p)
    (hC : ∃ v, s0.clusterMap = m0 ++ [(c, v)] ∧
      ∀ j, s0.visited.testBit j = true → V0.testBit j = false → C0.testBit j = false → j ∈ v)
    (hD : ∀ j, s0.clustered.testBit j = true → C0.testBit j = true ∨ s0.visited.testBit j = true)
    (hF : s0.visited.testBit 0 = true) :
    ∃ nb1 : Nat,
      (∀ j, nb0.testBit j = true → nb1.testBit j = true) ∧
      (∀ k, (expandLoop dist eps minCount rows c 0 nb0 s0).visited.testBit k = true →
        V0.testBit k = false → k ≠ p → IsCore dist eps minCount k →
        ∀ j, j < dist.rows → dist.At k j ≤ eps → nb1.testBit j = true) ∧
      (∃ v, (expandLoop dist eps minCount rows c 0 nb0 s0).clusterMap = m0 ++ [(c, v)] ∧
        ∀ j, (expandLoop dist eps minCount rows c 0 nb0 s0).visited.testBit j = true →
          V0.testBit j = false → C0.testBit j = false → j ∈ v) ∧
      (∀ j, j < rows → nb1.testBit j = true →
        (expandLoop dist eps minCount rows c 0 nb0 s0).visited.testBit j = true) := by
  have key := expandLoop_rule dist eps minCount rows c
    (fun i nb s =>
      (∀ j, nb0.testBit j = true → nb.testBit j = true) ∧
      (∀ k, s.visited.testBit k = true → V0.testBit k = false → k ≠ p →
        IsCore dist eps minCount k →
        ∀ j, j < dist.rows → dist.At k j ≤ eps → nb.testBit j = true) ∧
      (∃ v, s.clusterMap = m0 ++ [(c, v)] ∧
        ∀ j, s.visited.testBit j = true → V0.testBit j = false → C0.testBit j = false →
          j ∈ v) ∧
      (∀ j, s.clustered.testBit j = true → C0.testBit j = true ∨ s.visited.testBit j = true) ∧
      (∀ j, j < i → nb.testBit j = true → s.visited.testBit j = true) ∧
      s.visited.testBit 0 = true)
    (by
      intro i nb s _ h hs
      obtain ⟨gA, gB, gC, gD, gE, gF⟩ := h
      refine ⟨gA, gB, gC, gD, ?_, gF⟩
      intro j hj hnb
      by_cases hji : j = i
      · subst hji
        rcases hs with hs | hs
        · rw [hnb] at hs; exact absurd hs (by decide)
        · exact hs
      · exact gE j (by omega) hnb)
    (by
      intro i nb s _ h _ hvi
      obtain ⟨gA, gB, ⟨v, hv1, hv2⟩, gD, gE, gF⟩ := h
      have hvis : ∀ j, (visitState c i s).visited.testBit j = true ↔
          s.visited.testBit j = true ∨ i = j := by
        intro j
        rw [visitState_visited, Big.testBit_setBit, Bool.or_eq_true, decide_eq_true_eq]
      refine ⟨?_, ?_, ?_, ?_, ?_, ?_⟩
      · intro j hj
        exact (testBit_visitNeighbours dist eps minCount i nb j).mpr (Or.inl (gA j hj))
      · intro k hk hk0 hkp hkc j hj hd
        apply (testBit_visitNeighbours dist eps minCount i nb j).mpr
        rcases (hvis k).mp hk with hk1 | hk1
        · exact Or.inl (gB k hk1 hk0 hkp hkc j hj hd)
        · subst hk1; exact Or.inr ⟨hkc, hj, hd⟩
      · rw [visitState_last c i s m0 v hv1 hc]
        by_cases hcl : s.clustered.testBit i = false
        · rw [if_pos hcl]
          refine ⟨v ++ [i], rfl, ?_⟩
          intro j hj hj0 hjc
          have hj2 : (Big.SetBit s.visited i).testBit j = true := hj
          rw [Big.testBit_setBit, Bool.or_eq_true, decide_eq_true_eq] at hj2
          rcases hj2 with hj3 | hj3
          · exact List.mem_append.mpr (Or.inl (hv2 j hj3 hj0 hjc))
          · subst hj3; simp
        · rw [if_neg hcl]
          refine ⟨v, rfl, ?_⟩
          intro j hj hj0 hjc
          have hj2 : (Big.SetBit s.visited i).testBit j = true := hj
          rw [Big.testBit_setBit, Bool.or_eq_true, decide_eq_true_eq] at hj2
          rcases hj2 with hj3 | hj3
          · exact hv2 j hj3 hj0 hjc
          · subst hj3
            have hcl1 : s.clustered.testBit i = true := by simpa using hcl
            rcases gD i hcl1 with h | h
            · rw [hjc] at h; exact absurd h (by decide)
            · rw [hvi] at h; exact absurd h (by decide)
      · intro j hj
        rcases (visitState_clustered c i s j).mp hj with hj1 | hj1
        · rcases gD j hj1 with h | h
          · exact Or.inl h
          · exact Or.inr ((hvis j).mpr (Or.inl h))
        · exact Or.inr ((hvis j).mpr (Or.inr hj1.symm))
      · intro j hj hnb
        by_cases hprom : promoted dist eps minCount i = true
        · have hj0 : j = 0 := by
            unfold visitNext at hj
            rw [if_pos hprom] at hj
            omega
          subst hj0
          exact (hvis 0).mpr (Or.inl gF)
        · have hlt : j < i + 1 := by
            unfold visitNext at hj
            rw [if_neg hprom] at hj
            exact hj
          have hnc : ¬ IsCore dist eps minCount i :=
            fun h => hprom ((promoted_iff _ _ _ _).mpr h)
          by_cases hji : j = i
          · exact (hvis j).mpr (Or.inr hji.symm)
          · rcases (testBit_visitNeighbours dist eps minCount i nb j).mp hnb with h | h
            · exact (hvis j).mpr (Or.inl (gE j (by omega) h))
            · exact absurd h.1 hnc
      · exact (hvis 0).mpr (Or.inl gF))
    0 nb0 s0
    ⟨fun _ h => h,
      fun k hk hk0 hkp _ _ _ _ => absurd (hB k hk hk0) hkp,
      hC, hD, fun j hj _ => absurd hj (Nat.not_lt_zero j), hF⟩
  obtain ⟨i1, nb1, hi1, gA, gB, gC, _, gE, _⟩ := key
  exact ⟨nb1, gA, gB, gC, fun j hj hnb => gE j (by omega) hnb⟩

/-- C2, as stated, fails: on the four points at positions 0, 1, 2, 3 with
`eps = 1` and `minCount = 3` (symmetric matrix, zero diagonal) the outer loop
invokes `expandCluster` at the core row 1 with identifier 1 and at the core
row 2 with identifier 2. Row 1 is density-reachable from itself but cluster 1
stays empty (row 0's noise branch had marked row 1 in `clustered`); row 0 is
density-reachable from row 2 through the core row 1, but cluster 2 ends as
`[2, 3]`. -/
theorem C2_expansion_misses_reachable_rows :
    ((∀ i, i < 4 → ∀ j, j < 4 →
        (lineDist unitPos 4).At i j = (lineDist unitPos 4).At j i) ∧
      (∀ i, i < 4 → (lineDist unitPos 4).At i i = 0) ∧
      (0 : ℚ) ≤ 1 ∧ (1 : Int) ≤ 3) ∧
    ((outerLoopUpTo (lineDist unitPos 4) 1 3 4 1).1.visited.testBit 1 = false ∧
      (outerLoopUpTo (lineDist unitPos 4) 1 3 4 1).2 + 1 = 1 ∧
      mapGet (outerLoopUpTo (lineDist unitPos 4) 1 3 4 2).1.clusterMap 1 = []) ∧
    DensityReachable (lineDist unitPos 4) 1 3 1 1 ∧
    ((outerLoopUpTo (lineDist unitPos 4) 1 3 4 2).1.visited.testBit 2 = false ∧
      (outerLoopUpTo (lineDist unitPos 4) 1 3 4 2).2 + 1 = 2 ∧
      mapGet (outerLoopUpTo (lineDist unitPos 4) 1 3 4 3).1.clusterMap 2 = [2, 3]) ∧
    DensityReachable (lineDist unitPos 4) 1 3 2 0 :=
  ⟨by decide!, by decide!,
    ⟨by decide!, ReachVia.base 1 (by decide) (by decide!)⟩,
    by decide!,
    ⟨by decide!,
      ReachVia.step 1 0 (ReachVia.base 1 (by decide) (by decide!)) trivial (by decide!)
        (by decide) (by decide!)⟩⟩

/-- C2, amended: when the outer loop reaches an unvisited core row `p` that is
not marked in `clustered`, the expansion it runs under the new identifier
lists every row `q` that was neither visited nor marked in `clustered` before
and that is reached from `p` by a chain of core rows none of which was visited
before (`q` within Eps of the last). -/
theorem C2_expansion_lists_fresh_reachable_rows (dist : Dense α) (eps : α) (minCount : Int)
    (rows p q : Nat) (hdim : dist.rows = rows) (hp : p < rows)
    (hv : (outerLoopUpTo dist eps minCount rows p).1.visited.testBit p = false)
    (hcore : IsCore dist eps minCount p)
    (hcl : (outerLoopUpTo dist eps minCount rows p).1.clustered.testBit p = false)
    (hreach : ReachVia dist eps minCount
      (fun k => (outerLoopUpTo dist eps minCount rows p).1.visited.testBit k = false) p q)
    (hqv : (outerLoopUpTo dist eps minCount rows p).1.visited.testBit q = false)
    (hqc : (outerLoopUpTo dist eps minCount rows p).1.clustered.testBit q = false) :
    q ∈ mapGet (outerLoopUpTo dist eps minCount rows (p + 1)).1.clusterMap
      ((outerLoopUpTo dist eps minCount rows p).2 + 1) := by
  have hwf := outerLoopUpTo_wf dist eps minCount rows p (by omega)
  rw [outerLoopUpTo_succ]
  generalize outerLoopUpTo dist eps minCount rows p = st at hv hcl hreach hqv hqc hwf
  have hfresh := fresh_key rows p st hwf
  rw [outerStep_seed_fresh dist eps minCount rows st p hv hcore hcl hfresh]
  have hvis0 : ∀ j, (Big.SetBit (Big.SetBit st.1.visited p) p).testBit j = true ↔
      st.1.visited.testBit j = true ∨ p = j := by
    intro j
    rw [Big.testBit_setBit, Big.testBit_setBit, Bool.or_eq_true, Bool.or_eq_true,
      decide_eq_true_eq]
    tauto
  obtain ⟨nb1, gA, gB, ⟨v, hv1, hv2⟩, gE⟩ := expandLoop_closure dist eps minCount rows
    (st.2 + 1) st.1.clusterMap hfresh p st.1.visited st.1.clustered (regionQuery p 0 dist eps)
    { clusterMap := st.1.clusterMap ++ [(st.2 + 1, [p])]
      visited := Big.SetBit (Big.SetBit st.1.visited p) p
      clustered := Big.SetBit st.1.clustered p }
    (by
      intro k hk hk0
      rcases (hvis0 k).mp hk with h | h
      · rw [hk0] at h; exact absurd h (by decide)
      · exact h.symm)
    ⟨[p], rfl, by
      intro j hj hj0 _
      rcases (hvis0 j).mp hj with h | h
      · rw [hj0] at h; exact absurd h (by decide)
      · simp [h]⟩
    (by
      intro j hj
      have hj2 : (Big.SetBit st.1.clustered p).testBit j = true := hj
      rw [Big.testBit_setBit, Bool.or_eq_true, decide_eq_true_eq] at hj2
      rcases hj2 with h | h
      · exact Or.inl h
      · exact Or.inr ((hvis0 j).mpr (Or.inr h)))
    (by
      apply (hvis0 0).mpr
      by_cases hp0 : p = 0
      · exact Or.inr hp0
      · exact Or.inl (hwf.visited_below 0 (by omega)))
  have hnb : ∀ x, ReachVia dist eps minCount (fun k => st.1.visited.testBit k = false) p x →
      nb1.testBit x = true := by
    intro x hx
    induction hx with
    | base x hx1 hx2 =>
      exact gA x ((testBit_regionQuery_zero p dist eps x).mpr ⟨hx1, hx2⟩)
    | step k x hk hok hkc hx1 hx2 ih =>
      have hklt : k < rows := by
        rw [← hdim]; exact ReachVia.lt_rows dist eps minCount _ p k hk
      have hkvis := gE k hklt ih
      by_cases hkp : k = p
      · subst hkp
        exact gA x ((testBit_regionQuery_zero k dist eps x).mpr ⟨hx1, hx2⟩)
      · exact gB k hkvis hok hkp hkc x hx1 hx2
  have hqlt : q < rows := by
    rw [← hdim]; exact ReachVia.lt_rows dist eps minCount _ p q hreach
  have hqvis := gE q hqlt (hnb q hreach)
  show q ∈ mapGet (expandLoop dist eps minCount rows (st.2 + 1) 0 (regionQuery p 0 dist eps)
    { clusterMap := st.1.clusterMap ++ [(st.2 + 1, [p])]
      visited := Big.SetBit (Big.SetBit st.1.visited p) p
      clustered := Big.SetBit st.1.clustered p }).clusterMap (st.2 + 1)
  rw [hv1, mapGet_last _ _ _ hfresh]
  exact hv2 q hqvis hqv hqc

/-- Witness of C2 (amended) on the six points at 0, 1, 2, 10, 11, 12 with
`eps = 3/2`, `minCount = 2`: from the seed 3, row 5 is reached through the
core row 4, and cluster 2 lists it. -/
theorem C2_expansion_lists_fresh_reachable_rows_witness :
    ((outerLoopUpTo (lineDist linePos 6) (3 / 2) 2 6 3).1.visited.testBit 3 = false ∧
      IsCore (lineDist linePos 6) (3 / 2) 2 3 ∧
      (outerLoopUpTo (lineDist linePos 6) (3 / 2) 2 6 3).1.clustered.testBit 3 = false ∧
      (outerLoopUpTo (lineDist linePos 6) (3 / 2) 2 6 3).1.visited.testBit 5 = false ∧
      (outerLoopUpTo (lineDist linePos 6) (3 / 2) 2 6 3).1.clustered.testBit 5 = false) ∧
    5 ∈ mapGet (outerLoopUpTo (lineDist linePos 6) (3 / 2) 2 6 (3 + 1)).1.clusterMap
      ((outerLoopUpTo (lineDist linePos 6) (3 / 2) 2 6 3).2 + 1) :=
  ⟨by decide!,
    C2_expansion_lists_fresh_reachable_rows (lineDist linePos 6) (3 / 2) 2 6 3 5 rfl
      (by decide) (by decide!) (by decide!) (by decide!)
      (ReachVia.step 4 5 (ReachVia.base 4 (by decide) (by decide!)) (by decide!) (by decide!)
        (by decide) (by decide!))
      (by decide!) (by decide!)⟩

end Core

/-! ## Cells of the distance matrix -/

theorem Dense.set_set_cells {α : Type} (D : Dense α) (i j a b : Nat) (d x : α)
    (hij : i < j) (hab : a < b) (h : D.At a b = x ∧ D.At b a = x) (hne : ¬ (a = i ∧ b = j)) :
    ((D.Set i j d).Set j i d).At a b = x ∧ ((D.Set i j d).Set j i d).At b a = x := by
  simp only [Dense.Set]
  have h1 : ¬ (a = j ∧ b = i) := fun e => by omega
  have h2 : ¬ (a = i ∧ b = j) := hne
  have h3 : ¬ (b = j ∧ a = i) := fun e => hne ⟨e.2, e.1⟩
  have h4 : ¬ (b = i ∧ a = j) := fun e => by omega
  simp only [h1, h2, h3, h4, if_false]
  exact h

theorem Dense.set_set_self {α : Type} (D : Dense α) (i j : Nat) (d : α) (hij : i < j) :
    ((D.Set i j d).Set j i d).At i j = d ∧ ((D.Set i j d).Set j i d).At j i = d := by
  simp only [Dense.Set]
  have h1 : ¬ (i = j ∧ j = i) := fun e => by omega
  simp [h1]

theorem pairwise_inner_cells {α V : Type} (mats : Nat → V) (metric : V → V → α) (i : Nat) :
    ∀ (l : List Nat) (D : Dense α), (∀ j ∈ l, i < j) →
      (∀ a b, a < b →
        (D.At a b = metric (mats a) (mats b) ∧ D.At b a = metric (mats a) (mats b)) →
        ((l.foldl (fun dist j => (dist.Set i j (metric (mats i) (mats j))).Set j i
            (metric (mats i) (mats j))) D).At a b = metric (mats a) (mats b) ∧
          (l.foldl (fun dist j => (dist.Set i j (metric (mats i) (mats j))).Set j i
            (metric (mats i) (mats j))) D).At b a = metric (mats a) (mats b))) ∧
      (∀ j ∈ l,
        (l.foldl (fun dist j => (dist.Set i j (metric (mats i) (mats j))).Set j i
            (metric (mats i) (mats j))) D).At i j = metric (mats i) (mats j) ∧
        (l.foldl (fun dist j => (dist.Set i j (metric (mats i) (mats j))).Set j i
            (metric (mats i) (mats j))) D).At j i = metric (mats i) (mats j)) := by
  intro l
  induction l with
  | nil =>
    intro D _
    exact ⟨fun _ _ _ h => h, fun j hj => absurd hj (List.not_mem_nil j)⟩
  | cons j0 l ih =>
    intro D hl
    rw [List.foldl_cons]
    have hij0 : i < j0 := hl j0 (List.mem_cons_self _ _)
    obtain ⟨ih1, ih2⟩ := ih ((D.Set i j0 (metric (mats i) (mats j0))).Set j0 i
      (metric (mats i) (mats j0))) (fun j hj => hl j (List.mem_cons_of_mem _ hj))
    have keep : ∀ a b, a < b →
        (D.At a b = metric (mats a) (mats b) ∧ D.At b a = metric (mats a) (mats b)) →
        (((D.Set i j0 (metric (mats i) (mats j0))).Set j0 i
            (metric (mats i) (mats j0))).At a b = metric (mats a) (mats b) ∧
          ((D.Set i j0 (metric (mats i) (mats j0))).Set j0 i
            (metric (mats i) (mats j0))).At b a = metric (mats a) (mats b)) := by
      intro a b hab h
      by_cases he : a = i ∧ b = j0
      · obtain ⟨rfl, rfl⟩ := he
        exact Dense.set_set_self D a b _ hab
      · exact Dense.set_set_cells D i j0 a b _ _ hij0 hab h he
    refine ⟨fun a b hab h => ih1 a b hab (keep a b hab h), ?_⟩
    intro j hj
    rcases List.mem_cons.mp hj with hj1 | hj1
    · subst hj1
      exact ih1 i j hij0 (Dense.set_set_self D i j _ hij0)
    · exact ih2 j hj1

theorem pairwise_outer_cells {α V : Type} (mats : Nat → V) (metric : V → V → α)
    (rows : Nat) :
    ∀ (l : List Nat) (D : Dense α),
      (∀ a b, a < b →
        (D.At a b = metric (mats a) (mats b) ∧ D.At b a = metric (mats a) (mats b)) →
        ((l.foldl (fun dist i => (List.range' (i + 1) (rows - (i + 1))).foldl
            (fun dist j => (dist.Set i j (metric (mats i) (mats j))).Set j i
              (metric (mats i) (mats j))) dist) D).At a b = metric (mats a) (mats b) ∧
          (l.foldl (fun dist i => (List.range' (i + 1) (rows - (i + 1))).foldl
            (fun dist j => (dist.Set i j (metric (mats i) (mats j))).Set j i
              (metric (mats i) (mats j))) dist) D).At b a = metric (mats a) (mats b))) ∧
      (∀ i ∈ l, ∀ j, i < j → j < rows →
        (l.foldl (fun dist i => (List.range' (i + 1) (rows - (i + 1))).foldl
            (fun dist j => (dist.Set i j (metric (mats i) (mats j))).Set j i
              (metric (mats i) (mats j))) dist) D).At i j = metric (mats i) (mats j) ∧
        (l.foldl (fun dist i => (List.range' (i + 1) (rows - (i + 1))).foldl
            (fun dist j => (dist.Set i j (metric (mats i) (mats j))).Set j i
              (metric (mats i) (mats j))) dist) D).At j i = metric (mats i) (mats j)) := by
  intro l
  induction l with
  | nil =>
    intro D
    exact ⟨fun _ _ _ h => h, fun i hi => absurd hi (List.not_mem_nil i)⟩
  | cons i0 l ih =>
    intro D
    rw [List.foldl_cons]
    have hin := pairwise_inner_cells mats metric i0 (List.range' (i0 + 1) (rows - (i0 + 1))) D
      (by
        intro j hj
        obtain ⟨t, _, ht⟩ := List.mem_range'.mp hj
        omega)
    obtain ⟨ih1, ih2⟩ := ih ((List.range' (i0 + 1) (rows - (i0 + 1))).foldl
      (fun dist j => (dist.Set i0 j (metric (mats i0) (mats j))).Set j i0
        (metric (mats i0) (mats j))) D)
    refine ⟨fun a b hab h => ih1 a b hab (hin.1 a b hab h), ?_⟩
    intro i hi j hij hj
    rcases List.mem_cons.mp hi with hi1 | hi1
    · subst hi1
      have hmem : j ∈ List.range' (i + 1) (rows - (i + 1)) :=
        List.mem_range'.mpr ⟨j - (i + 1), by omega, by omega⟩
      exact ih1 i j hij (hin.2 j hmem)
    · exact ih2 i hi1 j hij hj

/-- Each value is computed once, with the smaller index first, and mirrored:
for `i < j` below the row count both `At i j` and `At j i` hold
`d row_i row_j`, for any distance function. -/
theorem computePairwiseDistances_upper_cells {α V ε : Type} [Zero α]
    (mats : Nat → V) (rows : Nat) (metric : V → V → α) :
    ∃ D : Dense α, computePairwiseDistances (ε := ε) (Except.ok mats) rows metric = Except.ok D ∧
      (∀ i j, i < j → j < rows →
        D.At i j = metric (mats i) (mats j) ∧ D.At j i = metric (mats i) (mats j)) := by
  refine ⟨_, rfl, ?_⟩
  have h := (pairwise_outer_cells mats metric rows (List.range rows) (NewDense rows rows)).2
  exact fun i j hij hj => h i (List.mem_range.mpr (by omega)) j hij hj

/-- C11: for every family of row vectors and every distance function `d`
(symmetric, as a distance is: `d a b = d b a`), `computePairwiseDistances`
succeeds once the rows are converted and the matrix it builds has
`At i j = At j i = d row_i row_j` for all `i ≠ j` below the row count. -/
theorem C11_cells_hold_the_pairwise_distance {α V ε : Type} [Zero α]
    (mats : Nat → V) (rows : Nat) (metric : V → V → α)
    (hsym : ∀ a b, metric a b = metric b a) :
    ∃ D : Dense α, computePairwiseDistances (ε := ε) (Except.ok mats) rows metric = Except.ok D ∧
      (∀ i j, i ≠ j → i < rows → j < rows →
        D.At i j = metric (mats i) (mats j) ∧ D.At j i = metric (mats i) (mats j)) := by
  obtain ⟨D, hD, h1⟩ := computePairwiseDistances_upper_cells (ε := ε) mats rows metric
  refine ⟨D, hD, ?_⟩
  intro i j hne hi hj
  by_cases hlt : i < j
  · exact h1 i j hlt hj
  · have hji : j < i := by omega
    obtain ⟨e1, e2⟩ := h1 j i hji hi
    rw [hsym (mats i) (mats j)]
    exact ⟨e2, e1⟩

/-- Witness of C11 on the six points at 0, 1, 2, 10, 11, 12 with the distance
`|a - b|`, which is symmetric. -/
theorem C11_cells_hold_the_pairwise_distance_witness :
    (∀ a b : ℚ, |a - b| = |b - a|) ∧
    ∃ D : Dense ℚ,
      computePairwiseDistances (ε := String) (Except.ok linePos) 6 (fun a b : ℚ => |a - b|)
        = Except.ok D ∧
      (∀ i j, i ≠ j → i < 6 → j < 6 →
        D.At i j = |linePos i - linePos j| ∧ D.At j i = |linePos i - linePos j|) :=
  ⟨abs_sub_comm,
    C11_cells_hold_the_pairwise_distance linePos 6 (fun a b : ℚ => |a - b|) abs_sub_comm⟩

/-! ## Region query, errors -/

/-- C12: for every matrix, every row `p` and every `eps`, `regionQuery` called
with the empty accumulator returns exactly the set of rows within Eps of `p`:
bit `i` is set iff `i` is below the row count and `dist.At p i ≤ eps` (so no
bit at or above the row count is set); and when `p` is a row with
`dist.At p p = 0` and `0 ≤ eps`, the result contains `p` itself. -/
theorem C12_regionQuery_is_the_eps_neighbourhood {α : Type} [LE α]
    [DecidableRel (α := α) (· ≤ ·)] [Zero α] (dist : Dense α) (p : Nat) (eps : α) :
    (∀ i, (regionQuery p 0 dist eps).testBit i = true ↔ (i < dist.rows ∧ dist.At p i ≤ eps)) ∧
    (∀ i, dist.rows ≤ i → (regionQuery p 0 dist eps).testBit i = false) ∧
    (p < dist.rows → dist.At p p = 0 → (0 : α) ≤ eps →
      (regionQuery p 0 dist eps).testBit p = true) := by
  refine ⟨fun i => testBit_regionQuery_zero p dist eps i, ?_, ?_⟩
  · intro i hi
    by_cases h : (regionQuery p 0 dist eps).testBit i = true
    · have := ((testBit_regionQuery_zero p dist eps i).mp h).1
      omega
    · simpa using h
  · intro hp hdiag heps
    apply (testBit_regionQuery_zero p dist eps p).mpr
    refine ⟨hp, ?_⟩
    rw [hdiag]
    exact heps

/-- C13: DBSCAN returns an error exactly when the conversion of the rows
fails, and then it is that same error (no map is returned); whenever the
conversion succeeds it returns a map and no error, whatever `eps`, `minCount`
and the metric are: the traversal of the built matrix cannot fail. -/
theorem C13_only_the_conversion_can_fail {α V ε : Type} [LE α]
    [DecidableRel (α := α) (· ≤ ·)] [Zero α] (rows : Nat) (metric : V → V → α) (eps : α)
    (minCount : Int) :
    (∀ err : ε, DBSCAN (Except.error err) rows metric eps minCount = Except.error err) ∧
    (∀ mats : Nat → V, ∃ D : Dense α,
      computePairwiseDistances (ε := ε) (Except.ok mats) rows metric = Except.ok D ∧
      DBSCAN (ε := ε) (Except.ok mats) rows metric eps minCount
        = Except.ok (DBSCANOnMatrix D eps minCount rows)) ∧
    (∀ (conv : Except ε (Nat → V)) (err : ε),
      DBSCAN conv rows metric eps minCount = Except.error err ↔ conv = Except.error err) := by
  refine ⟨fun _ => rfl, fun _ => ⟨_, rfl, rfl⟩, ?_⟩
  intro conv err
  cases conv with
  | error e =>
    constructor
    · intro h
      have h2 : (Except.error e : Except ε ClusterMap) = Except.error err := h
      injection h2 with h3
      rw [h3]
    · intro h
      injection h with h3
      rw [h3]
      rfl
  | ok mats =>
    constructor
    · intro h
      have h2 : (Except.ok (DBSCANOnMatrix _ eps minCount rows) : Except ε ClusterMap)
          = Except.error err := h
      cases h2
    · intro h
      cases h

/-! ## Parameters out of their domain -/

section Core

variable {α : Type} [LE α] [DecidableRel (α := α) (· ≤ ·)]

theorem outerLoopUpTo_no_core (dist : Dense α) (eps : α) (minCount : Int) (rows : Nat)
    (hno : ∀ p, p < rows → ¬ IsCore dist eps minCount p) :
    ∀ k, k ≤ rows → (outerLoopUpTo dist eps minCount rows k).1.clusterMap = [] ∧
      (outerLoopUpTo dist eps minCount rows k).2 = 0 := by
  intro k
  induction k with
  | zero => intro _; rw [outerLoopUpTo_zero]; exact ⟨rfl, rfl⟩
  | succ k ih =>
    intro hk
    obtain ⟨h1, h2⟩ := ih (by omega)
    rw [outerLoopUpTo_succ]
    by_cases hv : (outerLoopUpTo dist eps minCount rows k).1.visited.testBit k = true
    · rw [outerStep_visited _ _ _ _ _ _ hv]; exact ⟨h1, h2⟩
    · have hv0 : (outerLoopUpTo dist eps minCount rows k).1.visited.testBit k = false := by
        simpa using hv
      rw [outerStep_noise _ _ _ _ _ _ hv0 (hno k (by omega))]
      exact ⟨h1, h2⟩

theorem neighbourCount_none (dist : Dense α) (eps : α) (p : Nat)
    (hfar : ∀ j, ¬ dist.At p j ≤ eps) : neighbourCount dist eps p = 0 := by
  unfold neighbourCount
  have : (List.range dist.rows).filter (fun j => decide (dist.At p j ≤ eps)) = [] := by
    rw [List.filter_eq_nil_iff]
    intro j _
    simpa using hfar j
  rw [this]; rfl

theorem DBSCANOnMatrix_nothing_within_eps (dist : Dense α) (eps : α) (minCount : Int)
    (rows : Nat) (hfar : ∀ i j, ¬ dist.At i j ≤ eps) (hmc : 1 ≤ minCount) :
    DBSCANOnMatrix dist eps minCount rows = [] := by
  have hno : ∀ p, p < rows → ¬ IsCore dist eps minCount p := by
    intro p _ hc
    unfold IsCore at hc
    rw [neighbourCount_none dist eps p (hfar p)] at hc
    have : minCount ≤ 0 := by simpa using hc
    omega
  rw [DBSCANOnMatrix_eq_filter]
  unfold outerLoop
  rw [(outerLoopUpTo_no_core dist eps minCount rows hno rows (Nat.le_refl _)).1]
  rfl

end Core

theorem pairwise_far {α V : Type} [LE α] [Zero α] (mats : Nat → V) (metric : V → V → α)
    (rows : Nat) (eps : α) (h0 : ¬ (0 : α) ≤ eps) (hd : ∀ a b, ¬ metric a b ≤ eps) :
    ∀ D : Dense α, computePairwiseDistances (ε := Unit) (Except.ok mats) rows metric
      = Except.ok D → ∀ i j, ¬ D.At i j ≤ eps := by
  have inner : ∀ (i : Nat) (l : List Nat) (D : Dense α), (∀ r c, ¬ D.At r c ≤ eps) →
      ∀ r c, ¬ (l.foldl (fun dist j => (dist.Set i j (metric (mats i) (mats j))).Set j i
        (metric (mats i) (mats j))) D).At r c ≤ eps := by
    intro i l
    induction l with
    | nil => intro D h; exact h
    | cons j l ih =>
      intro D h
      rw [List.foldl_cons]
      apply ih
      intro r c
      simp only [Dense.Set]
      split
      · exact hd _ _
      · split
        · exact hd _ _
        · exact h r c
  have outer : ∀ (l : List Nat) (D : Dense α), (∀ r c, ¬ D.At r c ≤ eps) →
      ∀ r c, ¬ (l.foldl (fun dist i => (List.range' (i + 1) (rows - (i + 1))).foldl
        (fun dist j => (dist.Set i j (metric (mats i) (mats j))).Set j i
          (metric (mats i) (mats j))) dist) D).At r c ≤ eps := by
    intro l
    induction l with
    | nil => intro D h; exact h
    | cons i l ih =>
      intro D h
      rw [List.foldl_cons]
      exact ih _ (inner i _ D h)
  intro D hD
  have e : D = (List.range rows).foldl (fun dist i =>
      (List.range' (i + 1) (rows - (i + 1))).foldl
        (fun dist j => (dist.Set i j (metric (mats i) (mats j))).Set j i
          (metric (mats i) (mats j))) dist) (NewDense rows rows) := by
    have h2 : (Except.ok _ : Except Unit (Dense α)) = Except.ok D := hD
    injection h2 with h3
    exact h3.symm
  rw [e]
  exact outer (List.range rows) (NewDense rows rows) (fun _ _ => h0)

/-- C14, as stated, fails: on the six points at 0, 1, 2, 10, 11, 12 DBSCAN
with `eps = -1` and `minCount = 2` returns the empty map and no error, and
with `eps = 3/2` and `minCount = 0` it returns two clusters and no error. -/
theorem C14_out_of_domain_parameters_give_a_map :
    DBSCAN (ε := String) (Except.ok linePos) 6 (fun a b : ℚ => |a - b|) (-1) 2
      = Except.ok [] ∧
    DBSCAN (ε := String) (Except.ok linePos) 6 (fun a b : ℚ => |a - b|) (3 / 2) 0
      = Except.ok [(1, [0, 1, 2]), (2, [3, 4, 5])] :=
  ⟨congrArg Except.ok (by decide!), congrArg Except.ok (by decide!)⟩

/-- C14, amended: DBSCAN does not validate `eps` or `minCount`. Whenever the
rows convert it returns a map and no error, for every `eps` and `minCount`, in
their domain or not; in particular when `eps` lies below every distance (below
0 and below every value of the metric) and `minCount ≥ 1`, no row has a
neighbour and the returned map is empty. -/
theorem C14_no_parameter_validation {α V ε : Type} [LE α]
    [DecidableRel (α := α) (· ≤ ·)] [Zero α] (mats : Nat → V) (rows : Nat)
    (metric : V → V → α) (eps : α) (minCount : Int) :
    (∃ m : ClusterMap, DBSCAN (ε := ε) (Except.ok mats) rows metric eps minCount = Except.ok m) ∧
    (¬ (0 : α) ≤ eps → (∀ a b, ¬ metric a b ≤ eps) → 1 ≤ minCount →
      DBSCAN (ε := ε) (Except.ok mats) rows metric eps minCount = Except.ok []) := by
  refine ⟨⟨_, rfl⟩, ?_⟩
  intro h0 hd hmc
  have hfar := pairwise_far mats metric rows eps h0 hd _ rfl
  exact congrArg Except.ok (DBSCANOnMatrix_nothing_within_eps _ eps minCount rows hfar hmc)

/-! ## The population count -/

/-- C15: for every non-negative integer `n`, `BitCount n` is the number of bit
positions at which `n` has a 1 bit: the positions below any `k` with
`n < 2 ^ k`, in particular below `n` itself, where all 1 bits of `n` lie.
Each of the 256 entries `bitCounts[b]` is the number of 1 bits of the byte
`b`, and the `BitCount` of a set built by `regionQuery` is the number of rows
in that set. -/
theorem C15_bitCount_is_population_count {α : Type} [LE α] [DecidableRel (α := α) (· ≤ ·)] :
    (∀ n k, n < 2 ^ k → BitCount n = (bitsBelow k n : Int)) ∧
    (∀ n, BitCount n = (bitsBelow n n : Int) ∧ ∀ i, n.testBit i = true → i < n) ∧
    (bitCounts.length = 256 ∧ ∀ b, b < 256 → bitCounts.getD b 0 = (bitsBelow 8 b : Int)) ∧
    (∀ (dist : Dense α) (p : Nat) (eps : α),
      BitCount (regionQuery p 0 dist eps)
        = (((List.range dist.rows).filter (fun j => decide (dist.At p j ≤ eps))).length : Int)) := by
  refine ⟨fun n k h => bitCount_eq_bitsBelow n k h, ?_, ⟨by decide!, ?_⟩, ?_⟩
  · intro n
    refine ⟨bitCount_eq_bitsBelow n n (Nat.lt_two_pow n), ?_⟩
    intro i hi
    by_contra hge
    have hlt : n < 2 ^ i :=
      lt_of_lt_of_le (Nat.lt_two_pow n) (Nat.pow_le_pow_right (by decide) (by omega))
    rw [Nat.testBit_lt_two_pow hlt] at hi
    exact absurd hi (by decide)
  · intro b hb
    exact bitCounts_entry ⟨b, hb⟩
  · intro dist p eps
    exact bitCount_regionQuery p dist eps

/-! ## The restart index -/

section Core

variable {α : Type} [LE α] [DecidableRel (α := α) (· ≤ ·)]

theorem specExpandLoop_done (dist : Dense α) (eps : α) (minCount : Int) (rows c i nb : Nat)
    (s : State) (h : ¬ i < rows) : specExpandLoop dist eps minCount rows c i nb s = s := by
  rw [specExpandLoop]; simp [h]

theorem specExpandLoop_skip (dist : Dense α) (eps : α) (minCount : Int) (rows c i nb : Nat)
    (s : State) (h : i < rows) (hs : nb.testBit i = false ∨ s.visited.testBit i = true) :
    specExpandLoop dist eps minCount rows c i nb s
      = specExpandLoop dist eps minCount rows c (i + 1) nb s := by
  rw [specExpandLoop]
  rcases hs with hs | hs
  · simp [h, hs]
  · simp [h, hs]

theorem specExpandLoop_visit (dist : Dense α) (eps : α) (minCount : Int) (rows c i nb : Nat)
    (s : State) (h : i < rows) (hn : nb.testBit i = true) (hv : s.visited.testBit i = false) :
    specExpandLoop dist eps minCount rows c i nb s
      = if IsCore dist eps minCount i then
          specExpandLoop dist eps minCount rows c 0
            (Big.Or nb (regionQuery i 0 dist eps)) (visitState c i s)
        else
          specExpandLoop dist eps minCount rows c (i + 1) nb (visitState c i s) := by
  rw [specExpandLoop]
  simp [h, hn, hv]

/-- Once row 0 is visited, the scan that restarts at index 0 and the scan of
the code, which resumes at index 1, compute the same thing. -/
theorem specExpandLoop_eq (dist : Dense α) (eps : α) (minCount : Int) (rows c : Nat) :
    ∀ i nb s, s.visited.testBit 0 = true →
      specExpandLoop dist eps minCount rows c i nb s
        = expandLoop dist eps minCount rows c i nb s := by
  intro i nb s
  induction i, nb, s using expandLoop.induct dist eps minCount rows c with
  | case1 i nb s h hb ih =>
    intro h0
    have hb2 := (Big.bit_eq_zero _ _).mp hb
    rw [expandLoop_skip dist eps minCount rows c i nb s h (Or.inl hb2),
      specExpandLoop_skip dist eps minCount rows c i nb s h (Or.inl hb2)]
    exact ih h0
  | case2 i nb s h hb hv visited newNeighbours reset nb1 s1 ih =>
    intro h0
    have hn : nb.testBit i = true := by
      by_cases hx : nb.testBit i = true
      · exact hx
      · exact absurd ((Big.bit_eq_zero _ _).mpr (by simpa using hx)) hb
    have hv2 := (Big.bit_eq_zero _ _).mp hv
    have e1 : (if h : reset = true then 0 else i) + 1 = visitNext dist eps minCount i := by
      simp only [dite_eq_ite]; rfl
    have e2 : nb1 = visitNeighbours dist eps minCount i nb := by
      simp only [nb1, dite_eq_ite]; rfl
    have e3 : s1 = visitState c i s := by
      simp only [s1, dite_eq_ite]; rfl
    rw [e1, e2, e3] at ih
    have h0' : (visitState c i s).visited.testBit 0 = true := by
      rw [visitState_visited]
      exact Big.testBit_setBit_of_true _ _ _ h0
    rw [expandLoop_visit dist eps minCount rows c i nb s h hn hv2,
      specExpandLoop_visit dist eps minCount rows c i nb s h hn hv2, ← ih h0']
    by_cases hcore : IsCore dist eps minCount i
    · have hprom := (promoted_iff dist eps minCount i).mpr hcore
      have en : visitNext dist eps minCount i = 1 := by
        unfold visitNext; rw [if_pos hprom]
      have eb : visitNeighbours dist eps minCount i nb
          = Big.Or nb (regionQuery i 0 dist eps) := by
        unfold visitNeighbours; rw [if_pos hprom]
      rw [if_pos hcore, en, eb]
      exact specExpandLoop_skip dist eps minCount rows c 0 _ _ (by omega) (Or.inr h0')
    · have hprom : ¬ promoted dist eps minCount i = true :=
        fun hp => hcore ((promoted_iff dist eps minCount i).mp hp)
      have en : visitNext dist eps minCount i = i + 1 := by
        unfold visitNext; rw [if_neg hprom]
      have eb : visitNeighbours dist eps minCount i nb = nb := by
        unfold visitNeighbours; rw [if_neg hprom]
      rw [if_neg hcore, en, eb]
  | case3 i nb s h hb hv ih =>
    intro h0
    have hv2 : s.visited.testBit i = true := by
      by_cases hx : s.visited.testBit i = true
      · exact hx
      · exact absurd ((Big.bit_eq_zero _ _).mpr (by simpa using hx)) hv
    rw [expandLoop_skip dist eps minCount rows c i nb s h (Or.inr hv2),
      specExpandLoop_skip dist eps minCount rows c i nb s h (Or.inr hv2)]
    exact ih h0
  | case4 i nb s h =>
    intro _
    rw [expandLoop_done dist eps minCount rows c i nb s h,
      specExpandLoop_done dist eps minCount rows c i nb s h]

theorem specOuterStep_eq (dist : Dense α) (eps : α) (minCount : Int) (rows : Nat)
    (st : State × Nat) (i : Nat) (h0 : i = 0 ∨ st.1.visited.testBit 0 = true) :
    specOuterStep dist eps minCount rows st i = outerStep dist eps minCount rows st i := by
  by_cases hv : st.1.visited.testBit i = true
  · rw [outerStep_visited _ _ _ _ _ _ hv]
    unfold specOuterStep
    rw [if_pos hv]
  · have hv0 : st.1.visited.testBit i = false := by simpa using hv
    by_cases hcore : IsCore dist eps minCount i
    · have hlt : ¬ (neighbourCount dist eps i : Int) < minCount := by
        unfold IsCore at hcore; omega
      rw [outerStep_seed _ _ _ _ _ _ hv0 hcore]
      unfold specOuterStep
      rw [if_neg hv]
      simp only [hlt, if_false]
      congr 1
      by_cases hcl : st.1.clustered.testBit i = true
      · rw [expandCluster_clustered dist eps minCount rows
          { clusterMap := st.1.clusterMap
            visited := Big.SetBit st.1.visited i
            clustered := st.1.clustered } i _ _ hcl]
        unfold specExpandCluster
        rw [if_pos hcl]
      · have hcl0 : st.1.clustered.testBit i = false := by simpa using hcl
        rw [expandCluster_fresh dist eps minCount rows
          { clusterMap := st.1.clusterMap
            visited := Big.SetBit st.1.visited i
            clustered := st.1.clustered } i _ _ hcl0]
        unfold specExpandCluster
        rw [if_neg hcl]
        apply specExpandLoop_eq
        rw [seedState_visited]
        rcases h0 with h | h
        · subst h; exact Big.testBit_setBit_self _ _
        · exact Big.testBit_setBit_of_true _ _ _ (Big.testBit_setBit_of_true _ _ _ h)
    · have hlt : (neighbourCount dist eps i : Int) < minCount := by
        unfold IsCore at hcore; omega
      rw [outerStep_noise _ _ _ _ _ _ hv0 hcore]
      unfold specOuterStep
      rw [if_neg hv]
      simp only [hlt, if_true]

theorem specOuterLoopUpTo_eq (dist : Dense α) (eps : α) (minCount : Int) (rows : Nat) :
    ∀ k, k ≤ rows →
      specOuterLoopUpTo dist eps minCount rows k = outerLoopUpTo dist eps minCount rows k := by
  intro k
  induction k with
  | zero => intro _; rfl
  | succ k ih =>
    intro hk
    have e : specOuterLoopUpTo dist eps minCount rows (k + 1)
        = specOuterStep dist eps minCount rows (specOuterLoopUpTo dist eps minCount rows k) k := by
      simp [specOuterLoopUpTo, List.range_succ, List.foldl_append]
    rw [e, ih (by omega), outerLoopUpTo_succ]
    apply specOuterStep_eq
    by_cases hk0 : k = 0
    · exact Or.inl hk0
    · exact Or.inr ((outerLoopUpTo_wf dist eps minCount rows k (by omega)).visited_below 0
        (by omega))

/-- C16: for every input the map returned by DBSCAN (keys, membership and the
order of each index list) is identical to the map produced by the expansion
algorithm of the specification, in which the candidate examined next after a
promotion is index 0; so are the closure variables and the counter after the
outer loop. (The code itself resumes at index 1: it sets `i = 0` and the loop
statement `i++` runs; row 0 is always visited by then, so examining it again
would change nothing.) -/
theorem C16_restart_at_zero_is_refined (dist : Dense α) (eps : α) (minCount : Int)
    (rows : Nat) :
    DBSCANOnMatrix dist eps minCount rows = specDBSCANOnMatrix dist eps minCount rows ∧
    outerLoop dist eps minCount rows = specOuterLoopUpTo dist eps minCount rows rows ∧
    (∀ i, IsCore dist eps minCount i → visitNext dist eps minCount i = 1) := by
  refine ⟨?_, ?_, ?_⟩
  · rw [DBSCANOnMatrix_eq_filter]
    unfold specDBSCANOnMatrix outerLoop
    rw [specOuterLoopUpTo_eq dist eps minCount rows rows (Nat.le_refl _)]
  · unfold outerLoop
    rw [specOuterLoopUpTo_eq dist eps minCount rows rows (Nat.le_refl _)]
  · intro i hcore
    unfold visitNext
    rw [if_pos ((promoted_iff dist eps minCount i).mpr hcore)]

end Core

/-! ## Neighbours of a promoted point -/

section Core

variable {α : Type} [LE α] [DecidableRel (α := α) (· ≤ ·)]

/-- The seed step at an unvisited core row `p` not marked in `clustered`, seen
from the outer loop: the new entry `v` of the map, and a final neighbour set
`nb1` that holds the neighbourhood of `p` and of every core row first visited
by the step, all of whose rows are visited at the end; `v` lists every row
first visited by the step that was not marked in `clustered` before. -/
theorem outerStep_seed_closure (dist : Dense α) (eps : α) (minCount : Int) (rows p : Nat)
    (st : State × Nat) (hp : p < rows) (hwf : WellFormed rows p st)
    (hv : st.1.visited.testBit p = false) (hcore : IsCore dist eps minCount p)
    (hcl : st.1.clustered.testBit p = false) :
    ∃ (nb1 : Nat) (v : List Nat),
      mapGet (outerStep dist eps minCount rows st p).1.clusterMap (st.2 + 1) = v ∧
      (∀ k, (outerStep dist eps minCount rows st p).1.visited.testBit k = true →
        st.1.visited.testBit k = false → IsCore dist eps minCount k →
        ∀ j, j < dist.rows → dist.At k j ≤ eps → nb1.testBit j = true) ∧
      (∀ j, (outerStep dist eps minCount rows st p).1.visited.testBit j = true →
        st.1.visited.testBit j = false → st.1.clustered.testBit j = false → j ∈ v) ∧
      (∀ j, j < rows → nb1.testBit j = true →
        (outerStep dist eps minCount rows st p).1.visited.testBit j = true) := by
  have hfresh := fresh_key rows p st hwf
  rw [outerStep_seed_fresh dist eps minCount rows st p hv hcore hcl hfresh]
  have hvis0 : ∀ j, (Big.SetBit (Big.SetBit st.1.visited p) p).testBit j = true ↔
      st.1.visited.testBit j = true ∨ p = j := by
    intro j
    rw [Big.testBit_setBit, Big.testBit_setBit, Bool.or_eq_true, Bool.or_eq_true,
      decide_eq_true_eq]
    tauto
  obtain ⟨nb1, gA, gB, ⟨v, hv1, hv2⟩, gE⟩ := expandLoop_closure dist eps minCount rows
    (st.2 + 1) st.1.clusterMap hfresh p st.1.visited st.1.clustered (regionQuery p 0 dist eps)
    { clusterMap := st.1.clusterMap ++ [(st.2 + 1, [p])]
      visited := Big.SetBit (Big.SetBit st.1.visited p) p
      clustered := Big.SetBit st.1.clustered p }
    (by
      intro k hk hk0
      rcases (hvis0 k).mp hk with h | h
      · rw [hk0] at h; exact absurd h (by decide)
      · exact h.symm)
    ⟨[p], rfl, by
      intro j hj hj0 _
      rcases (hvis0 j).mp hj with h | h
      · rw [hj0] at h; exact absurd h (by decide)
      · simp [h]⟩
    (by
      intro j hj
      have hj2 : (Big.SetBit st.1.clustered p).testBit j = true := hj
      rw [Big.testBit_setBit, Bool.or_eq_true, decide_eq_true_eq] at hj2
      rcases hj2 with h | h
      · exact Or.inl h
      · exact Or.inr ((hvis0 j).mpr (Or.inr h)))
    (by
      apply (hvis0 0).mpr
      by_cases hp0 : p = 0
      · exact Or.inr hp0
      · exact Or.inl (hwf.visited_below 0 (by omega)))
  refine ⟨nb1, v, ?_, ?_, hv2, gE⟩
  · show mapGet (expandLoop dist eps minCount rows (st.2 + 1) 0 (regionQuery p 0 dist eps)
      { clusterMap := st.1.clusterMap ++ [(st.2 + 1, [p])]
        visited := Big.SetBit (Big.SetBit st.1.visited p) p
        clustered := Big.SetBit st.1.clustered p }).clusterMap (st.2 + 1) = v
    rw [hv1, mapGet_last _ _ _ hfresh]
  · intro k hk hk0 hkc j hj hd
    by_cases hkp : k = p
    · subst hkp
      exact gA j ((testBit_regionQuery_zero k dist eps j).mpr ⟨hj, hd⟩)
    · exact gB k hk hk0 hkp hkc j hj hd

/-- C17, as stated, fails: on the rows at positions 0, 2, 1, 3 with `eps = 1`
and `minCount = 3` the expansion of cluster 1 from the seed row 1 visits row 2
for the first time and promotes it (its neighbourhood has 3 rows); rows 0 and
2 are neighbours of row 2, but cluster 1 ends as `[1, 3]`: row 0 had been
visited before, and both had been marked in `clustered` by the noise branch
of row 0. -/
theorem C17_neighbours_of_promoted_row_not_listed :
    ((outerLoopUpTo (lineDist zigzagPos 4) 1 3 4 1).1.visited.testBit 1 = false ∧
      IsCore (lineDist zigzagPos 4) 1 3 1 ∧
      (outerLoopUpTo (lineDist zigzagPos 4) 1 3 4 1).1.clustered.testBit 1 = false ∧
      (outerLoopUpTo (lineDist zigzagPos 4) 1 3 4 1).2 + 1 = 1) ∧
    ((outerLoopUpTo (lineDist zigzagPos 4) 1 3 4 1).1.visited.testBit 2 = false ∧
      (outerLoopUpTo (lineDist zigzagPos 4) 1 3 4 2).1.visited.testBit 2 = true ∧
      IsCore (lineDist zigzagPos 4) 1 3 2) ∧
    ((lineDist zigzagPos 4).At 2 0 ≤ 1 ∧ (lineDist zigzagPos 4).At 2 2 ≤ 1) ∧
    mapGet (outerLoopUpTo (lineDist zigzagPos 4) 1 3 4 2).1.clusterMap 1 = [1, 3] ∧
    0 ∉ mapGet (outerLoopUpTo (lineDist zigzagPos 4) 1 3 4 2).1.clusterMap 1 ∧
    2 ∉ mapGet (outerLoopUpTo (lineDist zigzagPos 4) 1 3 4 2).1.clusterMap 1 := by
  decide!

/-- C17, amended: within the expansion of cluster `c` run from the seed `p`
(an unvisited core row not marked in `clustered`), for every core row `i`
first visited during it, every neighbour `j` of `i` (`dist.At i j ≤ eps`) that
was neither visited nor marked in `clustered` before the expansion is in the
index list of cluster `c` when the expansion ends. -/
theorem C17_fresh_neighbours_of_promoted_row_listed (dist : Dense α) (eps : α)
    (minCount : Int) (rows p i j : Nat) (hdim : dist.rows = rows) (hp : p < rows)
    (hv : (outerLoopUpTo dist eps minCount rows p).1.visited.testBit p = false)
    (hcore : IsCore dist eps minCount p)
    (hcl : (outerLoopUpTo dist eps minCount rows p).1.clustered.testBit p = false)
    (hi0 : (outerLoopUpTo dist eps minCount rows p).1.visited.testBit i = false)
    (hi1 : (outerLoopUpTo dist eps minCount rows (p + 1)).1.visited.testBit i = true)
    (hic : IsCore dist eps minCount i)
    (hj : j < rows) (hij : dist.At i j ≤ eps)
    (hjv : (outerLoopUpTo dist eps minCount rows p).1.visited.testBit j = false)
    (hjc : (outerLoopUpTo dist eps minCount rows p).1.clustered.testBit j = false) :
    j ∈ mapGet (outerLoopUpTo dist eps minCount rows (p + 1)).1.clusterMap
      ((outerLoopUpTo dist eps minCount rows p).2 + 1) := by
  have hwf := outerLoopUpTo_wf dist eps minCount rows p (by omega)
  rw [outerLoopUpTo_succ] at hi1 ⊢
  obtain ⟨nb1, v, hget, hB, hC, hE⟩ := outerStep_seed_closure dist eps minCount rows p
    (outerLoopUpTo dist eps minCount rows p) hp hwf hv hcore hcl
  rw [hget]
  have hnb : nb1.testBit j = true := hB i hi1 hi0 hic j (by rw [hdim]; exact hj) hij
  exact hC j (hE j hj hnb) hjv hjc

/-- Witness of C17 (amended) on the six points at 0, 1, 2, 10, 11, 12 with
`eps = 3/2`, `minCount = 2`: in the expansion from the seed 3, row 4 is
promoted and its neighbour 5 ends in cluster 2. -/
theorem C17_fresh_neighbours_of_promoted_row_listed_witness :
    ((outerLoopUpTo (lineDist linePos 6) (3 / 2) 2 6 3).1.visited.testBit 3 = false ∧
      IsCore (lineDist linePos 6) (3 / 2) 2 3 ∧
      (outerLoopUpTo (lineDist linePos 6) (3 / 2) 2 6 3).1.clustered.testBit 3 = false ∧
      (outerLoopUpTo (lineDist linePos 6) (3 / 2) 2 6 3).1.visited.testBit 4 = false ∧
      (outerLoopUpTo (lineDist linePos 6) (3 / 2) 2 6 (3 + 1)).1.visited.testBit 4 = true ∧
      IsCore (lineDist linePos 6) (3 / 2) 2 4 ∧
      (lineDist linePos 6).At 4 5 ≤ 3 / 2 ∧
      (outerLoopUpTo (lineDist linePos 6) (3 / 2) 2 6 3).1.visited.testBit 5 = false ∧
      (outerLoopUpTo (lineDist linePos 6) (3 / 2) 2 6 3).1.clustered.testBit 5 = false) ∧
    5 ∈ mapGet (outerLoopUpTo (lineDist linePos 6) (3 / 2) 2 6 (3 + 1)).1.clusterMap
      ((outerLoopUpTo (lineDist linePos 6) (3 / 2) 2 6 3).2 + 1) :=
  ⟨by decide!,
    C17_fresh_neighbours_of_promoted_row_listed (lineDist linePos 6) (3 / 2) 2 6 3 4 5 rfl
      (by decide) (by decide!) (by decide!) (by decide!) (by decide!) (by decide!) (by decide!)
      (by decide) (by decide!) (by decide!) (by decide!)⟩

end Core

/-! ## Rows absorbed by the noise branch -/

section Core

variable {α : Type} [LE α] [DecidableRel (α := α) (· ≤ ·)]

/-- A row marked in `clustered` and listed nowhere stays so through the
expansion loop: the loop appends only rows whose `clustered` bit is clear. -/
theorem expandLoop_keeps_unlisted (dist : Dense α) (eps : α) (minCount : Int) (rows c : Nat)
    (i nb : Nat) (s : State) (x : Nat) (hcl : s.clustered.testBit x = true)
    (hx : x ∉ members s.clusterMap) :
    (expandLoop dist eps minCount rows c i nb s).clustered.testBit x = true ∧
    x ∉ members (expandLoop dist eps minCount rows c i nb s).clusterMap := by
  have key := expandLoop_rule dist eps minCount rows c
    (fun _ _ s => s.clustered.testBit x = true ∧ x ∉ members s.clusterMap)
    (fun _ _ _ _ h _ => h)
    (by
      intro i nb s _ h _ _
      obtain ⟨h1, h2⟩ := h
      refine ⟨(visitState_clustered c i s x).mpr (Or.inl h1), ?_⟩
      intro hin
      rcases (mem_members_visitState c i s x).mp hin with h | ⟨h3, h4⟩
      · exact h2 h
      · subst h3
        rw [h1] at h4
        exact absurd h4 (by decide))
    i nb s ⟨hcl, hx⟩
  obtain ⟨_, _, _, h⟩ := key
  exact h

theorem outerStep_keeps_unlisted (dist : Dense α) (eps : α) (minCount : Int) (rows k : Nat)
    (st : State × Nat) (x : Nat) (hcl : st.1.clustered.testBit x = true)
    (hx : x ∉ members st.1.clusterMap) :
    (outerStep dist eps minCount rows st k).1.clustered.testBit x = true ∧
    x ∉ members (outerStep dist eps minCount rows st k).1.clusterMap := by
  by_cases hv : st.1.visited.testBit k = true
  · rw [outerStep_visited _ _ _ _ _ _ hv]; exact ⟨hcl, hx⟩
  · have hv0 : st.1.visited.testBit k = false := by simpa using hv
    by_cases hcore : IsCore dist eps minCount k
    · by_cases hck : st.1.clustered.testBit k = true
      · rw [outerStep_seed_clustered _ _ _ _ _ _ hv0 hcore hck]; exact ⟨hcl, hx⟩
      · have hck0 : st.1.clustered.testBit k = false := by simpa using hck
        rw [outerStep_seed _ _ _ _ _ _ hv0 hcore,
          expandCluster_fresh dist eps minCount rows
            { clusterMap := st.1.clusterMap
              visited := Big.SetBit st.1.visited k
              clustered := st.1.clustered } k _ _ hck0]
        apply expandLoop_keeps_unlisted
        · rw [seedState_clustered]
          exact Big.testBit_setBit_of_true _ _ _ hcl
        · intro hin
          rcases (mem_members_seedState _ _ _ x).mp hin with h | h
          · exact hx h
          · subst h
            rw [hcl] at hck0
            exact absurd hck0 (by decide)
    · rw [outerStep_noise _ _ _ _ _ _ hv0 hcore]
      refine ⟨?_, hx⟩
      show (Big.Or st.1.clustered (regionQuery k 0 dist eps)).testBit x = true
      rw [Big.testBit_or, hcl]; rfl

theorem outerLoopUpTo_keeps_unlisted (dist : Dense α) (eps : α) (minCount : Int) (rows : Nat)
    (k x : Nat)
    (hcl : (outerLoopUpTo dist eps minCount rows k).1.clustered.testBit x = true)
    (hx : x ∉ members (outerLoopUpTo dist eps minCount rows k).1.clusterMap) :
    ∀ k2, k ≤ k2 →
      (outerLoopUpTo dist eps minCount rows k2).1.clustered.testBit x = true ∧
      x ∉ members (outerLoopUpTo dist eps minCount rows k2).1.clusterMap := by
  intro k2
  induction k2 with
  | zero =>
    intro h
    have : k = 0 := by omega
    subst this; exact ⟨hcl, hx⟩
  | succ k2 ih =>
    intro h
    by_cases hk : k = k2 + 1
    · subst hk; exact ⟨hcl, hx⟩
    · obtain ⟨h1, h2⟩ := ih (by omega)
      rw [outerLoopUpTo_succ]
      exact outerStep_keeps_unlisted dist eps minCount rows k2 _ x h1 h2

/-- A row in the neighbourhood of the non-core row `k`, listed nowhere when
the outer loop takes the noise branch at `k`, is listed nowhere afterwards. -/
theorem absorbed_never_listed (dist : Dense α) (eps : α) (minCount : Int) (rows k x : Nat)
    (hv : (outerLoopUpTo dist eps minCount rows k).1.visited.testBit k = false)
    (hnc : ¬ IsCore dist eps minCount k)
    (hnb : (regionQuery k 0 dist eps).testBit x = true)
    (hx : x ∉ members (outerLoopUpTo dist eps minCount rows k).1.clusterMap) :
    ∀ k2, k < k2 → x ∉ members (outerLoopUpTo dist eps minCount rows k2).1.clusterMap := by
  intro k2 hk2
  have hstep : (outerLoopUpTo dist eps minCount rows (k + 1)).1.clustered.testBit x = true ∧
      x ∉ members (outerLoopUpTo dist eps minCount rows (k + 1)).1.clusterMap := by
    rw [outerLoopUpTo_succ, outerStep_noise _ _ _ _ _ _ hv hnc]
    refine ⟨?_, hx⟩
    show (Big.Or _ (regionQuery k 0 dist eps)).testBit x = true
    rw [Big.testBit_or, hnb]
    simp
  exact (outerLoopUpTo_keeps_unlisted dist eps minCount rows (k + 1) x hstep.1 hstep.2 k2
    (by omega)).2

/-- C18, as stated, fails: there is no input (over rational distances) on
which a row that the noise branch of some row `k` united into `clustered`,
while no entry listed it, is listed in the map at any later point of the
outer loop. -/
theorem C18_no_absorbed_row_is_listed_later :
    ¬ ∃ (dist : Dense ℚ) (eps : ℚ) (minCount : Int) (rows k k2 x : Nat),
      k < rows ∧ k < k2 ∧ k2 ≤ rows ∧
      (outerLoopUpTo dist eps minCount rows k).1.visited.testBit k = false ∧
      ¬ IsCore dist eps minCount k ∧
      (regionQuery k 0 dist eps).testBit x = true ∧
      x ∉ members (outerLoopUpTo dist eps minCount rows k).1.clusterMap ∧
      x ∈ members (outerLoopUpTo dist eps minCount rows k2).1.clusterMap := by
  rintro ⟨dist, eps, minCount, rows, k, k2, x, _, hk2, _, hv, hnc, hnb, hx, hin⟩
  exact absorbed_never_listed dist eps minCount rows k x hv hnc hnb hx k2 hk2 hin

/-- C18, amended: for every input, a row that the noise branch of a row `k`
unites into `clustered` while no entry lists it is never listed afterwards:
not in the map at any later point of the outer loop, and in no entry of the
returned map. Its `clustered` bit excludes it from every later append, to any
cluster. -/
theorem C18_absorbed_row_stays_unlisted (dist : Dense α) (eps : α) (minCount : Int)
    (rows k x : Nat) (hk : k < rows)
    (hv : (outerLoopUpTo dist eps minCount rows k).1.visited.testBit k = false)
    (hnc : ¬ IsCore dist eps minCount k)
    (hnb : (regionQuery k 0 dist eps).testBit x = true)
    (hx : x ∉ members (outerLoopUpTo dist eps minCount rows k).1.clusterMap) :
    (∀ k2, k < k2 → x ∉ members (outerLoopUpTo dist eps minCount rows k2).1.clusterMap) ∧
    (∀ e ∈ DBSCANOnMatrix dist eps minCount rows, x ∉ e.2) := by
  have h := absorbed_never_listed dist eps minCount rows k x hv hnc hnb hx
  refine ⟨h, ?_⟩
  intro e he hxe
  have he2 := ((mem_DBSCANOnMatrix dist eps minCount rows e).mp he).1
  exact h rows hk ((mem_members_iff _ _).mpr ⟨e, he2, hxe⟩)

/-- Witness of C18 (amended) on the four points at 0, 1, 2, 3 with `eps = 1`,
`minCount = 3`: the noise branch of row 0 absorbs the core row 1, which no
entry ever lists. -/
theorem C18_absorbed_row_stays_unlisted_witness :
    ((outerLoopUpTo (lineDist unitPos 4) 1 3 4 0).1.visited.testBit 0 = false ∧
      ¬ IsCore (lineDist unitPos 4) 1 3 0 ∧
      (regionQuery 0 0 (lineDist unitPos 4) 1).testBit 1 = true ∧
      1 ∉ members (outerLoopUpTo (lineDist unitPos 4) 1 3 4 0).1.clusterMap) ∧
    ((∀ k2, 0 < k2 → 1 ∉ members (outerLoopUpTo (lineDist unitPos 4) 1 3 4 k2).1.clusterMap) ∧
      (∀ e ∈ DBSCANOnMatrix (lineDist unitPos 4) 1 3 4, 1 ∉ e.2)) :=
  ⟨by decide!,
    C18_absorbed_row_stays_unlisted (lineDist unitPos 4) 1 3 4 0 1 (by decide) (by decide!)
      (by decide!) (by decide!) (by decide!)⟩

end Core

/-! ## Termination of the expansion loop -/

theorem unvisitedCount_setBit_lt (rows visited i : Nat) (hi : i < rows)
    (hv : visited.testBit i = false) :
    unvisitedCount rows (Big.SetBit visited i) < unvisitedCount rows visited := by
  have hsub : (List.range rows).filter (fun j => !(Big.SetBit visited i).testBit j)
      = ((List.range rows).filter (fun j => !visited.testBit j)).filter (fun j => j ≠ i) := by
    rw [List.filter_filter]
    apply List.filter_congr
    intro j _
    rw [Big.testBit_setBit]
    by_cases hji : i = j
    · subst hji; simp
    · have hji2 : ¬ j = i := fun e => hji e.symm
      simp [hji, hji2]
  have hmem : i ∈ (List.range rows).filter (fun j => !visited.testBit j) := by
    simp [hi, hv]
  unfold unvisitedCount
  rw [hsub]
  exact List.length_filter_lt_length_iff_exists.mpr ⟨i, hmem, by simp⟩

theorem unvisitedCount_le (rows visited : Nat) : unvisitedCount rows visited ≤ rows := by
  unfold unvisitedCount
  calc ((List.range rows).filter (fun j => !visited.testBit j)).length
      ≤ (List.range rows).length := List.length_filter_le _ _
    _ = rows := List.length_range rows

section Core

variable {α : Type} [LE α] [DecidableRel (α := α) (· ≤ ·)]

theorem expandLoopFuel_done (dist : Dense α) (eps : α) (minCount : Int) (rows c fuel i nb : Nat)
    (s : State) (h : ¬ i < rows) :
    expandLoopFuel dist eps minCount rows c fuel i nb s = some (s, 0) := by
  cases fuel <;> simp [expandLoopFuel, h]

theorem expandLoopFuel_skip (dist : Dense α) (eps : α) (minCount : Int) (rows c fuel i nb : Nat)
    (s : State) (h : i < rows) (hs : nb.testBit i = false ∨ s.visited.testBit i = true) :
    expandLoopFuel dist eps minCount rows c (fuel + 1) i nb s
      = expandLoopFuel dist eps minCount rows c fuel (i + 1) nb s := by
  rw [expandLoopFuel]
  rcases hs with hs | hs
  · simp [h, (Big.bit_eq_zero nb i).mpr hs]
  · have h1 : Big.Bit s.visited i = 1 := (Big.bit_eq_one _ _).mpr hs
    simp [h, h1]

theorem expandLoopFuel_visit (dist : Dense α) (eps : α) (minCount : Int)
    (rows c fuel i nb : Nat) (s : State) (h : i < rows) (hn : nb.testBit i = true)
    (hv : s.visited.testBit i = false) :
    expandLoopFuel dist eps minCount rows c (fuel + 1) i nb s
      = (expandLoopFuel dist eps minCount rows c fuel (visitNext dist eps minCount i)
          (visitNeighbours dist eps minCount i nb) (visitState c i s)).map
          (fun r => (r.1, if promoted dist eps minCount i then r.2 + 1 else r.2)) := by
  rw [expandLoopFuel]
  have h1 : Big.Bit nb i = 1 := (Big.bit_eq_one _ _).mpr hn
  have h0 : Big.Bit s.visited i = 0 := (Big.bit_eq_zero _ _).mpr hv
  simp only [h, h1, h0, if_true, one_ne_zero, if_false]
  rfl

/-- A step budget that covers the measure of the loop is enough: the budgeted
loop ends with the result of `expandLoop`, after at most as many restarts as
there are unvisited rows. -/
theorem expandLoopFuel_enough (dist : Dense α) (eps : α) (minCount : Int) (rows c : Nat) :
    ∀ (fuel i nb : Nat) (s : State),
      unvisitedCount rows s.visited * (rows + 1) + (rows - i) ≤ fuel →
      ∃ r, expandLoopFuel dist eps minCount rows c fuel i nb s
          = some (expandLoop dist eps minCount rows c i nb s, r) ∧
        r ≤ unvisitedCount rows s.visited := by
  intro fuel
  induction fuel with
  | zero =>
    intro i nb s hm
    have hi : ¬ i < rows := by omega
    exact ⟨0, by rw [expandLoopFuel_done _ _ _ _ _ _ _ _ _ hi, expandLoop_done _ _ _ _ _ _ _ _ hi],
      Nat.zero_le _⟩
  | succ fuel ih =>
    intro i nb s hm
    by_cases hi : i < rows
    · by_cases hskip : nb.testBit i = false ∨ s.visited.testBit i = true
      · rw [expandLoopFuel_skip _ _ _ _ _ _ _ _ _ hi hskip, expandLoop_skip _ _ _ _ _ _ _ _ hi hskip]
        exact ih (i + 1) nb s (by omega)
      · have hn : nb.testBit i = true := by
          by_cases hx : nb.testBit i = true
          · exact hx
          · exact absurd (Or.inl (by simpa using hx)) hskip
        have hv : s.visited.testBit i = false := by
          by_cases hx : s.visited.testBit i = true
          · exact absurd (Or.inr hx) hskip
          · simpa using hx
        rw [expandLoopFuel_visit _ _ _ _ _ _ _ _ _ hi hn hv, expandLoop_visit _ _ _ _ _ _ _ _ hi hn hv]
        have hdec : unvisitedCount rows (visitState c i s).visited + 1
            ≤ unvisitedCount rows s.visited := by
          rw [visitState_visited]
          exact unvisitedCount_setBit_lt rows s.visited i hi hv
        have hmul : unvisitedCount rows (visitState c i s).visited * (rows + 1) + (rows + 1)
            ≤ unvisitedCount rows s.visited * (rows + 1) := by
          have := Nat.mul_le_mul_right (rows + 1) hdec
          rw [Nat.add_mul, Nat.one_mul] at this
          exact this
        obtain ⟨r, hr1, hr2⟩ := ih (visitNext dist eps minCount i)
          (visitNeighbours dist eps minCount i nb) (visitState c i s) (by omega)
        rw [hr1]
        refine ⟨if promoted dist eps minCount i then r + 1 else r, rfl, ?_⟩
        split <;> omega
    · exact ⟨0, by rw [expandLoopFuel_done _ _ _ _ _ _ _ _ _ hi, expandLoop_done _ _ _ _ _ _ _ _ hi],
        Nat.zero_le _⟩

/-- C19: for every row count, matrix, `eps`, `minCount` and every state of the
closure variables, the expansion loop terminates: run with a budget of
`(u + 1) * (rows + 1)` executions of its body (or more), where `u ≤ rows` is
the number of unvisited rows at entry, it ends with the result of
`expandLoop`, after at most `u ≤ rows` restarts. A restart happens only in
the step that first visits a row: that step marks a previously unvisited row
visited, keeps every other visited row, and strictly lowers the number of
unvisited rows; every other step advances the index by one. -/
theorem C19_expansion_loop_terminates (dist : Dense α) (eps : α) (minCount : Int)
    (rows c : Nat) :
    (∀ i nb s extra, ∃ r,
      expandLoopFuel dist eps minCount rows c
          ((unvisitedCount rows s.visited + 1) * (rows + 1) + extra) i nb s
        = some (expandLoop dist eps minCount rows c i nb s, r) ∧
      r ≤ unvisitedCount rows s.visited ∧ unvisitedCount rows s.visited ≤ rows) ∧
    (∀ i nb s, i < rows → nb.testBit i = true → s.visited.testBit i = false →
      expandLoop dist eps minCount rows c i nb s
        = expandLoop dist eps minCount rows c (visitNext dist eps minCount i)
            (visitNeighbours dist eps minCount i nb) (visitState c i s) ∧
      (visitState c i s).visited.testBit i = true ∧
      (∀ j, s.visited.testBit j = true → (visitState c i s).visited.testBit j = true) ∧
      unvisitedCount rows (visitState c i s).visited < unvisitedCount rows s.visited) ∧
    (∀ i nb s, i < rows → (nb.testBit i = false ∨ s.visited.testBit i = true) →
      expandLoop dist eps minCount rows c i nb s
        = expandLoop dist eps minCount rows c (i + 1) nb s) := by
  refine ⟨?_, ?_, ?_⟩
  · intro i nb s extra
    obtain ⟨r, h1, h2⟩ := expandLoopFuel_enough dist eps minCount rows c
      ((unvisitedCount rows s.visited + 1) * (rows + 1) + extra) i nb s
      (by rw [Nat.add_mul, Nat.one_mul]; omega)
    exact ⟨r, h1, h2, unvisitedCount_le rows s.visited⟩
  · intro i nb s hi hn hv
    refine ⟨expandLoop_visit dist eps minCount rows c i nb s hi hn hv, ?_, ?_, ?_⟩
    · rw [visitState_visited]; exact Big.testBit_setBit_self _ _
    · intro j hj
      rw [visitState_visited]; exact Big.testBit_setBit_of_true _ _ _ hj
    · rw [visitState_visited]; exact unvisitedCount_setBit_lt rows s.visited i hi hv
  · intro i nb s hi hs
    exact expandLoop_skip dist eps minCount rows c i nb s hi hs

end Core

/-! ## Every member is density-reachable from its seed -/

section Core

variable {α : Type} [LE α] [DecidableRel (α := α) (· ≤ ·)]

/-- During the expansion run from the seed `p`, the entry of the cluster
starts with `p`, and every other row of it is larger than `p` and reached
from `p` by a chain of core rows. -/
theorem expandLoop_entry (dist : Dense α) (eps : α) (minCount : Int) (rows c : Nat)
    (m0 : ClusterMap) (hc : c ∉ keys m0) (p i nb : Nat) (s : State)
    (hm : ∃ v, s.clusterMap = m0 ++ [(c, p :: v)] ∧
      ∀ x ∈ v, p < x ∧ ReachVia dist eps minCount (fun _ => True) p x)
    (hnb : ∀ j, nb.testBit j = true → ReachVia dist eps minCount (fun _ => True) p j)
    (hvis : ∀ j, j ≤ p → s.visited.testBit j = true) :
    ∃ v, (expandLoop dist eps minCount rows c i nb s).clusterMap = m0 ++ [(c, p :: v)] ∧
      ∀ x ∈ v, p < x ∧ ReachVia dist eps minCount (fun _ => True) p x := by
  have key := expandLoop_rule dist eps minCount rows c
    (fun _ nb s =>
      (∃ v, s.clusterMap = m0 ++ [(c, p :: v)] ∧
        ∀ x ∈ v, p < x ∧ ReachVia dist eps minCount (fun _ => True) p x) ∧
      (∀ j, nb.testBit j = true → ReachVia dist eps minCount (fun _ => True) p j) ∧
      (∀ j, j ≤ p → s.visited.testBit j = true))
    (fun _ _ _ _ h _ => h)
    (by
      intro i nb s _ h hn hvi
      obtain ⟨⟨v, hv1, hv2⟩, g2, g3⟩ := h
      have hpi : p < i := by
        by_contra hle
        rw [g3 i (by omega)] at hvi
        exact absurd hvi (by decide)
      refine ⟨?_, ?_, ?_⟩
      · rw [visitState_last c i s m0 (p :: v) hv1 hc]
        by_cases hcl : s.clustered.testBit i = false
        · rw [if_pos hcl]
          refine ⟨v ++ [i], by simp, ?_⟩
          intro x hx
          rcases List.mem_append.mp hx with h | h
          · exact hv2 x h
          · have : x = i := by simpa using h
            subst this
            exact ⟨hpi, g2 x hn⟩
        · rw [if_neg hcl]
          exact ⟨v, rfl, hv2⟩
      · intro j hj
        rcases (testBit_visitNeighbours dist eps minCount i nb j).mp hj with h | ⟨hcore, hjr, hd⟩
        · exact g2 j h
        · exact ReachVia.step i j (g2 i hn) trivial hcore hjr hd
      · intro j hj
        rw [visitState_visited]
        exact Big.testBit_setBit_of_true _ _ _ (g3 j hj))
    i nb s ⟨hm, hnb, hvis⟩
  obtain ⟨_, _, _, h, _⟩ := key
  exact h

/-- Every entry of the map built by the rows below `k` is `p :: v` for a core
row `p < k`, with every row of `v` larger than `p` and reached from `p` by a
chain of core rows. -/
theorem outerLoopUpTo_entries (dist : Dense α) (eps : α) (minCount : Int) (rows : Nat) :
    ∀ k, k ≤ rows → ∀ e ∈ (outerLoopUpTo dist eps minCount rows k).1.clusterMap,
      ∃ p v, e.2 = p :: v ∧ p < k ∧ IsCore dist eps minCount p ∧
        ∀ q ∈ v, p < q ∧ ReachVia dist eps minCount (fun _ => True) p q := by
  intro k
  induction k with
  | zero =>
    intro _ e he
    rw [outerLoopUpTo_zero] at he
    simp [initState] at he
  | succ k ih =>
    intro hk e he
    have hwf := outerLoopUpTo_wf dist eps minCount rows k (by omega)
    have old : ∀ e ∈ (outerLoopUpTo dist eps minCount rows k).1.clusterMap,
        ∃ p v, e.2 = p :: v ∧ p < k + 1 ∧ IsCore dist eps minCount p ∧
          ∀ q ∈ v, p < q ∧ ReachVia dist eps minCount (fun _ => True) p q := by
      intro e he
      obtain ⟨p, v, h1, h2, h3, h4⟩ := ih (by omega) e he
      exact ⟨p, v, h1, by omega, h3, h4⟩
    rw [outerLoopUpTo_succ] at he
    generalize outerLoopUpTo dist eps minCount rows k = st at he hwf old
    by_cases hv : st.1.visited.testBit k = true
    · rw [outerStep_visited _ _ _ _ _ _ hv] at he; exact old e he
    · have hv0 : st.1.visited.testBit k = false := by simpa using hv
      by_cases hcore : IsCore dist eps minCount k
      · by_cases hcl : st.1.clustered.testBit k = true
        · rw [outerStep_seed_clustered _ _ _ _ _ _ hv0 hcore hcl] at he; exact old e he
        · have hcl0 : st.1.clustered.testBit k = false := by simpa using hcl
          have hfresh := fresh_key rows k st hwf
          rw [outerStep_seed_fresh _ _ _ _ _ _ hv0 hcore hcl0 hfresh] at he
          obtain ⟨v, hv1, hv2⟩ := expandLoop_entry dist eps minCount rows (st.2 + 1)
            st.1.clusterMap hfresh k 0 (regionQuery k 0 dist eps)
            { clusterMap := st.1.clusterMap ++ [(st.2 + 1, [k])]
              visited := Big.SetBit (Big.SetBit st.1.visited k) k
              clustered := Big.SetBit st.1.clustered k }
            ⟨[], rfl, fun x hx => absurd hx (List.not_mem_nil x)⟩
            (by
              intro j hj
              obtain ⟨h1, h2⟩ := (testBit_regionQuery_zero k dist eps j).mp hj
              exact ReachVia.base j h1 h2)
            (by
              intro j hj
              show (Big.SetBit (Big.SetBit st.1.visited k) k).testBit j = true
              by_cases hjk : j = k
              · subst hjk; exact Big.testBit_setBit_self _ _
              · exact Big.testBit_setBit_of_true _ _ _
                  (Big.testBit_setBit_of_true _ _ _ (hwf.visited_below j (by omega))))
          have he2 : e ∈ st.1.clusterMap ++ [(st.2 + 1, k :: v)] := by
            rw [← hv1]; exact he
          rcases List.mem_append.mp he2 with h | h
          · exact old e h
          · have : e = (st.2 + 1, k :: v) := by simpa using h
            subst this
            exact ⟨k, v, rfl, by omega, hcore, hv2⟩
      · rw [outerStep_noise _ _ _ _ _ _ hv0 hcore] at he; exact old e he

/-- C20: for every distance matrix, `eps` and `minCount`, every entry of the
map built by DBSCAN (by its outer loop, hence also every entry it returns)
starts with its seed `p`, which is a core row and the smallest index of the
entry, and every other member `q` is density-reachable from `p`: there is a
chain `p = k0, k1, ..., km` of core rows with `dist.At k(t) k(t+1) ≤ eps` and
`dist.At km q ≤ eps`. -/
theorem C20_members_are_reachable_from_the_seed (dist : Dense α) (eps : α) (minCount : Int)
    (rows : Nat) :
    (∀ e ∈ (outerLoop dist eps minCount rows).1.clusterMap,
      ∃ p v, e.2 = p :: v ∧ p < rows ∧ IsCore dist eps minCount p ∧
        ∀ q ∈ v, p < q ∧ DensityReachable dist eps minCount p q) ∧
    (∀ e ∈ DBSCANOnMatrix dist eps minCount rows,
      ∃ p v, e.2 = p :: v ∧ p < rows ∧ IsCore dist eps minCount p ∧
        ∀ q ∈ v, p < q ∧ DensityReachable dist eps minCount p q) := by
  have h : ∀ e ∈ (outerLoop dist eps minCount rows).1.clusterMap,
      ∃ p v, e.2 = p :: v ∧ p < rows ∧ IsCore dist eps minCount p ∧
        ∀ q ∈ v, p < q ∧ DensityReachable dist eps minCount p q := by
    intro e he
    obtain ⟨p, v, h1, h2, h3, h4⟩ :=
      outerLoopUpTo_entries dist eps minCount rows rows (Nat.le_refl _) e he
    exact ⟨p, v, h1, h2, h3, fun q hq => ⟨(h4 q hq).1, h3, (h4 q hq).2⟩⟩
  exact ⟨h, fun e he => h e ((mem_DBSCANOnMatrix dist eps minCount rows e).mp he).1⟩

end Core

end Clustering
